import Mathlib

/-!
# Contiguous-region allocator (`allocator.c`)

Shallow embedding of the region ledger, the process table and the three
operations `request_reg`, `release_reg` and `compact_regs`.

Representation.
* A `region` node carries its own address `addr`; the doubly linked list is
  the Lean list of the live nodes in link order, so `r->next` / `r->prev` of a
  node are its right / left neighbour in the list.
* A pointer is an address (`Nat`); `NULL` is `none`.  Dereferencing a pointer
  goes through `locate`, which splits the node list at the node with that
  address.  Dereferencing an address that is not a live node is undefined in
  C; every operation returns `none` in that case.
* `unsigned long` arithmetic is reduced modulo `ULONG_MOD`.
* The state carries in `heap` the outcomes of the calls of `malloc` to come
  (`false`: the call returns `NULL`), so that every pattern of storage
  exhaustion is a state; a call that succeeds for a `region` returns the
  fresh address `brk`.  `proc` entries have no address of their own.
* A bucket of `proc_table` is the list of its `proc` entries in chain order.

The page-replacement steps of `pager/pager.c` are embedded in the namespace
`Pager`, after the definitions of the allocator.
-/

namespace Allocator

abbrev HASHSIZE : Nat := 10

def ULONG_MOD : Nat := 2 ^ 64

/-- Addition of two `unsigned long` values. -/
def uadd (a b : Nat) : Nat := (a + b) % ULONG_MOD

/-! ## Error codes (`enum error`) -/

def E_MEM : Int := 1
def E_FLAG : Int := 2
def E_NULLREG : Int := 3
def E_NOTHOLE : Int := 4
def E_NOTDEF : Int := 5
def E_HOLETOOSMALL : Int := 6
def E_EMPTY : Int := 7
def E_KIND : Int := 8
def E_PID : Int := 9
def E_ADJ : Int := 10

/-! ## Data -/

inductive region_kind where
  | R_HOLE
  | R_PROC
  deriving DecidableEq, Repr

open region_kind

structure region where
  addr : Nat
  kind : region_kind
  start : Nat
  size : Nat
  pid : Nat
  deriving DecidableEq, Repr

structure proc where
  reg : Option Nat
  deriving DecidableEq, Repr

structure State where
  mem : Option Nat
  nodes : List region
  proc_table : Fin HASHSIZE → List proc
  brk : Nat
  heap : List Bool := []

/-- The outcome of the next call of `malloc`: `false` when it returns
`NULL`.  The calls take their outcomes from the front of `heap`; once the list
is used up every call returns storage. -/
def malloc_ok (heap : List Bool) : Bool :=
  match heap with
  | [] => true
  | ok :: _ => ok

/-- The node written by `region_init` at address `a`. -/
def region_init (a : Nat) (kind : region_kind) (start size pid : Nat) : region :=
  { addr := a, kind := kind, start := start, size := size, pid := pid }

/-- The state built by `main`: one node at address 0 initialised by
`mem_init`, every bucket of the static `proc_table` empty (`main` ends
before the first command when `malloc` gives no storage for that node). -/
def mem_init (size : Nat) : State :=
  { mem := some 0
    nodes := [region_init 0 R_HOLE 0 size 0]
    proc_table := fun _ => []
    brk := 1 }

def hash (pid : Nat) : Fin HASHSIZE := ⟨pid % HASHSIZE, Nat.mod_lt _ (by decide)⟩

/-! ## Pointers into the node list -/

/-- Split the node list at the first node whose address is `a`:
`(nodes before, the node, nodes after)`. -/
def locate : List region → Nat → Option (List region × region × List region)
  | [], _ => none
  | r :: rs, a =>
    if r.addr = a then some ([], r, rs)
    else
      match locate rs a with
      | none => none
      | some (pre, x, post) => some (r :: pre, x, post)

/-- The regions read by following `next` from `*mem`. -/
def ledger (s : State) : List region :=
  match s.mem with
  | none => []
  | some a =>
    match locate s.nodes a with
    | none => []
    | some (_, r, post) => r :: post

/-! ## Process table -/

/-- The loop of `lookup` over one bucket chain.  Result `none`: a `reg`
pointer on the way was dangling; `some none`: `NULL`; `some (some p)`: the
entry found. -/
def lookup_chain (nodes : List region) (pid : Nat) : List proc → Option (Option proc)
  | [] => some none
  | p :: ps =>
    match p.reg with
    | none => lookup_chain nodes pid ps
    | some a =>
      match locate nodes a with
      | none => none
      | some (_, r, _) => if r.pid = pid then some (some p) else lookup_chain nodes pid ps

def lookup (nodes : List region) (tbl : Fin HASHSIZE → List proc) (pid : Nat) :
    Option (Option proc) :=
  lookup_chain nodes pid (tbl (hash pid))

/-- When `lookup` finds no entry, `install` takes a new one from `malloc`
(returning -1 when that call returns `NULL`) and links it at the head of the
bucket.  The entry found by `lookup` is the first entry of its bucket with
that value, so overwriting its `reg` is `List.replace` and unlinking it is
`List.erase`. -/
def install (s : State) (pid : Nat) (reg : Option Nat) : Option (State × Int) :=
  match lookup s.nodes s.proc_table pid with
  | none => none
  | some none =>
    if malloc_ok s.heap = true then
      some ({ s with proc_table := Function.update s.proc_table (hash pid)
                       ({ reg := reg } :: s.proc_table (hash pid)),
                     heap := s.heap.tail }, 0)
    else some ({ s with heap := s.heap.tail }, -1)
  | some (some p) =>
    some ({ s with proc_table := Function.update s.proc_table (hash pid)
                     ((s.proc_table (hash pid)).replace p { reg := reg }) }, 0)

def undef (nodes : List region) (tbl : Fin HASHSIZE → List proc) (pid : Nat) :
    Option ((Fin HASHSIZE → List proc) × Int) :=
  match lookup nodes tbl pid with
  | none => none
  | some none => some (tbl, E_NOTDEF)
  | some (some p) =>
    some (Function.update tbl (hash pid) ((tbl (hash pid)).erase p), 0)

/-! ## Placement strategies -/

def find_first_fit_hole : List region → Nat → Option region
  | [], _ => none
  | reg :: rest, size =>
    if reg.kind ≠ R_HOLE then find_first_fit_hole rest size
    else if reg.size ≥ size then some reg
    else find_first_fit_hole rest size

/-- The loop of `find_best_fit_hole`, `hole` being the candidate so far. -/
def best_fit_loop (size : Nat) : Option region → List region → Option region
  | hole, [] => hole
  | hole, reg :: rest =>
    if reg.kind ≠ R_HOLE then best_fit_loop size hole rest
    else if reg.size ≥ size ∧ (hole = none ∨ ∃ h ∈ hole, reg.size < h.size) then
      best_fit_loop size (some reg) rest
    else best_fit_loop size hole rest

def find_best_fit_hole (mem : List region) (size : Nat) : Option region :=
  best_fit_loop size none mem

/-- The loop of `find_worst_fit_hole`, `hole` being the candidate so far. -/
def worst_fit_loop (size : Nat) : Option region → List region → Option region
  | hole, [] => hole
  | hole, reg :: rest =>
    if reg.kind ≠ R_HOLE then worst_fit_loop size hole rest
    else if reg.size ≥ size ∧ (hole = none ∨ ∃ h ∈ hole, reg.size > h.size) then
      worst_fit_loop size (some reg) rest
    else worst_fit_loop size hole rest

def find_worst_fit_hole (mem : List region) (size : Nat) : Option region :=
  worst_fit_loop size none mem

/-! ## Split and merge -/

/-- Steps 1 of `combine`: the kind and pid comparison. -/
def combine_check (a b : region) : Int :=
  if a.kind ≠ b.kind then E_KIND
  else if a.pid ≠ b.pid then E_PID
  else 0

/-- Step 3 of `combine`: `a` grows by the size of `b`. -/
def absorb (a b : region) : region :=
  { a with size := uadd a.size b.size }

def combine (nodes : List region) (a b : Nat) : Option (List region × Int) :=
  match locate nodes a, locate nodes b with
  | some (preA, ra, postA), some (preB, rb, postB) =>
    if ra.kind ≠ rb.kind then some (nodes, E_KIND)
    else if ra.pid ≠ rb.pid then some (nodes, E_PID)
    else if postB.head?.map region.addr = some a then
      -- b precedes a: the roles are exchanged
      some (preB ++ absorb rb ra :: postB.tail, 0)
    else if postA.head?.map region.addr ≠ some b then some (nodes, E_ADJ)
    else some (preA ++ absorb ra rb :: postA.tail, 0)
  | _, _ => none

def allocate (nodes : List region) (new hole : Option Nat) (pid size : Nat) :
    Option (List region × Int) :=
  match hole, new with
  | some h, some n =>
    if size = 0 then some (nodes, E_EMPTY)
    else
      match locate nodes h with
      | none => none
      | some (pre, hr, post) =>
        if hr.kind ≠ R_HOLE then some (nodes, E_NOTHOLE)
        else if hr.size < size then some (nodes, E_HOLETOOSMALL)
        else
          let newr := region_init n R_PROC hr.start size pid
          let hr1 := { hr with start := uadd hr.start size, size := hr.size - size }
          if hr1.size = 0 then some (pre ++ newr :: post, 0)
          else some (pre ++ newr :: hr1 :: post, 0)
  | _, _ => some (nodes, E_NULLREG)

/-! ## The three operations -/

/-- Steps 3 and 5 of `request_reg` share the call of `allocate` on a fresh
node; this is step 3, the extension of the region at address `ex`: -1 when
`malloc` returns `NULL` for the node, the code of `allocate` (the node being
freed) when it fails, the code of `combine` otherwise. -/
def request_extend (s : State) (ex : Nat) (hole : region) (pid size : Nat) :
    Option (State × Int) :=
  if malloc_ok s.heap = true then
    let new := s.brk
    match allocate s.nodes (some new) (some hole.addr) pid size with
    | none => none
    | some (nodes1, ret) =>
      if ret ≠ 0 then some ({ s with brk := s.brk + 1, heap := s.heap.tail }, ret)
      else
        match combine nodes1 ex new with
        | none => none
        | some (nodes2, rc) =>
          some ({ s with nodes := nodes2, brk := s.brk + 1, heap := s.heap.tail }, rc)
  else some ({ s with heap := s.heap.tail }, -1)

/-- Step 5 of `request_reg`: allocation in the hole chosen by the strategy:
-1 when `malloc` returns `NULL` for the node, the code of `allocate` (`*mem`
restored, the node freed) when it fails, the code of `install` otherwise,
with nothing undone when that code is -1. -/
def request_fresh (s : State) (hole : Option region) (pid size : Nat) :
    Option (State × Int) :=
  match hole with
  | some h =>
    if malloc_ok s.heap = true then
      let new := s.brk
      let mem1 := if some h.addr = s.mem then some new else s.mem
      match allocate s.nodes (some new) (some h.addr) pid size with
      | none => none
      | some (nodes1, ret) =>
        if ret ≠ 0 then
          some ({ s with mem := if h.start = 0 then some h.addr else mem1,
                         brk := s.brk + 1, heap := s.heap.tail }, ret)
        else
          install { s with mem := mem1, nodes := nodes1, brk := s.brk + 1,
                           heap := s.heap.tail } pid (some new)
    else some ({ s with heap := s.heap.tail }, -1)
  | none => some (s, E_MEM)

def request_reg (s : State) (pid size : Nat) (flag : Char) : Option (State × Int) :=
  match s.mem with
  | none => some (s, E_NULLREG)
  | some m =>
    if size = 0 then some (s, E_EMPTY)
    else
      match lookup s.nodes s.proc_table pid with
      | none => none
      | some existing =>
        match existing.bind proc.reg with
        | some ex =>
          match locate s.nodes ex with
          | none => none
          | some (_, _, post) =>
            match post with
            | n :: _ =>
              if n.kind = R_HOLE ∧ n.size ≥ size then request_extend s ex n pid size
              else some (s, E_MEM)
            | [] => some (s, E_MEM)
        | none =>
          if flag = 'F' ∨ flag = 'B' ∨ flag = 'W' then
            match locate s.nodes m with
            | none => none
            | some (_, r, post) =>
              let hole :=
                if flag = 'F' then find_first_fit_hole (r :: post) size
                else if flag = 'B' then find_best_fit_hole (r :: post) size
                else find_worst_fit_hole (r :: post) size
              request_fresh s hole pid size
          else some (s, E_FLAG)

/-- Step 4 of `release_reg`, first statement: the merge with `reg->next`
when that is a hole; `ret` is kept otherwise. -/
def release_merge_next (nodes : List region) (reg : Nat) (ret : Int) :
    Option (List region × Int) :=
  match locate nodes reg with
  | none => none
  | some (_, _, post) =>
    match post with
    | n :: _ => if n.kind = R_HOLE then combine nodes reg n.addr else some (nodes, ret)
    | [] => some (nodes, ret)

/-- Step 4 of `release_reg`, second statement: the merge with `reg->prev`
when that is a hole; `ret` is kept otherwise. -/
def release_merge_prev (nodes : List region) (reg : Nat) (ret : Int) :
    Option (List region × Int) :=
  match locate nodes reg with
  | none => none
  | some (pre, _, _) =>
    match pre.getLast? with
    | some p => if p.kind = R_HOLE then combine nodes p.addr reg else some (nodes, ret)
    | none => some (nodes, ret)

def release_reg (s : State) (pid : Nat) : Option (State × Int) :=
  match lookup s.nodes s.proc_table pid with
  | none => none
  | some none => some (s, E_NOTDEF)
  | some (some existing) =>
    match existing.reg with
    | none => none
    | some reg =>
      match undef s.nodes s.proc_table pid with
      | none => none
      | some (tbl, ret) =>
        if ret ≠ 0 then some ({ s with proc_table := tbl }, ret)
        else
          match locate s.nodes reg with
          | none => none
          | some (pre, r, post) =>
            let nodes1 := pre ++ { r with kind := R_HOLE, pid := 0 } :: post
            match release_merge_next nodes1 reg ret with
            | none => none
            | some (nodes2, ret2) =>
              match release_merge_prev nodes2 reg ret2 with
              | none => none
              | some (nodes3, ret3) =>
                some ({ s with nodes := nodes3, proc_table := tbl }, ret3)

/-- The inner loop of `compact_regs`: the hole `reg` is exchanged with the
process regions that follow it.  Result: `*mem`, the nodes before the hole,
the hole, the nodes after it. -/
def bubble (mem : Option Nat) (pre : List region) (reg : region) :
    List region → Option Nat × List region × region × List region
  | [] => (mem, pre, reg, [])
  | n :: rest =>
    if n.kind = R_PROC then
      let mem1 := if mem = some reg.addr then some n.addr else mem
      let tmp := reg.start
      bubble mem1 (pre ++ [{ n with start := tmp }])
        { reg with start := uadd reg.start n.size } rest
    else (mem, pre, reg, n :: rest)

/-- The outer loop of `compact_regs` with the scan pointer at the head of the
third argument, `pre` being the nodes before it.  The call
`combine(reg, reg->next)` is on two neighbours, so only its kind and pid
checks can fail. -/
def compact_loop (mem : Option Nat) (pre : List region) :
    List region → Option Nat × List region × Int
  | [] => (mem, pre, 0)
  | reg :: rest =>
    if reg.kind ≠ R_HOLE then compact_loop mem (pre ++ [reg]) rest
    else
      match h : bubble mem pre reg rest with
      | (mem1, pre1, reg1, []) => (mem1, pre1 ++ [reg1], 0)
      | (mem1, pre1, reg1, n :: rest1) =>
        if combine_check reg1 n ≠ 0 then
          (mem1, pre1 ++ reg1 :: n :: rest1, combine_check reg1 n)
        else compact_loop mem1 pre1 (absorb reg1 n :: rest1)
termination_by l => l.length
decreasing_by
  · simp
  · have hb : ∀ (l : List region) (m : Option Nat) (p : List region) (r : region),
        (bubble m p r l).2.2.2.length ≤ l.length := by
      intro l
      induction l with
      | nil => intro _ _ _; simp [bubble]
      | cons x xs ih =>
        intro m p r
        unfold bubble
        split
        · exact Nat.le_succ_of_le (ih _ _ _)
        · simp
    have hl : (mem1, pre1, reg1, n :: rest1).2.2.2.length ≤ rest.length := h ▸ hb _ _ _ _
    simp at hl ⊢
    omega

def compact_regs (s : State) : Option (State × Int) :=
  match s.mem with
  | none => some (s, 0)
  | some m =>
    match locate s.nodes m with
    | none => none
    | some (pre, r, post) =>
      match compact_loop s.mem pre (r :: post) with
      | (mem1, nodes1, ret) => some ({ s with mem := mem1, nodes := nodes1 }, ret)

/-! ## The report -/

/-- The text after the address range of a line printed by `stat`:
`Process P<pid>` or `Unused`. -/
inductive label where
  | Process (pid : Nat)
  | Unused
  deriving DecidableEq, Repr

/-- The lines printed by `stat` for the regions read from `mem`, each as
`(start, end, label)` with `end = start + size - 1` in `unsigned long`
arithmetic. -/
def stat : List region → List (Nat × Nat × label)
  | [] => []
  | reg :: rest =>
    let start := reg.start
    let last := (uadd reg.start reg.size + ULONG_MOD - 1) % ULONG_MOD
    (if reg.kind = R_PROC then (start, last, label.Process reg.pid)
     else (start, last, label.Unused)) :: stat rest

/-! ## Command sequences -/

inductive Cmd where
  | RQ (pid size : Nat) (flag : Char)
  | RL (pid : Nat)
  | C

def step (s : State) : Cmd → Option (State × Int)
  | Cmd.RQ pid size flag => request_reg s pid size flag
  | Cmd.RL pid => release_reg s pid
  | Cmd.C => compact_regs s

/-- The states after a sequence of calls; `none` when a call ran into
undefined behaviour. -/
def run (s : State) : List Cmd → Option State
  | [] => some s
  | c :: cs =>
    match step s c with
    | none => none
    | some (s1, _) => run s1 cs

/-! ## Specification vocabulary -/

/-- The regions of `l` lie end to end from address `a` to address `b`, each
of positive size. -/
def Tiles : List region → Nat → Nat → Prop
  | [], a, b => a = b
  | r :: rs, a, b => r.start = a ∧ 0 < r.size ∧ Tiles rs (a + r.size) b

/-- Invariant I1: the ledger tiles `[0, total)`. -/
def I1 (total : Nat) (l : List region) : Prop :=
  l.head?.map region.start = some 0 ∧
  l.Chain' (fun a b => a.start + a.size = b.start) ∧
  l.getLast?.map (fun r => r.start + r.size) = some total ∧
  (∀ r ∈ l, 0 < r.size) ∧
  (l.map region.size).sum = total

/-- Invariant I2: no two neighbours are both holes, none are process
regions of the same pid. -/
def I2 (l : List region) : Prop :=
  l.Chain' (fun a b =>
    ¬ (a.kind = R_HOLE ∧ b.kind = R_HOLE) ∧
    ¬ (a.kind = R_PROC ∧ b.kind = R_PROC ∧ a.pid = b.pid))

/-- The region `r` of the ledger `l` is a process region owned by `pid`. -/
def Owns (l : List region) (pid : Nat) (r : region) : Prop :=
  r ∈ l ∧ r.kind = R_PROC ∧ r.pid = pid

/-- The inductive invariant of the allocator state; it holds after every
call, also after one that returned -1 for lack of storage. -/
structure Inv (total : Nat) (s : State) : Prop where
  total_pos : 0 < total
  total_lt : total < ULONG_MOD
  mem_head : s.mem = s.nodes.head?.map region.addr
  tiles : Tiles s.nodes 0 total
  addr_nodup : (s.nodes.map region.addr).Nodup
  addr_lt : ∀ r ∈ s.nodes, r.addr < s.brk
  hole_pid : ∀ r ∈ s.nodes, r.kind = R_HOLE → r.pid = 0
  no_adj_holes : s.nodes.Chain' (fun a b => ¬ (a.kind = R_HOLE ∧ b.kind = R_HOLE))
  tbl_sound : ∀ b, ∀ p ∈ s.proc_table b,
    ∃ r ∈ s.nodes, p.reg = some r.addr ∧ r.kind = R_PROC ∧ hash r.pid = b
  tbl_nodup : ∀ b, (s.proc_table b).Nodup

/-- The process index agrees with the ledger: no two process regions have
the same pid and every process region has its entry in the table. -/
structure Coherent (s : State) : Prop where
  pid_nodup : ((s.nodes.filter (fun r => r.kind = R_PROC)).map region.pid).Nodup
  tbl_complete : ∀ r ∈ s.nodes, r.kind = R_PROC →
    ({ reg := some r.addr } : proc) ∈ s.proc_table (hash r.pid)

/-- The states reached from `mem_init total` by calls of the three
operations, whatever the outcomes of the calls of `malloc`. -/
inductive Reachable (total : Nat) : State → Prop
  | init (heap : List Bool) : Reachable total { mem_init total with heap := heap }
  | step {s s1 : State} {rc : Int} (c : Cmd) :
      Reachable total s → step s c = some (s1, rc) → Reachable total s1

/-- The states reached from `mem_init total` by calls none of which returned
-1, the code of a call of `malloc` that returned `NULL`. -/
inductive ReachableOK (total : Nat) : State → Prop
  | init (heap : List Bool) : ReachableOK total { mem_init total with heap := heap }
  | step {s s1 : State} {rc : Int} (c : Cmd) :
      ReachableOK total s → step s c = some (s1, rc) → rc ≠ -1 → ReachableOK total s1

/-- What a hole `h` becomes when `size` units are carved off its front for
`pid`, the new node being at address `new`: the process region, followed by
the rest of the hole unless the hole is used up. -/
def carve (new : Nat) (h : region) (pid size : Nat) : List region :=
  if h.size = size then [region_init new R_PROC h.start size pid]
  else [region_init new R_PROC h.start size pid,
        { h with start := h.start + size, size := h.size - size }]

/-- What a process region `r` and the hole `h` after it become when `r` is
extended by `size` units: the enlarged region, followed by the rest of the
hole unless the hole is used up. -/
def grow (r h : region) (size : Nat) : List region :=
  if h.size = size then [{ r with size := r.size + size }]
  else [{ r with size := r.size + size },
        { h with start := h.start + size, size := h.size - size }]

/-- The hole selected by the `switch` of `request_reg` for a valid flag. -/
def chosen_hole (flag : Char) (l : List region) (size : Nat) : Option region :=
  if flag = 'F' then find_first_fit_hole l size
  else if flag = 'B' then find_best_fit_hole l size
  else find_worst_fit_hole l size

/-- The hole `x` takes in the region after it when that is a hole. -/
def merge_right (x : region) (post : List region) : region × List region :=
  match post with
  | n :: post1 =>
    if n.kind = R_HOLE then ({ x with size := x.size + n.size }, post1) else (x, post)
  | [] => (x, [])

/-- The hole `x` is taken in by the region before it when that is a hole. -/
def merge_left (pre : List region) (x : region) (post : List region) : List region :=
  match pre.getLast? with
  | some p =>
    if p.kind = R_HOLE then pre.dropLast ++ { p with size := p.size + x.size } :: post
    else pre ++ x :: post
  | none => pre ++ x :: post

/-- The ledger after the release of the region `r`, the nodes before it
being `pre` and those after it `post`: `r` becomes a hole of owner 0 that
takes in the hole directly after it and is taken in by the hole directly
before it. -/
def released (pre : List region) (r : region) (post : List region) : List region :=
  merge_left pre (merge_right { r with kind := R_HOLE, pid := 0 } post).1
    (merge_right { r with kind := R_HOLE, pid := 0 } post).2

/-- The process table after `undef` removed the entry of the region `r`. -/
def table_without (tbl : Fin HASHSIZE → List proc) (r : region) : Fin HASHSIZE → List proc :=
  Function.update tbl (hash r.pid) ((tbl (hash r.pid)).erase { reg := some r.addr })

/-- The regions of `l` laid end to end from address `start`. -/
def pack (start : Nat) : List region → List region
  | [] => []
  | p :: ps => { p with start := start } :: pack (start + p.size) ps

/-- The compacted form of the regions `l` that begin at address `a`: the
process regions in their order, packed from `a`, then one hole (at the node of
the first hole of `l`) as large as all holes of `l` together when `l` has a
hole. -/
def compact_tail (a : Nat) (l : List region) : List region :=
  pack a (l.filter (fun r => r.kind = R_PROC)) ++
    match l.filter (fun r => r.kind = R_HOLE) with
    | [] => []
    | h :: hs =>
      [{ addr := h.addr, kind := R_HOLE,
         start := a + ((l.filter (fun r => r.kind = R_PROC)).map region.size).sum,
         size := ((h :: hs).map region.size).sum, pid := 0 }]

/-- The reference result of compaction. -/
def compact_ref (l : List region) : List region := compact_tail 0 l

/-- The head pointer after the hole at address `a` was moved behind the
process regions `pp`. -/
def head_after (mem : Option Nat) (a : Nat) (pp : List region) : Option Nat :=
  match pp with
  | [] => mem
  | p :: _ => if mem = some a then some p.addr else mem

/-- The state after `RQ P1 20 F` on a space of 100 units: the region of pid
1 followed by the hole. -/
def state_one_proc : State :=
  { mem := some 1
    nodes := [⟨1, R_PROC, 0, 20, 1⟩, ⟨0, R_HOLE, 20, 80, 0⟩]
    proc_table := Function.update (fun _ => []) (hash 1) [⟨some 1⟩]
    brk := 2 }

/-- The state after `RQ P1 20 F` on a space of 100 units when `malloc`
returned a node and then `NULL` for the entry of `install`: the region of pid 1
is in the ledger and the table is empty. -/
def state_no_entry : State :=
  { mem := some 1
    nodes := [⟨1, R_PROC, 0, 20, 1⟩, ⟨0, R_HOLE, 20, 80, 0⟩]
    proc_table := fun _ => []
    brk := 2 }

/-- The state after a second call `RQ P1 30 F` from `state_no_entry`. -/
def state_two_regions : State :=
  { mem := some 1
    nodes := [⟨1, R_PROC, 0, 20, 1⟩, ⟨2, R_PROC, 20, 30, 1⟩, ⟨0, R_HOLE, 50, 50, 0⟩]
    proc_table := Function.update (fun _ => []) (hash 1) [⟨some 2⟩]
    brk := 3 }

/-- The state inside `RQ P11 30 F` after `RQ P1 20 F` on a space of 100
units, when `allocate` has spliced the region of pid 11 and `install` has not
been called yet: pids 1 and 11 share a bucket. -/
def state_before_install : State :=
  { mem := some 1
    nodes := [⟨1, R_PROC, 0, 20, 1⟩, ⟨2, R_PROC, 20, 30, 11⟩, ⟨0, R_HOLE, 50, 50, 0⟩]
    proc_table := Function.update (fun _ => []) (hash 1) [⟨some 1⟩]
    brk := 3 }

/-- One region of pid 7 at address 0 and an empty table. -/
def state_pid7 : State :=
  { mem := some 0
    nodes := [⟨0, R_PROC, 0, 100, 7⟩]
    proc_table := fun _ => []
    brk := 1 }

/-- Two regions of pid 5 and a table that holds an entry for each. -/
def state_two_entries : State :=
  { mem := some 0
    nodes := [⟨0, R_PROC, 0, 50, 5⟩, ⟨1, R_PROC, 50, 50, 5⟩]
    proc_table := Function.update (fun _ => []) (hash 5) [⟨some 0⟩, ⟨some 1⟩]
    brk := 2 }

/-- The region `x` is a hole of at least `size` units. -/
def Fits (size : Nat) (x : region) : Prop := x.kind = R_HOLE ∧ size ≤ x.size

instance instDecidableFits (size : Nat) (x : region) : Decidable (Fits size x) :=
  inferInstanceAs (Decidable (x.kind = R_HOLE ∧ size ≤ x.size))

/-- The state after `RQ P1 20 F`, `RQ P2 30 F` on a space of 100 units. -/
def state_two_procs : State :=
  { mem := some 1
    nodes := [⟨1, R_PROC, 0, 20, 1⟩, ⟨2, R_PROC, 20, 30, 2⟩, ⟨0, R_HOLE, 50, 50, 0⟩]
    proc_table :=
      Function.update (Function.update (fun _ => []) (hash 1) [⟨some 1⟩]) (hash 2) [⟨some 2⟩]
    brk := 3 }

/-- The state after `RQ P1 20 F`, `RQ P2 30 F`, `RL P1` on a space of 100
units. -/
def state_released : State :=
  { mem := some 1
    nodes := [⟨1, R_HOLE, 0, 20, 0⟩, ⟨2, R_PROC, 20, 30, 2⟩, ⟨0, R_HOLE, 50, 50, 0⟩]
    proc_table :=
      Function.update
        (Function.update (Function.update (fun _ => []) (hash 1) [⟨some 1⟩]) (hash 2)
          [⟨some 2⟩])
        (hash 1) []
    brk := 3 }

/-- The ledger `l1` is the ledger `pre ++ R :: post` with `R`, the hole
directly before it (`lh`, if any) and the hole directly after it (`rh`, if
any) replaced by the one hole `m` of owner 0 that starts where the first of
them started and is as large as all of them together; the regions `pre1`
before and `post1` after them are kept as they are. -/
def ReleasedFrom (pre : List region) (R : region) (post l1 : List region) : Prop :=
  ∃ pre1 lh rh post1 m,
    pre = pre1 ++ lh ∧ post = rh ++ post1 ∧
    (∀ x ∈ lh, x.kind = R_HOLE) ∧ (∀ x ∈ rh, x.kind = R_HOLE) ∧
    lh.length ≤ 1 ∧ rh.length ≤ 1 ∧
    (∀ x ∈ pre1.getLast?, x.kind ≠ R_HOLE) ∧ (∀ x ∈ post1.head?, x.kind ≠ R_HOLE) ∧
    l1 = pre1 ++ m :: post1 ∧
    m.kind = R_HOLE ∧ m.pid = 0 ∧
    (lh ++ [R]).head?.map region.start = some m.start ∧
    m.size = ((lh ++ R :: rh).map region.size).sum

/-- The pid read through the entry `p` (`p->reg->pid`); `none` when `reg`
is `NULL` or dangling. -/
def entry_pid (nodes : List region) (p : proc) : Option Nat :=
  match p.reg with
  | none => none
  | some a =>
    match locate nodes a with
    | none => none
    | some (_, r, _) => some r.pid

/-- No entry of the chain has a dangling `reg`. -/
def ChainLive (nodes : List region) (ps : List proc) : Prop :=
  ∀ p ∈ ps, p.reg ≠ none → entry_pid nodes p ≠ none

/-- What the claims call the content of a region: kind, start, size and
owner, without the address of its node. -/
def view (r : region) : region_kind × Nat × Nat × Nat :=
  (r.kind, r.start, r.size, r.pid)

end Allocator

/-! # Page replacement (`pager/pager.c`)

Shallow embedding of `find_page`, `fifo_step`, `lru_step` and `opt_step`.

Representation.
* An `int` is an `Int`; `INT_MAX` is that of a 32-bit `int`.  Signed overflow
  is undefined, so `faults++`, `pos + 1` and `ref_len + 1` have no result when
  the operand is `INT_MAX`.
* An `int` array is the list of its elements; a read or a write at an index
  outside it is undefined.  Every step returns `none` where the source is
  undefined.
* `nframes` is a `Nat`: the counters of the loops run from 0 up to it.
* A `for` loop over an index takes the number of iterations left as its
  first argument and the index as its second.
-/

namespace Pager

def MAX_FRAMES : Nat := 50

def INT_MAX : Int := 2147483647

structure FIFOState where
  frames : List Int
  next : Int
  faults : Int
  deriving DecidableEq, Repr

structure LRUState where
  frames : List Int
  last_used : List Int
  faults : Int
  deriving DecidableEq, Repr

structure OPTState where
  frames : List Int
  faults : Int
  deriving DecidableEq, Repr

/-- The assignment `a[i] = v`. -/
def store (a : List Int) (i : Nat) (v : Int) : Option (List Int) :=
  if i < a.length then some (a.set i v) else none

/-- The sum `x + 1` of an `int`, as in `x++`. -/
def incr (x : Int) : Option Int :=
  if x < INT_MAX then some (x + 1) else none

/-- The loop of `find_page` with `k` iterations left, at index `i`. -/
def find_page_from (frames : List Int) (page : Int) : Nat → Nat → Option Int
  | 0, _ => some (-1)
  | k + 1, i =>
    match frames[i]? with
    | none => none
    | some v => if v = page then some (i : Int) else find_page_from frames page k (i + 1)

def find_page (frames : List Int) (n : Nat) (page : Int) : Option Int :=
  find_page_from frames page n 0

/-- The search of the loop "free frame?" of the three steps, with `k`
iterations left, at index `i`: the first index whose slot holds -1. -/
def free_frame_from (frames : List Int) : Nat → Nat → Option (Option Nat)
  | 0, _ => some none
  | k + 1, i =>
    match frames[i]? with
    | none => none
    | some v => if v = -1 then some (some i) else free_frame_from frames k (i + 1)

def fifo_step (s : FIFOState) (nframes : Nat) (page : Int) : Option (FIFOState × Int) :=
  match find_page s.frames nframes page with
  | none => none
  | some idx =>
    if idx ≠ -1 then some (s, 0)
    else
      match incr s.faults with
      | none => none
      | some faults1 =>
        match free_frame_from s.frames nframes 0 with
        | none => none
        | some (some i) =>
          match store s.frames i page with
          | none => none
          | some frames1 => some ({ s with frames := frames1, faults := faults1 }, 1)
        | some none =>
          if s.next < 0 then none
          else
            match store s.frames s.next.toNat page with
            | none => none
            | some frames1 =>
              if nframes = 0 then none
              else
                some ({ frames := frames1, next := Int.tmod (s.next + 1) nframes,
                        faults := faults1 }, 1)

/-- The loop "choose least recently used" of `lru_step` with `k` iterations
left, at index `i`. -/
def lru_victim_from (last_used : List Int) : Nat → Nat → Nat → Int → Option Nat
  | 0, _, victim, _ => some victim
  | k + 1, i, victim, oldest_time =>
    match last_used[i]? with
    | none => none
    | some t =>
      if t < oldest_time then lru_victim_from last_used k (i + 1) i t
      else lru_victim_from last_used k (i + 1) victim oldest_time

def lru_step (s : LRUState) (nframes : Nat) (page time : Int) : Option (LRUState × Int) :=
  match find_page s.frames nframes page with
  | none => none
  | some idx =>
    if idx ≠ -1 then
      match store s.last_used idx.toNat time with
      | none => none
      | some last_used1 => some ({ s with last_used := last_used1 }, 0)
    else
      match incr s.faults with
      | none => none
      | some faults1 =>
        match free_frame_from s.frames nframes 0 with
        | none => none
        | some (some i) =>
          match store s.frames i page, store s.last_used i time with
          | some frames1, some last_used1 =>
            some ({ frames := frames1, last_used := last_used1, faults := faults1 }, 1)
          | _, _ => none
        | some none =>
          match s.last_used[0]? with
          | none => none
          | some oldest_time =>
            match lru_victim_from s.last_used (nframes - 1) 1 0 oldest_time with
            | none => none
            | some victim =>
              match store s.frames victim page, store s.last_used victim time with
              | some frames1, some last_used1 =>
                some ({ frames := frames1, last_used := last_used1, faults := faults1 }, 1)
              | _, _ => none

/-- The inner loop of `opt_step` for the page `p`, with `k` iterations left,
at index `j`: the index of the next use of `p`, or -1. -/
def next_use_from (refs : List Int) (p : Int) : Nat → Int → Option Int
  | 0, _ => some (-1)
  | k + 1, j =>
    if j < 0 then none
    else
      match refs[j.toNat]? with
      | none => none
      | some v => if v = p then some j else next_use_from refs p k (j + 1)

/-- The inner loop of `opt_step` from `j = pos + 1` while `j < ref_len`. -/
def next_use (refs : List Int) (pos ref_len p : Int) : Option Int :=
  match incr pos with
  | none => none
  | some j => next_use_from refs p (ref_len - j).toNat j

/-- The loop "find victim" of `opt_step` with `k` iterations left, at index
`i`. -/
def opt_victim_from (frames refs : List Int) (pos ref_len : Int) :
    Nat → Nat → Nat → Int → Option Nat
  | 0, _, victim, _ => some victim
  | k + 1, i, victim, farthest =>
    match frames[i]? with
    | none => none
    | some p =>
      match next_use refs pos ref_len p with
      | none => none
      | some nu =>
        if nu = -1 then
          match incr ref_len with
          | none => none
          | some _ => some i
        else if nu > farthest then opt_victim_from frames refs pos ref_len k (i + 1) i nu
        else opt_victim_from frames refs pos ref_len k (i + 1) victim farthest

def opt_step (s : OPTState) (nframes : Nat) (page pos : Int) (refs : List Int)
    (ref_len : Int) : Option (OPTState × Int) :=
  match find_page s.frames nframes page with
  | none => none
  | some idx =>
    if idx ≠ -1 then some (s, 0)
    else
      match incr s.faults with
      | none => none
      | some faults1 =>
        match free_frame_from s.frames nframes 0 with
        | none => none
        | some (some i) =>
          match store s.frames i page with
          | none => none
          | some frames1 => some ({ frames := frames1, faults := faults1 }, 1)
        | some none =>
          match opt_victim_from s.frames refs pos ref_len nframes 0 0 (-1) with
          | none => none
          | some victim =>
            match store s.frames victim page with
            | none => none
            | some frames1 => some ({ frames := frames1, faults := faults1 }, 1)

/-! ## Specification vocabulary of the pager -/

/-- Three frames holding the pages 1, 2, 3, the other slots of the array
empty. -/
def frames_full : List Int := [1, 2, 3] ++ List.replicate 47 (-1)

/-- One frame holding the page 3, the other slots of the array empty. -/
def frames_one : List Int := 3 :: List.replicate 49 (-1)

/-- The contract of one page-replacement step on `frames[0..nframes)`, from
the frames and fault count before (`frames`, `faults`) to those after
(`frames1`, `faults1`) with the value returned `ret`: 1 is returned exactly
when the page was not resident and 0 otherwise, the fault count grows by the
value returned, the page is resident afterwards, at most one slot of the array
has changed, and nothing has changed on a hit. -/
def StepContract (nframes : Nat) (page : Int) (frames : List Int) (faults : Int)
    (frames1 : List Int) (faults1 ret : Int) : Prop :=
  (ret = 1 ↔ page ∉ frames.take nframes) ∧
  (ret = 0 ↔ page ∈ frames.take nframes) ∧
  faults1 = faults + ret ∧
  page ∈ frames1.take nframes ∧
  frames1.length = frames.length ∧
  (∃ i : Nat, ∀ j : Nat, j ≠ i → frames1[j]? = frames[j]?) ∧
  (ret = 0 → frames1 = frames)

end Pager

namespace Allocator

open region_kind

/-! ## Pointers: `locate` -/

theorem locate_some {l : List region} {a : Nat} {pre post : List region} {r : region}
    (h : locate l a = some (pre, r, post)) :
    l = pre ++ r :: post ∧ r.addr = a ∧ ∀ x ∈ pre, x.addr ≠ a := by
  induction l generalizing pre with
  | nil => simp [locate] at h
  | cons x xs ih =>
    unfold locate at h
    split at h
    · rename_i hx
      simp only [Option.some.injEq, Prod.mk.injEq] at h
      obtain ⟨rfl, rfl, rfl⟩ := h
      simp [hx]
    · rename_i hx
      split at h
      · simp at h
      · rename_i pre1 y post1 hloc
        simp only [Option.some.injEq, Prod.mk.injEq] at h
        obtain ⟨rfl, rfl, rfl⟩ := h
        obtain ⟨h1, h2, h3⟩ := ih hloc
        refine ⟨by simp [h1], h2, ?_⟩
        intro z hz
        rcases List.mem_cons.1 hz with rfl | hz
        · exact hx
        · exact h3 z hz

theorem locate_append {pre post : List region} {r : region} {a : Nat}
    (hpre : ∀ x ∈ pre, x.addr ≠ a) (hr : r.addr = a) :
    locate (pre ++ r :: post) a = some (pre, r, post) := by
  induction pre with
  | nil => simp [locate, hr]
  | cons x xs ih =>
    have hx : x.addr ≠ a := hpre x (List.mem_cons_self _ _)
    have := ih (fun z hz => hpre z (List.mem_cons_of_mem _ hz))
    simp [locate, hx, this]

theorem locate_none {l : List region} {a : Nat} (h : ∀ x ∈ l, x.addr ≠ a) :
    locate l a = none := by
  induction l with
  | nil => simp [locate]
  | cons x xs ih =>
    have hx : x.addr ≠ a := h x (List.mem_cons_self _ _)
    have := ih (fun z hz => h z (List.mem_cons_of_mem _ hz))
    simp [locate, hx, this]

/-- In a list without repeated addresses a node is found at its own place. -/
theorem locate_mid {pre post : List region} {r : region}
    (hnd : ((pre ++ r :: post).map region.addr).Nodup) :
    locate (pre ++ r :: post) r.addr = some (pre, r, post) := by
  apply locate_append _ rfl
  intro x hx hxa
  rw [List.map_append, List.nodup_append] at hnd
  exact hnd.2.2 (List.mem_map_of_mem _ hx) (by simp [hxa])

theorem locate_mem {l : List region} {r : region} (hnd : (l.map region.addr).Nodup)
    (hr : r ∈ l) : ∃ pre post, l = pre ++ r :: post ∧ locate l r.addr = some (pre, r, post) := by
  obtain ⟨pre, post, rfl⟩ := List.append_of_mem hr
  exact ⟨pre, post, rfl, locate_mid hnd⟩

/-! ## Tiling -/

theorem tiles_nil {a b : Nat} : Tiles [] a b ↔ a = b := Iff.rfl

theorem tiles_cons {r : region} {rs : List region} {a b : Nat} :
    Tiles (r :: rs) a b ↔ r.start = a ∧ 0 < r.size ∧ Tiles rs (a + r.size) b := Iff.rfl

theorem tiles_append {l1 l2 : List region} {a b : Nat} :
    Tiles (l1 ++ l2) a b ↔ ∃ m, Tiles l1 a m ∧ Tiles l2 m b := by
  induction l1 generalizing a with
  | nil => simp [tiles_nil]
  | cons x xs ih =>
    rw [List.cons_append, tiles_cons, ih]
    simp only [tiles_cons]
    constructor
    · rintro ⟨h1, h2, m, h3, h4⟩
      exact ⟨m, ⟨h1, h2, h3⟩, h4⟩
    · rintro ⟨m, ⟨h1, h2, h3⟩, h4⟩
      exact ⟨h1, h2, m, h3, h4⟩

theorem tiles_le {l : List region} {a b : Nat} (h : Tiles l a b) : a ≤ b := by
  induction l generalizing a with
  | nil => simp [Tiles] at h; omega
  | cons x xs ih =>
    obtain ⟨_, _, h3⟩ := h
    have := ih h3
    omega

theorem tiles_mem {l : List region} {a b : Nat} (h : Tiles l a b) {r : region} (hr : r ∈ l) :
    a ≤ r.start ∧ r.start + r.size ≤ b ∧ 0 < r.size := by
  induction l generalizing a with
  | nil => simp at hr
  | cons x xs ih =>
    obtain ⟨h1, h2, h3⟩ := h
    rcases List.mem_cons.1 hr with rfl | hr
    · have := tiles_le h3
      omega
    · have := ih h3 hr
      omega

theorem tiles_sum {l : List region} {a b : Nat} (h : Tiles l a b) :
    a + (l.map region.size).sum = b := by
  induction l generalizing a with
  | nil => simpa [Tiles] using h
  | cons x xs ih =>
    obtain ⟨_, _, h3⟩ := h
    have := ih h3
    simp only [List.map_cons, List.sum_cons]
    omega

theorem tiles_chain {l : List region} {a b : Nat} (h : Tiles l a b) :
    l.Chain' (fun x y => x.start + x.size = y.start) := by
  induction l generalizing a with
  | nil => simp
  | cons x xs ih =>
    obtain ⟨h1, _, h3⟩ := h
    cases xs with
    | nil => simp
    | cons y ys =>
      rw [List.chain'_cons]
      refine ⟨?_, ih h3⟩
      have := h3.1
      omega

theorem tiles_last {l : List region} {a b : Nat} (h : Tiles l a b) (hne : l ≠ []) :
    l.getLast?.map (fun r => r.start + r.size) = some b := by
  induction l generalizing a with
  | nil => exact absurd rfl hne
  | cons x xs ih =>
    obtain ⟨h1, _, h3⟩ := h
    cases xs with
    | nil =>
      simp only [Tiles] at h3
      simp [h1, h3]
    | cons y ys =>
      have := ih h3 (by simp)
      simpa [List.getLast?_cons_cons] using this

theorem tiles_I1 {l : List region} {total : Nat} (h : Tiles l 0 total) (hne : l ≠ []) :
    I1 total l := by
  refine ⟨?_, tiles_chain h, tiles_last h hne, fun r hr => (tiles_mem h hr).2.2, ?_⟩
  · cases l with
    | nil => exact absurd rfl hne
    | cons x xs => simp [h.1]
  · simpa using tiles_sum h

theorem tiles_ne_nil {l : List region} {total : Nat} (h : Tiles l 0 total) (hpos : 0 < total) :
    l ≠ [] := by
  rintro rfl
  simp [Tiles] at h
  omega

/-! ## Process table: `lookup` -/

theorem addr_unique {l : List region} (hnd : (l.map region.addr).Nodup) {r1 r2 : region}
    (h1 : r1 ∈ l) (h2 : r2 ∈ l) (h : r1.addr = r2.addr) : r1 = r2 :=
  List.inj_on_of_nodup_map hnd h1 h2 h

theorem pid_unique {l : List region}
    (hnd : ((l.filter (fun r => r.kind = R_PROC)).map region.pid).Nodup) {r1 r2 : region}
    (h1 : r1 ∈ l) (h2 : r2 ∈ l) (k1 : r1.kind = R_PROC) (k2 : r2.kind = R_PROC)
    (h : r1.pid = r2.pid) : r1 = r2 :=
  List.inj_on_of_nodup_map hnd (List.mem_filter.2 ⟨h1, by simp [k1]⟩)
    (List.mem_filter.2 ⟨h2, by simp [k2]⟩) h

theorem locate_of_mem {l : List region} (hnd : (l.map region.addr).Nodup) {r : region}
    (hr : r ∈ l) : ∃ pre post, locate l r.addr = some (pre, r, post) := by
  obtain ⟨pre, post, _, h⟩ := locate_mem hnd hr
  exact ⟨pre, post, h⟩

theorem lookup_chain_none {nodes : List region} (hnd : (nodes.map region.addr).Nodup)
    {pid : Nat} {ps : List proc}
    (h : ∀ p ∈ ps, ∃ r ∈ nodes, p.reg = some r.addr ∧ r.pid ≠ pid) :
    lookup_chain nodes pid ps = some none := by
  induction ps with
  | nil => rfl
  | cons p ps ih =>
    obtain ⟨r, hr, hreg, hpid⟩ := h p (List.mem_cons_self _ _)
    obtain ⟨pre, post, hloc⟩ := locate_of_mem hnd hr
    have := ih (fun q hq => h q (List.mem_cons_of_mem _ hq))
    simp [lookup_chain, hreg, hloc, hpid, this]

theorem lookup_chain_found {nodes : List region} (hnd : (nodes.map region.addr).Nodup)
    {pid : Nat} {ps1 ps2 : List proc} {p : proc} {r : region}
    (h1 : ∀ q ∈ ps1, ∃ x ∈ nodes, q.reg = some x.addr ∧ x.pid ≠ pid)
    (hr : r ∈ nodes) (hreg : p.reg = some r.addr) (hpid : r.pid = pid) :
    lookup_chain nodes pid (ps1 ++ p :: ps2) = some (some p) := by
  induction ps1 with
  | nil =>
    obtain ⟨pre, post, hloc⟩ := locate_of_mem hnd hr
    simp [lookup_chain, hreg, hloc, hpid]
  | cons q qs ih =>
    obtain ⟨x, hx, hxreg, hxpid⟩ := h1 q (List.mem_cons_self _ _)
    obtain ⟨pre, post, hloc⟩ := locate_of_mem hnd hx
    have := ih (fun z hz => h1 z (List.mem_cons_of_mem _ hz))
    simp [lookup_chain, hxreg, hloc, hxpid, this]

/-- The walk over a chain reads only the pid of the nodes its entries point
at: it returns the same in two node lists that agree on them. -/
theorem lookup_chain_congr {nodes nodes1 : List region}
    (hnd : (nodes.map region.addr).Nodup) (hnd1 : (nodes1.map region.addr).Nodup)
    (pid : Nat) {ps : List proc}
    (h : ∀ p ∈ ps, ∃ r ∈ nodes, ∃ r1 ∈ nodes1,
      p.reg = some r.addr ∧ r1.addr = r.addr ∧ r1.pid = r.pid) :
    lookup_chain nodes1 pid ps = lookup_chain nodes pid ps := by
  induction ps with
  | nil => rfl
  | cons p ps ih =>
    obtain ⟨r, hr, r1, hr1, hreg, ha, hp⟩ := h p (List.mem_cons_self _ _)
    obtain ⟨pre, post, hloc⟩ := locate_of_mem hnd hr
    obtain ⟨pre1, post1, hloc1⟩ := locate_of_mem hnd1 hr1
    rw [ha] at hloc1
    have := ih (fun q hq => h q (List.mem_cons_of_mem _ hq))
    simp [lookup_chain, hreg, hloc, hloc1, hp, this]

/-- What `lookup` returns points at a live node with the pid looked up. -/
theorem lookup_chain_some {nodes : List region} {pid : Nat} {ps : List proc} {p : proc}
    (h : lookup_chain nodes pid ps = some (some p)) :
    p ∈ ps ∧ ∃ a pre r post, p.reg = some a ∧ locate nodes a = some (pre, r, post) ∧
      r.pid = pid := by
  induction ps with
  | nil => simp [lookup_chain] at h
  | cons q qs ih =>
    unfold lookup_chain at h
    split at h
    · obtain ⟨h1, h2⟩ := ih h
      exact ⟨List.mem_cons_of_mem _ h1, h2⟩
    · rename_i a hq
      split at h
      · simp at h
      · rename_i pre r post hloc
        split at h
        · rename_i hpid
          simp only [Option.some.injEq] at h
          subst h
          exact ⟨List.mem_cons_self _ _, a, pre, r, post, hq, hloc, hpid⟩
        · obtain ⟨h1, h2⟩ := ih h
          exact ⟨List.mem_cons_of_mem _ h1, h2⟩

/-- With a coherent table, a pid without a process region has no entry. -/
theorem lookup_absent {total : Nat} {s : State} (hI : Inv total s) {pid : Nat}
    (h : ∀ r ∈ s.nodes, r.kind = R_PROC → r.pid ≠ pid) :
    lookup s.nodes s.proc_table pid = some none := by
  apply lookup_chain_none hI.addr_nodup
  intro p hp
  obtain ⟨r, hr, hreg, hk, _⟩ := hI.tbl_sound _ p hp
  exact ⟨r, hr, hreg, h r hr hk⟩

/-- The walk over a chain whose entries point at live nodes returns. -/
theorem lookup_chain_total {nodes : List region} (hnd : (nodes.map region.addr).Nodup)
    (pid : Nat) {ps : List proc} (h : ∀ p ∈ ps, ∃ r ∈ nodes, p.reg = some r.addr) :
    ∃ o, lookup_chain nodes pid ps = some o := by
  induction ps with
  | nil => exact ⟨none, rfl⟩
  | cons p ps ih =>
    obtain ⟨r, hr, hreg⟩ := h p (List.mem_cons_self _ _)
    obtain ⟨o, ho⟩ := ih (fun q hq => h q (List.mem_cons_of_mem _ hq))
    obtain ⟨pre, post, hloc⟩ := locate_of_mem hnd hr
    unfold lookup_chain
    simp only [hreg, hloc]
    split
    · exact ⟨_, rfl⟩
    · exact ⟨o, ho⟩

/-- In a state of the invariant `lookup` returns: nothing, or the entry of a
process region of that pid. -/
theorem lookup_cases {total : Nat} {s : State} (hI : Inv total s) (pid : Nat) :
    lookup s.nodes s.proc_table pid = some none ∨
    ∃ pre r post, s.nodes = pre ++ r :: post ∧ r.kind = R_PROC ∧ r.pid = pid ∧
      lookup s.nodes s.proc_table pid = some (some { reg := some r.addr }) := by
  obtain ⟨o, ho⟩ := @lookup_chain_total _ hI.addr_nodup pid (s.proc_table (hash pid))
    (fun p hp => by
      obtain ⟨r, hr, hreg, _, _⟩ := hI.tbl_sound _ p hp
      exact ⟨r, hr, hreg⟩)
  cases o with
  | none => exact Or.inl ho
  | some p =>
    right
    obtain ⟨hp, a, pre, r, post, hreg, hloc, hpid⟩ := lookup_chain_some ho
    obtain ⟨hn, ha, _⟩ := locate_some hloc
    obtain ⟨x, hx, hxreg, hxk, _⟩ := hI.tbl_sound _ p hp
    have hr : r ∈ s.nodes := by rw [hn]; simp
    have hxr : x = r := by
      apply addr_unique hI.addr_nodup hx hr
      rw [hreg] at hxreg
      simp only [Option.some.injEq] at hxreg
      rw [ha, hxreg]
    subst hxr
    refine ⟨pre, x, post, hn, hxk, hpid, ?_⟩
    unfold lookup
    rw [ho]
    have : p = { reg := some x.addr } := by cases p; simp_all
    rw [this]

/-- The region an entry returned by `lookup(pid)` points at is a process
region of pid. -/
theorem lookup_entry_region {total : Nat} {s : State} (hI : Inv total s) {pid : Nat}
    {R : region} (hR : R ∈ s.nodes)
    (hlook : lookup s.nodes s.proc_table pid = some (some { reg := some R.addr })) :
    R.kind = R_PROC ∧ R.pid = pid := by
  rcases lookup_cases hI pid with hnone | ⟨pre1, r, post1, hn, hrk, hrp, hlk⟩
  · rw [hnone] at hlook; simp at hlook
  · rw [hlk] at hlook
    simp only [Option.some.injEq, proc.mk.injEq] at hlook
    have hr1 : r ∈ s.nodes := by rw [hn]; simp
    have := addr_unique hI.addr_nodup hr1 hR hlook
    rw [← this]; exact ⟨hrk, hrp⟩

/-- With a coherent table, the entry of the owner of `r` points at `r`. -/
theorem lookup_owner {total : Nat} {s : State} (hI : Inv total s) (hC : Coherent s)
    {r : region} (hr : r ∈ s.nodes) (hk : r.kind = R_PROC) :
    lookup s.nodes s.proc_table r.pid = some (some { reg := some r.addr }) := by
  have hmem := hC.tbl_complete r hr hk
  obtain ⟨ps1, ps2, hsplit, hnot⟩ := List.eq_append_cons_of_mem hmem
  unfold lookup
  rw [hsplit]
  apply lookup_chain_found hI.addr_nodup _ hr rfl rfl
  intro q hq
  have hqm : q ∈ s.proc_table (hash r.pid) := by rw [hsplit]; simp [hq]
  obtain ⟨x, hx, hxreg, hxk, _⟩ := hI.tbl_sound _ q hqm
  refine ⟨x, hx, hxreg, ?_⟩
  intro hpid
  have hxr : x = r := pid_unique hC.pid_nodup hx hr hxk hk hpid
  subst hxr
  apply hnot
  have : q = { reg := some x.addr } := by cases q; simp_all
  rw [← this]; exact hq

/-! ## `allocate` -/

theorem uadd_eq {a b : Nat} (h : a + b < ULONG_MOD) : uadd a b = a + b :=
  Nat.mod_eq_of_lt h

theorem allocate_spec {pre post : List region} {h : region} (new pid : Nat) {size : Nat}
    (hnd : ((pre ++ h :: post).map region.addr).Nodup) (hk : h.kind = R_HOLE)
    (hsz : size ≤ h.size) (h0 : size ≠ 0) (hlt : h.start + size < ULONG_MOD) :
    allocate (pre ++ h :: post) (some new) (some h.addr) pid size
      = some (pre ++ carve new h pid size ++ post, 0) := by
  have hnlt : ¬ h.size < size := by omega
  unfold allocate
  simp only [h0, if_false, locate_mid hnd, hk, ne_eq, not_true_eq_false, hnlt, uadd_eq hlt]
  by_cases he : h.size = size
  · have : h.size - size = 0 := by omega
    simp [carve, he]
  · have : h.size - size ≠ 0 := by omega
    simp [carve, he, this, hk]

theorem mem_carve {new pid size : Nat} {h r : region} (hr : r ∈ carve new h pid size) :
    r = region_init new R_PROC h.start size pid ∨
      (r = { h with start := h.start + size, size := h.size - size } ∧ h.size ≠ size) := by
  unfold carve at hr
  split at hr
  · simp at hr; exact Or.inl hr
  · rename_i hne
    simp at hr
    rcases hr with hr | hr
    · exact Or.inl hr
    · exact Or.inr ⟨hr, hne⟩

theorem tiles_carve {new pid size a b : Nat} {h : region} (hk : Tiles [h] a b)
    (hsz : size ≤ h.size) (h0 : size ≠ 0) : Tiles (carve new h pid size) a b := by
  simp only [tiles_cons, tiles_nil] at hk
  unfold carve
  split
  · simp only [tiles_cons, tiles_nil, region_init]
    omega
  · simp only [tiles_cons, tiles_nil, region_init]
    omega

/-! ## Placement strategies: what they return is a fitting hole of the list -/

theorem find_first_fit_hole_mem {l : List region} {size : Nat} {h : region}
    (hf : find_first_fit_hole l size = some h) : h ∈ l ∧ h.kind = R_HOLE ∧ size ≤ h.size := by
  induction l with
  | nil => simp [find_first_fit_hole] at hf
  | cons x xs ih =>
    unfold find_first_fit_hole at hf
    split at hf
    · obtain ⟨h1, h2⟩ := ih hf
      exact ⟨List.mem_cons_of_mem _ h1, h2⟩
    · rename_i hx
      split at hf
      · rename_i hge
        simp only [Option.some.injEq] at hf
        subst hf
        exact ⟨List.mem_cons_self _ _, by simpa using hx, hge⟩
      · obtain ⟨h1, h2⟩ := ih hf
        exact ⟨List.mem_cons_of_mem _ h1, h2⟩

theorem best_fit_loop_mem {l : List region} {size : Nat} {acc : Option region} {h : region}
    (hacc : ∀ x ∈ acc, x.kind = R_HOLE ∧ size ≤ x.size)
    (hf : best_fit_loop size acc l = some h) :
    (h ∈ l ∨ acc = some h) ∧ h.kind = R_HOLE ∧ size ≤ h.size := by
  induction l generalizing acc with
  | nil =>
    simp only [best_fit_loop] at hf
    exact ⟨Or.inr hf, hacc h (by simp [hf])⟩
  | cons x xs ih =>
    unfold best_fit_loop at hf
    split at hf
    · obtain ⟨h1, h2⟩ := ih hacc hf
      exact ⟨h1.imp_left (List.mem_cons_of_mem _), h2⟩
    · rename_i hx
      split at hf
      · rename_i hc
        have hx2 : ∀ y ∈ some x, y.kind = R_HOLE ∧ size ≤ y.size := by
          intro y hy
          simp only [Option.mem_def, Option.some.injEq] at hy
          subst hy
          exact ⟨by simpa using hx, hc.1⟩
        obtain ⟨h1, h2⟩ := ih hx2 hf
        refine ⟨Or.inl ?_, h2⟩
        rcases h1 with h1 | h1
        · exact List.mem_cons_of_mem _ h1
        · simp only [Option.some.injEq] at h1
          subst h1
          exact List.mem_cons_self _ _
      · obtain ⟨h1, h2⟩ := ih hacc hf
        exact ⟨h1.imp_left (List.mem_cons_of_mem _), h2⟩

theorem find_best_fit_hole_mem {l : List region} {size : Nat} {h : region}
    (hf : find_best_fit_hole l size = some h) : h ∈ l ∧ h.kind = R_HOLE ∧ size ≤ h.size := by
  obtain ⟨h1, h2⟩ := @best_fit_loop_mem l size none h (by simp) hf
  rcases h1 with h1 | h1
  · exact ⟨h1, h2⟩
  · simp at h1

theorem worst_fit_loop_mem {l : List region} {size : Nat} {acc : Option region} {h : region}
    (hacc : ∀ x ∈ acc, x.kind = R_HOLE ∧ size ≤ x.size)
    (hf : worst_fit_loop size acc l = some h) :
    (h ∈ l ∨ acc = some h) ∧ h.kind = R_HOLE ∧ size ≤ h.size := by
  induction l generalizing acc with
  | nil =>
    simp only [worst_fit_loop] at hf
    exact ⟨Or.inr hf, hacc h (by simp [hf])⟩
  | cons x xs ih =>
    unfold worst_fit_loop at hf
    split at hf
    · obtain ⟨h1, h2⟩ := ih hacc hf
      exact ⟨h1.imp_left (List.mem_cons_of_mem _), h2⟩
    · rename_i hx
      split at hf
      · rename_i hc
        have hx2 : ∀ y ∈ some x, y.kind = R_HOLE ∧ size ≤ y.size := by
          intro y hy
          simp only [Option.mem_def, Option.some.injEq] at hy
          subst hy
          exact ⟨by simpa using hx, hc.1⟩
        obtain ⟨h1, h2⟩ := ih hx2 hf
        refine ⟨Or.inl ?_, h2⟩
        rcases h1 with h1 | h1
        · exact List.mem_cons_of_mem _ h1
        · simp only [Option.some.injEq] at h1
          subst h1
          exact List.mem_cons_self _ _
      · obtain ⟨h1, h2⟩ := ih hacc hf
        exact ⟨h1.imp_left (List.mem_cons_of_mem _), h2⟩

theorem find_worst_fit_hole_mem {l : List region} {size : Nat} {h : region}
    (hf : find_worst_fit_hole l size = some h) : h ∈ l ∧ h.kind = R_HOLE ∧ size ≤ h.size := by
  obtain ⟨h1, h2⟩ := @worst_fit_loop_mem l size none h (by simp) hf
  rcases h1 with h1 | h1
  · exact ⟨h1, h2⟩
  · simp at h1

/-! ## Replacing a segment of the ledger -/

theorem nodup_replace {α : Type} {l1 m m1 l2 : List α} (h : (l1 ++ m ++ l2).Nodup)
    (hm : m1.Nodup) (hnew : ∀ x ∈ m1, x ∈ m ∨ x ∉ l1 ++ m ++ l2) :
    (l1 ++ m1 ++ l2).Nodup := by
  rw [List.nodup_append, List.nodup_append] at h ⊢
  obtain ⟨⟨h1, h2, h3⟩, h4, h5⟩ := h
  refine ⟨⟨h1, hm, ?_⟩, h4, ?_⟩
  · intro a ha1 ha2
    rcases hnew a ha2 with hx | hx
    · exact h3 ha1 hx
    · exact hx (by simp [ha1])
  · intro a ha1 ha2
    rcases List.mem_append.1 ha1 with ha1 | ha1
    · exact h5 (List.mem_append_left _ ha1) ha2
    · rcases hnew a ha1 with hx | hx
      · exact h5 (List.mem_append_right _ hx) ha2
      · exact hx (by simp [ha2])

theorem tiles_replace {pre mid mid1 post : List region} {a b : Nat}
    (h : Tiles (pre ++ mid ++ post) a b) (hm : ∀ x y, Tiles mid x y → Tiles mid1 x y) :
    Tiles (pre ++ mid1 ++ post) a b := by
  simp only [tiles_append] at h ⊢
  obtain ⟨m, ⟨m1, h1, h2⟩, h3⟩ := h
  exact ⟨m, ⟨m1, h1, hm _ _ h2⟩, h3⟩

/-- The bounds of a segment of a tiling. -/
theorem tiles_segment {pre mid post : List region} {a b : Nat}
    (h : Tiles (pre ++ mid ++ post) a b) : ∃ x y, Tiles mid x y ∧ a ≤ x ∧ y ≤ b := by
  simp only [tiles_append] at h
  obtain ⟨m, ⟨m1, h1, h2⟩, h3⟩ := h
  exact ⟨m1, m, h2, tiles_le h1, tiles_le h3⟩

theorem chain_replace {R : region → region → Prop} {pre mid1 post : List region}
    (hpre : pre.Chain' R) (hpost : post.Chain' R) (hmid : mid1.Chain' R) (hne : mid1 ≠ [])
    (hl : ∀ x ∈ pre.getLast?, ∀ y ∈ mid1.head?, R x y)
    (hr : ∀ x ∈ mid1.getLast?, ∀ y ∈ post.head?, R x y) :
    (pre ++ mid1 ++ post).Chain' R := by
  rw [List.chain'_append, List.chain'_append]
  refine ⟨⟨hpre, hmid, hl⟩, hpost, ?_⟩
  intro x hx y hy
  apply hr x _ y hy
  rw [List.getLast?_append] at hx
  cases hm : mid1.getLast? with
  | none => simp [List.getLast?_eq_none_iff] at hm; exact absurd hm hne
  | some z => simpa [hm] using hx

theorem chain_parts {R : region → region → Prop} {pre mid post : List region}
    (h : (pre ++ mid ++ post).Chain' R) :
    pre.Chain' R ∧ post.Chain' R ∧ mid.Chain' R ∧
      (∀ x ∈ pre.getLast?, ∀ y ∈ mid.head?, R x y) ∧
      (∀ x ∈ mid.getLast?, ∀ y ∈ post.head?, R x y) := by
  rw [List.chain'_append, List.chain'_append] at h
  obtain ⟨⟨h1, h2, h3⟩, h4, h5⟩ := h
  refine ⟨h1, h4, h2, h3, ?_⟩
  intro x hx y hy
  apply h5 x _ y hy
  rw [List.getLast?_append]
  simp only [Option.mem_def] at hx
  simp [hx]

theorem addr_nodup_replace {total : Nat} {s : State} (hI : Inv total s)
    {pre mid mid1 post : List region} (hn : s.nodes = pre ++ mid ++ post)
    (hA : (mid1.map region.addr).Nodup)
    (hA2 : ∀ x ∈ mid1, x.addr ∈ mid.map region.addr ∨ x.addr = s.brk) :
    ((pre ++ mid1 ++ post).map region.addr).Nodup := by
  have hnd := hI.addr_nodup
  rw [hn] at hnd
  simp only [List.map_append] at hnd ⊢
  apply nodup_replace hnd hA
  intro a ha
  obtain ⟨x, hx, rfl⟩ := List.mem_map.1 ha
  rcases hA2 x hx with h | h
  · exact Or.inl h
  · right
    intro hmem
    rw [← List.map_append, ← List.map_append, ← hn] at hmem
    obtain ⟨y, hy, hya⟩ := List.mem_map.1 hmem
    have := hI.addr_lt y hy
    omega

/-- The ledger part of the invariant survives the replacement of a segment
`mid` by `mid1` that covers the same addresses, reuses the node addresses of
`mid` or the fresh address `brk`. -/
theorem inv_replace {total : Nat} {s s1 : State} (hI : Inv total s)
    {pre mid mid1 post : List region}
    (hn : s.nodes = pre ++ mid ++ post) (hn1 : s1.nodes = pre ++ mid1 ++ post)
    (hne1 : mid1 ≠ [])
    (hM : s1.mem = (pre ++ mid1 ++ post).head?.map region.addr)
    (hT : ∀ x y, Tiles mid x y → Tiles mid1 x y)
    (hA : (mid1.map region.addr).Nodup)
    (hA2 : ∀ x ∈ mid1, x.addr ∈ mid.map region.addr ∨ x.addr = s.brk)
    (hB : s.brk ≤ s1.brk) (hB2 : ∀ x ∈ mid1, x.addr < s1.brk)
    (hH : ∀ x ∈ mid1, x.kind = R_HOLE → x.pid = 0)
    (hN : mid1.Chain' (fun a b => ¬ (a.kind = R_HOLE ∧ b.kind = R_HOLE)))
    (hNl : ∀ x ∈ pre.getLast?, ∀ y ∈ mid1.head?, ¬ (x.kind = R_HOLE ∧ y.kind = R_HOLE))
    (hNr : ∀ x ∈ mid1.getLast?, ∀ y ∈ post.head?, ¬ (x.kind = R_HOLE ∧ y.kind = R_HOLE))
    (hts : ∀ b, ∀ p ∈ s1.proc_table b,
      ∃ r ∈ s1.nodes, p.reg = some r.addr ∧ r.kind = R_PROC ∧ hash r.pid = b)
    (htn : ∀ b, (s1.proc_table b).Nodup) :
    Inv total s1 := by
  have htiles := hI.tiles
  have hnd := hI.addr_nodup
  have hch := hI.no_adj_holes
  rw [hn] at htiles hnd hch
  obtain ⟨c1, c2, _, _, _⟩ := chain_parts hch
  refine
    { total_pos := hI.total_pos
      total_lt := hI.total_lt
      mem_head := by rw [hM, hn1]
      tiles := by rw [hn1]; exact tiles_replace htiles hT
      addr_nodup := ?_
      addr_lt := ?_
      hole_pid := ?_
      no_adj_holes := by rw [hn1]; exact chain_replace c1 c2 hN hne1 hNl hNr
      tbl_sound := hts
      tbl_nodup := htn }
  · rw [hn1]
    exact addr_nodup_replace hI hn hA hA2
  · intro r hr
    rw [hn1] at hr
    simp only [List.mem_append] at hr
    rcases hr with (hr | hr) | hr
    · have := hI.addr_lt r (by rw [hn]; simp [hr]); omega
    · exact hB2 r hr
    · have := hI.addr_lt r (by rw [hn]; simp [hr]); omega
  · intro r hr hk
    rw [hn1] at hr
    simp only [List.mem_append] at hr
    rcases hr with (hr | hr) | hr
    · exact hI.hole_pid r (by rw [hn]; simp [hr]) hk
    · exact hH r hr hk
    · exact hI.hole_pid r (by rw [hn]; simp [hr]) hk

/-- The agreement of index and ledger survives the replacement of a segment
`mid` by `mid1` that brings no second region of a pid, when every process
region of the new ledger has its entry. -/
theorem coherent_replace {s s1 : State} (hC : Coherent s)
    {pre mid mid1 post : List region}
    (hn : s.nodes = pre ++ mid ++ post) (hn1 : s1.nodes = pre ++ mid1 ++ post)
    (hP : ((mid1.filter (fun r => r.kind = R_PROC)).map region.pid).Nodup)
    (hP2 : ∀ x ∈ mid1, x.kind = R_PROC →
      (∃ y ∈ mid, y.kind = R_PROC ∧ y.pid = x.pid) ∨
      ∀ y ∈ s.nodes, y.kind = R_PROC → y.pid ≠ x.pid)
    (htc : ∀ r ∈ s1.nodes, r.kind = R_PROC →
      ({ reg := some r.addr } : proc) ∈ s1.proc_table (hash r.pid)) :
    Coherent s1 := by
  have hpn := hC.pid_nodup
  rw [hn] at hpn
  refine { pid_nodup := ?_, tbl_complete := htc }
  · rw [hn1]
    simp only [List.filter_append, List.map_append] at hpn ⊢
    apply nodup_replace hpn hP
    intro a ha
    obtain ⟨x, hx, rfl⟩ := List.mem_map.1 ha
    obtain ⟨hx1, hx2⟩ := List.mem_filter.1 hx
    have hxk : x.kind = R_PROC := by simpa using hx2
    rcases hP2 x hx1 hxk with ⟨y, hy, hyk, hyp⟩ | h
    · left
      exact List.mem_map.2 ⟨y, List.mem_filter.2 ⟨hy, by simp [hyk]⟩, hyp⟩
    · right
      intro hmem
      rw [← List.map_append, ← List.map_append, ← List.filter_append,
        ← List.filter_append, ← hn] at hmem
      obtain ⟨y, hy, hyp⟩ := List.mem_map.1 hmem
      obtain ⟨hy1, hy2⟩ := List.mem_filter.1 hy
      exact h y hy1 (by simpa using hy2) hyp

/-! ## `request_reg`, fresh allocation -/

theorem carve_ne_nil {new pid size : Nat} {h : region} : carve new h pid size ≠ [] := by
  unfold carve; split <;> simp

theorem carve_head {new pid size : Nat} {h : region} :
    (carve new h pid size).head? = some (region_init new R_PROC h.start size pid) := by
  unfold carve; split <;> simp

theorem carve_addr_nodup {new pid size : Nat} {h : region} (hne : h.addr ≠ new) :
    ((carve new h pid size).map region.addr).Nodup := by
  unfold carve; split <;> simp [region_init, Ne.symm hne]

theorem inv_heap {total : Nat} {s : State} (hI : Inv total s) (heap : List Bool) :
    Inv total { s with heap := heap } :=
  { total_pos := hI.total_pos
    total_lt := hI.total_lt
    mem_head := hI.mem_head
    tiles := hI.tiles
    addr_nodup := hI.addr_nodup
    addr_lt := hI.addr_lt
    hole_pid := hI.hole_pid
    no_adj_holes := hI.no_adj_holes
    tbl_sound := hI.tbl_sound
    tbl_nodup := hI.tbl_nodup }

/-- The process regions of the ledger are still there when the hole `h` has
been carved. -/
theorem carve_old {pre post : List region} {h : region} (new pid size : Nat)
    (hk : h.kind = R_HOLE) :
    ∀ r ∈ pre ++ h :: post, r.kind = R_PROC → r ∈ pre ++ carve new h pid size ++ post := by
  intro r hr hrk
  simp only [List.mem_append, List.mem_cons] at hr ⊢
  rcases hr with hr | rfl | hr
  · exact Or.inl (Or.inl hr)
  · rw [hk] at hrk; cases hrk
  · exact Or.inr hr

/-- The invariant holds when the hole `h` has been carved for `pid`, with a
table whose entries point at process regions of the new ledger. -/
theorem carve_inv {total : Nat} {s : State} (hI : Inv total s)
    {pre post : List region} {h : region} {pid size : Nat}
    (hn : s.nodes = pre ++ h :: post) (hk : h.kind = R_HOLE) (hsz : size ≤ h.size)
    (h0 : size ≠ 0) (tbl1 : Fin HASHSIZE → List proc) (heap : List Bool)
    (hts : ∀ b, ∀ p ∈ tbl1 b,
      ∃ r ∈ pre ++ carve s.brk h pid size ++ post,
        p.reg = some r.addr ∧ r.kind = R_PROC ∧ hash r.pid = b)
    (htn : ∀ b, (tbl1 b).Nodup) :
    Inv total { mem := if pre = [] then some s.brk else s.mem
                nodes := pre ++ carve s.brk h pid size ++ post
                proc_table := tbl1
                brk := s.brk + 1
                heap := heap } := by
  have hch := hI.no_adj_holes
  rw [hn] at hch
  have hh : h ∈ s.nodes := by rw [hn]; simp
  have hbrk : h.addr ≠ s.brk := by have := hI.addr_lt h hh; omega
  have hn2 : s.nodes = pre ++ [h] ++ post := by simp [hn]
  have hA2 : ∀ x ∈ carve s.brk h pid size, x.addr ∈ [h].map region.addr ∨ x.addr = s.brk := by
    intro x hx
    rcases mem_carve hx with rfl | ⟨rfl, _⟩
    · right; rfl
    · left; simp
  apply inv_replace hI hn2 rfl carve_ne_nil
  · -- head pointer
    show (if pre = [] then some s.brk else s.mem) = _
    cases pre with
    | nil => simp [carve_head, region_init]
    | cons x xs => simp [hI.mem_head, hn]
  · intro x y hxy; exact tiles_carve hxy hsz h0
  · exact carve_addr_nodup hbrk
  · exact hA2
  · show s.brk ≤ s.brk + 1; omega
  · intro x hx
    show x.addr < s.brk + 1
    rcases mem_carve hx with rfl | ⟨rfl, _⟩
    · simp [region_init]
    · have := hI.addr_lt h hh; simp; omega
  · intro x hx hxk
    rcases mem_carve hx with rfl | ⟨rfl, _⟩
    · simp [region_init] at hxk
    · exact hI.hole_pid h hh hk
  · unfold carve; split <;> simp [region_init]
  · intro x _ y hy
    rw [carve_head] at hy
    simp only [Option.mem_def, Option.some.injEq] at hy
    subst hy
    simp [region_init]
  · intro x hx y hy
    have hch2 : (pre ++ [h] ++ post).Chain'
        (fun a b => ¬ (a.kind = R_HOLE ∧ b.kind = R_HOLE)) := by simpa using hch
    obtain ⟨_, _, _, _, c5⟩ := chain_parts hch2
    have := c5 h (by simp) y hy
    intro hc
    exact this ⟨hk, hc.2⟩
  · exact hts
  · exact htn

/-- The state after a successful fresh allocation in the hole `h`, the
nodes before it being `pre` and those after it `post`: `malloc` returned
storage for the node and for the entry. -/
theorem request_fresh_spec {total : Nat} {s : State} (hI : Inv total s)
    {pre post : List region} {h : region} {pid size : Nat}
    (hn : s.nodes = pre ++ h :: post) (hk : h.kind = R_HOLE) (hsz : size ≤ h.size)
    (h0 : size ≠ 0) (hnone : lookup s.nodes s.proc_table pid = some none)
    (hm1 : malloc_ok s.heap = true) (hm2 : malloc_ok s.heap.tail = true) :
    request_fresh s (some h) pid size
      = some ({ mem := if pre = [] then some s.brk else s.mem
                nodes := pre ++ carve s.brk h pid size ++ post
                proc_table := Function.update s.proc_table (hash pid)
                  ({ reg := some s.brk } :: s.proc_table (hash pid))
                brk := s.brk + 1
                heap := s.heap.tail.tail }, 0) ∧
    Inv total { mem := if pre = [] then some s.brk else s.mem
                nodes := pre ++ carve s.brk h pid size ++ post
                proc_table := Function.update s.proc_table (hash pid)
                  ({ reg := some s.brk } :: s.proc_table (hash pid))
                brk := s.brk + 1
                heap := s.heap.tail.tail } := by
  have hnd := hI.addr_nodup
  have htl := hI.tiles
  rw [hn] at hnd htl
  have hh : h ∈ s.nodes := by rw [hn]; simp
  have hlt : h.start + size < ULONG_MOD := by
    have := tiles_mem hI.tiles hh
    have := hI.total_lt
    omega
  have hbrk : h.addr ≠ s.brk := by have := hI.addr_lt h hh; omega
  have hn2 : s.nodes = pre ++ [h] ++ post := by simp [hn]
  have hA2 : ∀ x ∈ carve s.brk h pid size, x.addr ∈ [h].map region.addr ∨ x.addr = s.brk := by
    intro x hx
    rcases mem_carve hx with rfl | ⟨rfl, _⟩
    · right; rfl
    · left; simp
  have hnd1 : ((pre ++ carve s.brk h pid size ++ post).map region.addr).Nodup :=
    addr_nodup_replace hI hn2 (carve_addr_nodup hbrk) hA2
  have hold := @carve_old pre post _ s.brk pid size hk
  rw [← hn] at hold
  have hmemeq : (if some h.addr = s.mem then some s.brk else s.mem)
      = if pre = [] then some s.brk else s.mem := by
    rw [hI.mem_head, hn]
    cases pre with
    | nil => simp
    | cons x xs =>
      have hx : x.addr ≠ h.addr := by
        intro hx
        simp only [List.cons_append, List.map_cons, List.nodup_cons, List.map_append,
          List.mem_append, List.mem_map, List.mem_cons] at hnd
        exact hnd.1 (Or.inr (Or.inl hx))
      simp [Ne.symm hx]
  have hlook : lookup (pre ++ carve s.brk h pid size ++ post) s.proc_table pid = some none := by
    rw [← hnone]
    apply lookup_chain_congr hI.addr_nodup hnd1
    intro p hp
    obtain ⟨r, hr, hreg, hrk, _⟩ := hI.tbl_sound _ p hp
    exact ⟨r, hr, r, hold r hr hrk, hreg, rfl, rfl⟩
  constructor
  · unfold request_fresh
    have hal := allocate_spec s.brk pid hnd hk hsz h0 hlt
    rw [← hn] at hal
    simp only [hm1, if_true, hal, ne_eq, not_true_eq_false, if_false, install, hlook, hmemeq,
      hm2]
  · apply carve_inv hI hn hk hsz h0
    · -- table: sound
      intro b p hp
      by_cases hb : b = hash pid
      · subst hb
        rw [Function.update_same] at hp
        rcases List.mem_cons.1 hp with rfl | hp
        · refine ⟨region_init s.brk R_PROC h.start size pid, ?_, rfl, rfl, rfl⟩
          have := @carve_head s.brk pid size h
          have hm := List.mem_of_mem_head? this
          simp [hm]
        · obtain ⟨r, hr, hreg, hrk, hrb⟩ := hI.tbl_sound _ p hp
          exact ⟨r, hold r hr hrk, hreg, hrk, hrb⟩
      · rw [Function.update_noteq hb] at hp
        obtain ⟨r, hr, hreg, hrk, hrb⟩ := hI.tbl_sound _ p hp
        exact ⟨r, hold r hr hrk, hreg, hrk, hrb⟩
    · -- table: no repetition
      intro b
      by_cases hb : b = hash pid
      · subst hb
        rw [Function.update_same, List.nodup_cons]
        refine ⟨?_, hI.tbl_nodup _⟩
        intro hmem
        obtain ⟨r, hr, hreg, _, _⟩ := hI.tbl_sound _ _ hmem
        have := hI.addr_lt r hr
        simp only [Option.some.injEq] at hreg
        omega
      · rw [Function.update_noteq hb]; exact hI.tbl_nodup b

/-- The state after a fresh allocation in the hole `h` whose call of
`install` got no storage for the entry: -1 is returned, the hole has been
carved for `pid` and the table has no entry for it. -/
theorem request_fresh_noentry {total : Nat} {s : State} (hI : Inv total s)
    {pre post : List region} {h : region} {pid size : Nat}
    (hn : s.nodes = pre ++ h :: post) (hk : h.kind = R_HOLE) (hsz : size ≤ h.size)
    (h0 : size ≠ 0) (hnone : lookup s.nodes s.proc_table pid = some none)
    (hm1 : malloc_ok s.heap = true) (hm2 : malloc_ok s.heap.tail = false) :
    request_fresh s (some h) pid size
      = some ({ mem := if pre = [] then some s.brk else s.mem
                nodes := pre ++ carve s.brk h pid size ++ post
                proc_table := s.proc_table
                brk := s.brk + 1
                heap := s.heap.tail.tail }, -1) ∧
    Inv total { mem := if pre = [] then some s.brk else s.mem
                nodes := pre ++ carve s.brk h pid size ++ post
                proc_table := s.proc_table
                brk := s.brk + 1
                heap := s.heap.tail.tail } := by
  have hnd := hI.addr_nodup
  have htl := hI.tiles
  rw [hn] at hnd htl
  have hh : h ∈ s.nodes := by rw [hn]; simp
  have hlt : h.start + size < ULONG_MOD := by
    have := tiles_mem hI.tiles hh
    have := hI.total_lt
    omega
  have hbrk : h.addr ≠ s.brk := by have := hI.addr_lt h hh; omega
  have hn2 : s.nodes = pre ++ [h] ++ post := by simp [hn]
  have hA2 : ∀ x ∈ carve s.brk h pid size, x.addr ∈ [h].map region.addr ∨ x.addr = s.brk := by
    intro x hx
    rcases mem_carve hx with rfl | ⟨rfl, _⟩
    · right; rfl
    · left; simp
  have hnd1 : ((pre ++ carve s.brk h pid size ++ post).map region.addr).Nodup :=
    addr_nodup_replace hI hn2 (carve_addr_nodup hbrk) hA2
  have hold := @carve_old pre post _ s.brk pid size hk
  rw [← hn] at hold
  have hmemeq : (if some h.addr = s.mem then some s.brk else s.mem)
      = if pre = [] then some s.brk else s.mem := by
    rw [hI.mem_head, hn]
    cases pre with
    | nil => simp
    | cons x xs =>
      have hx : x.addr ≠ h.addr := by
        intro hx
        simp only [List.cons_append, List.map_cons, List.nodup_cons, List.map_append,
          List.mem_append, List.mem_map, List.mem_cons] at hnd
        exact hnd.1 (Or.inr (Or.inl hx))
      simp [Ne.symm hx]
  have hlook : lookup (pre ++ carve s.brk h pid size ++ post) s.proc_table pid = some none := by
    rw [← hnone]
    apply lookup_chain_congr hI.addr_nodup hnd1
    intro p hp
    obtain ⟨r, hr, hreg, hrk, _⟩ := hI.tbl_sound _ p hp
    exact ⟨r, hr, r, hold r hr hrk, hreg, rfl, rfl⟩
  constructor
  · unfold request_fresh
    have hal := allocate_spec s.brk pid hnd hk hsz h0 hlt
    rw [← hn] at hal
    simp only [hm1, if_true, hal, ne_eq, not_true_eq_false, if_false, install, hlook, hmemeq,
      hm2, Bool.false_eq_true]
  · apply carve_inv hI hn hk hsz h0
    · intro b p hp
      obtain ⟨r, hr, hreg, hrk, hrb⟩ := hI.tbl_sound _ p hp
      exact ⟨r, hold r hr hrk, hreg, hrk, hrb⟩
    · exact hI.tbl_nodup

/-- A fresh allocation whose call of `malloc` for the node returns `NULL`
returns -1 and touches neither the ledger nor the table. -/
theorem request_fresh_nonode (s : State) (h : region) (pid size : Nat)
    (hm1 : malloc_ok s.heap = false) :
    request_fresh s (some h) pid size = some ({ s with heap := s.heap.tail }, -1) := by
  unfold request_fresh
  simp [hm1]

/-- A successful fresh allocation keeps index and ledger in agreement. -/
theorem request_fresh_coherent {s : State} (hC : Coherent s)
    {pre post : List region} {h : region} {pid size : Nat}
    (hn : s.nodes = pre ++ h :: post) (hk : h.kind = R_HOLE)
    (hfree : ∀ r ∈ s.nodes, r.kind = R_PROC → r.pid ≠ pid) (mem1 : Option Nat)
    (brk1 : Nat) (heap : List Bool) :
    Coherent { mem := mem1
               nodes := pre ++ carve s.brk h pid size ++ post
               proc_table := Function.update s.proc_table (hash pid)
                 ({ reg := some s.brk } :: s.proc_table (hash pid))
               brk := brk1
               heap := heap } := by
  have hn2 : s.nodes = pre ++ [h] ++ post := by simp [hn]
  apply coherent_replace hC hn2 rfl
  · unfold carve; split <;> simp [region_init, hk]
  · intro x hx hxk
    rcases mem_carve hx with rfl | ⟨rfl, _⟩
    · right; exact hfree
    · simp [hk] at hxk
  · -- table: complete
    intro r hr hrk
    simp only at hr ⊢
    have hcases : r = region_init s.brk R_PROC h.start size pid ∨ r ∈ s.nodes := by
      simp only [List.mem_append] at hr
      rcases hr with (hr | hr) | hr
      · right; rw [hn]; simp [hr]
      · rcases mem_carve hr with rfl | ⟨rfl, _⟩
        · left; rfl
        · simp [hk] at hrk
      · right; rw [hn]; simp [hr]
    rcases hcases with rfl | hr
    · simp [region_init]
    · have := hC.tbl_complete r hr hrk
      by_cases hb : hash r.pid = hash pid
      · rw [hb, Function.update_same]
        rw [hb] at this
        exact List.mem_cons_of_mem _ this
      · rw [Function.update_noteq hb]; exact this

/-! ## `combine` -/

/-- The call `combine(a, b)` on two neighbours `a`, `b` (in this order) that
pass the kind and pid checks. -/
theorem combine_adjacent {pre post : List region} {a b : region}
    (hnd : ((pre ++ a :: b :: post).map region.addr).Nodup)
    (hk : a.kind = b.kind) (hp : a.pid = b.pid) :
    combine (pre ++ a :: b :: post) a.addr b.addr = some (pre ++ absorb a b :: post, 0) := by
  have hA := locate_mid hnd
  have hnd2 : (((pre ++ [a]) ++ b :: post).map region.addr).Nodup := by simpa using hnd
  have hB := locate_mid hnd2
  have hB2 : locate (pre ++ a :: b :: post) b.addr = some (pre ++ [a], b, post) := by
    simpa using hB
  have hnot : post.head?.map region.addr ≠ some a.addr := by
    intro h
    cases post with
    | nil => simp at h
    | cons y ys =>
      simp only [List.head?_cons, Option.map_some', Option.some.injEq] at h
      simp only [List.map_append, List.map_cons, List.nodup_append, List.nodup_cons,
        List.mem_cons, List.mem_map] at hnd
      exact hnd.2.1.1 (Or.inr (Or.inl h.symm))
  unfold combine
  simp [hA, hB2, hk, hp, hnot]

theorem combine_adjacent_check {pre post : List region} {a b : region}
    (hnd : ((pre ++ a :: b :: post).map region.addr).Nodup)
    (hc : combine_check a b = 0) :
    combine (pre ++ a :: b :: post) a.addr b.addr = some (pre ++ absorb a b :: post, 0) := by
  unfold combine_check at hc
  split at hc
  · simp [E_KIND] at hc
  · rename_i hk
    split at hc
    · simp [E_PID] at hc
    · rename_i hp
      exact combine_adjacent hnd (by simpa using hk) (by simpa using hp)

/-- The call `combine(a, b)` on two neighbours is the kind and pid check
followed by the absorption of `b`: the form used in the loop of
`compact_regs`. -/
theorem combine_neighbours {pre post : List region} {a b : region}
    (hnd : ((pre ++ a :: b :: post).map region.addr).Nodup) :
    combine (pre ++ a :: b :: post) a.addr b.addr =
      if combine_check a b ≠ 0 then some (pre ++ a :: b :: post, combine_check a b)
      else some (pre ++ absorb a b :: post, 0) := by
  by_cases hc : combine_check a b = 0
  · simp only [hc, ne_eq, not_true_eq_false, if_false]
    exact combine_adjacent_check hnd hc
  · simp only [ne_eq, hc, not_false_eq_true, if_true]
    have hA := locate_mid hnd
    have hnd2 : (((pre ++ [a]) ++ b :: post).map region.addr).Nodup := by simpa using hnd
    have hB : locate (pre ++ a :: b :: post) b.addr = some (pre ++ [a], b, post) := by
      simpa using locate_mid hnd2
    unfold combine_check at hc ⊢
    unfold combine
    simp only [hA, hB]
    by_cases hk : a.kind = b.kind
    · have hp : a.pid ≠ b.pid := by
        intro hp
        simp [hk, hp] at hc
      simp [hk, hp]
    · simp [hk]

/-! ## `request_reg`, extension of an existing region -/

theorem mem_grow {r h x : region} {size : Nat} (hx : x ∈ grow r h size) :
    x = { r with size := r.size + size } ∨
      (x = { h with start := h.start + size, size := h.size - size } ∧ h.size ≠ size) := by
  unfold grow at hx
  split at hx
  · simp at hx; exact Or.inl hx
  · rename_i hne
    simp at hx
    rcases hx with hx | hx
    · exact Or.inl hx
    · exact Or.inr ⟨hx, hne⟩

theorem grow_head {r h : region} {size : Nat} :
    (grow r h size).head? = some { r with size := r.size + size } := by
  unfold grow; split <;> simp

/-- The state after a successful extension of the region `r` into the hole
`h` that follows it. -/
theorem request_extend_spec {total : Nat} {s : State} (hI : Inv total s)
    {pre post : List region} {r h : region} {size : Nat}
    (hn : s.nodes = pre ++ r :: h :: post) (hrk : r.kind = R_PROC) (hk : h.kind = R_HOLE)
    (hsz : size ≤ h.size) (h0 : size ≠ 0) (hm : malloc_ok s.heap = true) :
    request_extend s r.addr h r.pid size
      = some ({ s with nodes := pre ++ grow r h size ++ post, brk := s.brk + 1,
                       heap := s.heap.tail }, 0) ∧
    Inv total { s with nodes := pre ++ grow r h size ++ post, brk := s.brk + 1,
                       heap := s.heap.tail } := by
  have hnd := hI.addr_nodup
  have htl := hI.tiles
  have hch := hI.no_adj_holes
  rw [hn] at hnd htl hch
  have hh : h ∈ s.nodes := by rw [hn]; simp
  have hr : r ∈ s.nodes := by rw [hn]; simp
  have htl2 : Tiles (pre ++ [r, h] ++ post) 0 total := by simpa using htl
  obtain ⟨x0, y0, hseg, _, hy0⟩ := tiles_segment htl2
  simp only [tiles_cons, tiles_nil] at hseg
  have htot := hI.total_lt
  have hlt : h.start + size < ULONG_MOD := by omega
  have hlt2 : r.size + size < ULONG_MOD := by omega
  have hbrk : h.addr ≠ s.brk := by have := hI.addr_lt h hh; omega
  have hrh : r.addr ≠ h.addr := by
    intro he
    simp only [List.map_append, List.map_cons, List.nodup_append, List.nodup_cons,
      List.mem_cons, List.mem_map] at hnd
    exact hnd.2.1.1 (Or.inl he)
  have hn1 : s.nodes = (pre ++ [r]) ++ [h] ++ post := by simp [hn]
  have hn2 : s.nodes = pre ++ [r, h] ++ post := by simp [hn]
  have hA2 : ∀ x ∈ carve s.brk h r.pid size, x.addr ∈ [h].map region.addr ∨ x.addr = s.brk := by
    intro x hx
    rcases mem_carve hx with rfl | ⟨rfl, _⟩
    · right; rfl
    · left; simp
  have hnd1 : (((pre ++ [r]) ++ carve s.brk h r.pid size ++ post).map region.addr).Nodup :=
    addr_nodup_replace hI hn1 (carve_addr_nodup hbrk) hA2
  constructor
  · unfold request_extend
    have hnd0 : (((pre ++ [r]) ++ h :: post).map region.addr).Nodup := by simpa using hnd
    have hal := allocate_spec s.brk r.pid hnd0 hk hsz h0 hlt
    have hn3 : s.nodes = (pre ++ [r]) ++ h :: post := by simp [hn]
    rw [← hn3] at hal
    simp only [hm, if_true, hal, ne_eq, not_true_eq_false, if_false]
    by_cases he : h.size = size
    · have hc : carve s.brk h r.pid size = [region_init s.brk R_PROC h.start size r.pid] := by
        simp [carve, he]
      rw [hc] at hnd1 ⊢
      have hnd3 : ((pre ++ r :: region_init s.brk R_PROC h.start size r.pid :: post).map
          region.addr).Nodup := by simpa using hnd1
      have hcomb := combine_adjacent hnd3 (by simp [region_init, hrk]) (by simp [region_init])
      have hl : pre ++ [r] ++ [region_init s.brk R_PROC h.start size r.pid] ++ post
          = pre ++ r :: region_init s.brk R_PROC h.start size r.pid :: post := by simp
      rw [hl]
      have hb : (region_init s.brk R_PROC h.start size r.pid).addr = s.brk := rfl
      rw [hb] at hcomb
      rw [hcomb]
      simp [grow, he, absorb, region_init, uadd_eq hlt2]
    · have hc : carve s.brk h r.pid size = [region_init s.brk R_PROC h.start size r.pid,
          { h with start := h.start + size, size := h.size - size }] := by
        simp [carve, he]
      rw [hc] at hnd1 ⊢
      have hnd3 : ((pre ++ r :: region_init s.brk R_PROC h.start size r.pid ::
          ({ h with start := h.start + size, size := h.size - size } :: post)).map
          region.addr).Nodup := by simpa using hnd1
      have hcomb := combine_adjacent hnd3 (by simp [region_init, hrk]) (by simp [region_init])
      have hl : pre ++ [r] ++ [region_init s.brk R_PROC h.start size r.pid,
          { h with start := h.start + size, size := h.size - size }] ++ post
          = pre ++ r :: region_init s.brk R_PROC h.start size r.pid ::
            ({ h with start := h.start + size, size := h.size - size } :: post) := by simp
      rw [hl]
      have hb : (region_init s.brk R_PROC h.start size r.pid).addr = s.brk := rfl
      rw [hb] at hcomb
      rw [hcomb]
      simp [grow, he, absorb, region_init, uadd_eq hlt2]
  · have hold : ∀ x ∈ s.nodes, x.kind = R_PROC →
        ∃ y ∈ pre ++ grow r h size ++ post, y.addr = x.addr ∧ y.kind = R_PROC ∧ y.pid = x.pid := by
      intro x hx hxk
      rw [hn] at hx
      simp only [List.mem_append, List.mem_cons] at hx
      rcases hx with hx | rfl | rfl | hx
      · exact ⟨x, by simp [hx], rfl, hxk, rfl⟩
      · refine ⟨{ x with size := x.size + size }, ?_, rfl, hxk, rfl⟩
        have := List.mem_of_mem_head? (@grow_head x h size)
        simp [this]
      · rw [hk] at hxk; cases hxk
      · exact ⟨x, by simp [hx], rfl, hxk, rfl⟩
    apply inv_replace hI hn2 rfl (by unfold grow; split <;> simp)
    · show s.mem = _
      rw [hI.mem_head, hn]
      cases pre with
      | nil => simp [grow_head]
      | cons x xs => simp
    · intro x y hxy
      simp only [tiles_cons, tiles_nil] at hxy
      unfold grow
      split
      · simp only [tiles_cons, tiles_nil]; omega
      · simp only [tiles_cons, tiles_nil]; omega
    · unfold grow; split <;> simp [hrh]
    · intro x hx
      rcases mem_grow hx with rfl | ⟨rfl, _⟩
      · left; simp
      · left; simp
    · show s.brk ≤ s.brk + 1; omega
    · intro x hx
      show x.addr < s.brk + 1
      rcases mem_grow hx with rfl | ⟨rfl, _⟩
      · have := hI.addr_lt r hr; simp; omega
      · have := hI.addr_lt h hh; simp; omega
    · intro x hx hxk
      rcases mem_grow hx with rfl | ⟨rfl, _⟩
      · simp [hrk] at hxk
      · exact hI.hole_pid h hh hk
    · unfold grow; split <;> simp [hrk]
    · intro x _ y hy
      rw [grow_head] at hy
      simp only [Option.mem_def, Option.some.injEq] at hy
      subst hy
      simp [hrk]
    · intro x hx y hy
      have hch2 : (pre ++ [r, h] ++ post).Chain'
          (fun a b => ¬ (a.kind = R_HOLE ∧ b.kind = R_HOLE)) := by simpa using hch
      obtain ⟨_, _, _, _, c5⟩ := chain_parts hch2
      have := c5 h (by simp) y hy
      intro hc
      exact this ⟨hk, hc.2⟩
    · intro b p hp
      obtain ⟨x, hx, hreg, hxk, hxb⟩ := hI.tbl_sound b p hp
      obtain ⟨y, hy, hya, hyk, hyp⟩ := hold x hx hxk
      exact ⟨y, hy, by rw [hreg, hya], hyk, by rw [hyp]; exact hxb⟩
    · exact hI.tbl_nodup

/-- An extension whose call of `malloc` for the node returns `NULL` returns
-1 and touches neither the ledger nor the table. -/
theorem request_extend_nonode (s : State) (ex : Nat) (h : region) (pid size : Nat)
    (hm : malloc_ok s.heap = false) :
    request_extend s ex h pid size = some ({ s with heap := s.heap.tail }, -1) := by
  unfold request_extend
  simp [hm]

/-- An extension keeps index and ledger in agreement. -/
theorem request_extend_coherent {s : State} (hC : Coherent s)
    {pre post : List region} {r h : region} {size : Nat}
    (hn : s.nodes = pre ++ r :: h :: post) (hrk : r.kind = R_PROC) (hk : h.kind = R_HOLE)
    (brk1 : Nat) (heap : List Bool) :
    Coherent { s with nodes := pre ++ grow r h size ++ post, brk := brk1, heap := heap } := by
  have hr : r ∈ s.nodes := by rw [hn]; simp
  have hn2 : s.nodes = pre ++ [r, h] ++ post := by simp [hn]
  apply coherent_replace hC hn2 rfl
  · unfold grow; split <;> simp [hrk, hk]
  · intro x hx hxk
    rcases mem_grow hx with rfl | ⟨rfl, _⟩
    · left; exact ⟨r, by simp, hrk, rfl⟩
    · simp [hk] at hxk
  · intro x hx hxk
    show ({ reg := some x.addr } : proc) ∈ s.proc_table (hash x.pid)
    simp only [List.mem_append] at hx
    rcases hx with (hx | hx) | hx
    · exact hC.tbl_complete x (by rw [hn]; simp [hx]) hxk
    · rcases mem_grow hx with rfl | ⟨rfl, _⟩
      · exact hC.tbl_complete r hr hrk
      · simp [hk] at hxk
    · exact hC.tbl_complete x (by rw [hn]; simp [hx]) hxk

/-! ## `request_reg` -/

theorem chosen_hole_mem {flag : Char} {l : List region} {size : Nat} {h : region}
    (hf : chosen_hole flag l size = some h) : h ∈ l ∧ h.kind = R_HOLE ∧ size ≤ h.size := by
  unfold chosen_hole at hf
  split at hf
  · exact find_first_fit_hole_mem hf
  · split at hf
    · exact find_best_fit_hole_mem hf
    · exact find_worst_fit_hole_mem hf

/-- Under the invariant `*mem` is the first node, so the walk from `*mem`
reads all nodes. -/
theorem inv_head {total : Nat} {s : State} (hI : Inv total s) :
    ∃ r rest, s.nodes = r :: rest ∧ s.mem = some r.addr ∧
      locate s.nodes r.addr = some ([], r, rest) := by
  have hne := tiles_ne_nil hI.tiles hI.total_pos
  cases hns : s.nodes with
  | nil => exact absurd hns hne
  | cons r rest =>
    refine ⟨r, rest, rfl, ?_, ?_⟩
    · rw [hI.mem_head, hns]; rfl
    · simp [locate]

theorem inv_ledger {total : Nat} {s : State} (hI : Inv total s) : ledger s = s.nodes := by
  obtain ⟨r, rest, h1, h2, h3⟩ := inv_head hI
  unfold ledger
  simp only [h2, h3]
  exact h1.symm

/-- The call for a pid whose entry points at the region `r`. -/
theorem request_reg_owned {total : Nat} {s : State} (hI : Inv total s)
    {pre post : List region} {r : region} {size : Nat} (flag : Char)
    (hn : s.nodes = pre ++ r :: post)
    (hlook : lookup s.nodes s.proc_table r.pid = some (some { reg := some r.addr }))
    (h0 : size ≠ 0) :
    request_reg s r.pid size flag =
      match post with
      | h :: _ =>
        if h.kind = R_HOLE ∧ size ≤ h.size then request_extend s r.addr h r.pid size
        else some (s, E_MEM)
      | [] => some (s, E_MEM) := by
  obtain ⟨x, rest, h1, h2, h3⟩ := inv_head hI
  have hr : r ∈ s.nodes := by rw [hn]; simp
  have hloc : locate s.nodes r.addr = some (pre, r, post) := by
    rw [hn]; apply locate_mid; rw [← hn]; exact hI.addr_nodup
  unfold request_reg
  simp only [h2, h0, if_false, hlook, Option.bind, hloc]
  cases post with
  | nil => rfl
  | cons h post1 => simp only [ge_iff_le]

/-- The call for a pid that owns no region. -/
theorem request_reg_unowned {total : Nat} {s : State} (hI : Inv total s)
    {pid size : Nat} (flag : Char) (h0 : size ≠ 0)
    (hfree : ∀ r ∈ s.nodes, r.kind = R_PROC → r.pid ≠ pid) :
    request_reg s pid size flag =
      if flag = 'F' ∨ flag = 'B' ∨ flag = 'W' then
        request_fresh s (chosen_hole flag s.nodes size) pid size
      else some (s, E_FLAG) := by
  obtain ⟨x, rest, h1, h2, h3⟩ := inv_head hI
  unfold request_reg
  simp only [h2, h0, if_false, lookup_absent hI hfree, Option.bind, h3]
  rw [← h1]
  rfl

/-- Every call of `request_reg` in a state of the invariant returns, in a
state of the invariant, with 0, `E_EMPTY`, `E_MEM`, `E_FLAG` or -1; a call
that fails with a code other than -1 leaves the state as it was. -/
theorem request_reg_total {total : Nat} {s : State} (hI : Inv total s) (pid size : Nat)
    (flag : Char) :
    ∃ s1 rc, request_reg s pid size flag = some (s1, rc) ∧ Inv total s1 ∧
      (rc = 0 ∨ rc = E_EMPTY ∨ rc = E_MEM ∨ rc = E_FLAG ∨ rc = -1) ∧
      (rc ≠ 0 → rc ≠ -1 → s1 = s) ∧
      (Coherent s → rc ≠ -1 → Coherent s1) := by
  by_cases h0 : size = 0
  · obtain ⟨x, rest, h1, h2, h3⟩ := inv_head hI
    refine ⟨s, E_EMPTY, ?_, hI, Or.inr (Or.inl rfl), fun _ _ => rfl, fun hC _ => hC⟩
    unfold request_reg
    simp [h2, h0]
  rcases lookup_cases hI pid with hnone | ⟨pre, r, post, hn, hrk, rfl, hlook⟩
  · by_cases hf : flag = 'F' ∨ flag = 'B' ∨ flag = 'W'
    · obtain ⟨x, rest, h1, h2, h3⟩ := inv_head hI
      have hreq : request_reg s pid size flag
          = request_fresh s (chosen_hole flag s.nodes size) pid size := by
        unfold request_reg
        simp only [h2, h0, if_false, hnone, Option.bind, h3, hf, if_true]
        rw [← h1]
        rfl
      rw [hreq]
      cases hch : chosen_hole flag s.nodes size with
      | none => exact ⟨s, E_MEM, rfl, hI, Or.inr (Or.inr (Or.inl rfl)), fun _ _ => rfl, fun hC _ => hC⟩
      | some h =>
        obtain ⟨hm, hk, hsz⟩ := chosen_hole_mem hch
        obtain ⟨pre, post, hn⟩ := List.append_of_mem hm
        by_cases hm1 : malloc_ok s.heap = true
        · by_cases hm2 : malloc_ok s.heap.tail = true
          · obtain ⟨e1, e2⟩ := request_fresh_spec hI hn hk hsz h0 hnone hm1 hm2
            refine ⟨_, _, e1, e2, Or.inl rfl, fun hne => absurd rfl hne, fun hC _ => ?_⟩
            apply request_fresh_coherent hC hn hk
            intro r hr hrk hp
            have := lookup_owner hI hC hr hrk
            rw [hp, hnone] at this
            simp at this
          · have hm3 : malloc_ok s.heap.tail = false := by simpa using hm2
            obtain ⟨e1, e2⟩ := request_fresh_noentry hI hn hk hsz h0 hnone hm1 hm3
            exact ⟨_, _, e1, e2, Or.inr (Or.inr (Or.inr (Or.inr rfl))),
              fun _ hne => absurd rfl hne, fun _ hne => absurd rfl hne⟩
        · have hm3 : malloc_ok s.heap = false := by simpa using hm1
          exact ⟨_, _, request_fresh_nonode s h pid size hm3, inv_heap hI _,
            Or.inr (Or.inr (Or.inr (Or.inr rfl))), fun _ hne => absurd rfl hne,
            fun _ hne => absurd rfl hne⟩
    · obtain ⟨x, rest, h1, h2, h3⟩ := inv_head hI
      refine ⟨s, E_FLAG, ?_, hI, Or.inr (Or.inr (Or.inr (Or.inl rfl))), fun _ _ => rfl,
        fun hC _ => hC⟩
      unfold request_reg
      simp only [h2, h0, if_false, hnone, Option.bind, hf]
  · rw [request_reg_owned hI flag hn hlook h0]
    cases post with
    | nil => exact ⟨s, E_MEM, rfl, hI, Or.inr (Or.inr (Or.inl rfl)), fun _ _ => rfl, fun hC _ => hC⟩
    | cons h post1 =>
      by_cases hc : h.kind = R_HOLE ∧ size ≤ h.size
      · simp only [hc, and_self, if_true]
        by_cases hm : malloc_ok s.heap = true
        · obtain ⟨e1, e2⟩ := request_extend_spec hI hn hrk hc.1 hc.2 h0 hm
          exact ⟨_, _, e1, e2, Or.inl rfl, fun hne => absurd rfl hne,
            fun hC _ => request_extend_coherent hC hn hrk hc.1 _ _⟩
        · have hm2 : malloc_ok s.heap = false := by simpa using hm
          exact ⟨_, _, request_extend_nonode s r.addr h r.pid size hm2, inv_heap hI _,
            Or.inr (Or.inr (Or.inr (Or.inr rfl))), fun _ hne => absurd rfl hne,
            fun _ hne => absurd rfl hne⟩
      · simp only [hc, if_false]
        exact ⟨s, E_MEM, rfl, hI, Or.inr (Or.inr (Or.inl rfl)), fun _ _ => rfl, fun hC _ => hC⟩

theorem request_reg_inv {total : Nat} {s : State} (hI : Inv total s) (pid size : Nat)
    (flag : Char) : ∃ s1 rc, request_reg s pid size flag = some (s1, rc) ∧ Inv total s1 := by
  obtain ⟨s1, rc, h1, h2, _⟩ := request_reg_total hI pid size flag
  exact ⟨s1, rc, h1, h2⟩

theorem nodup_mid_ne {pre mid post : List region}
    (hnd : ((pre ++ mid ++ post).map region.addr).Nodup) {x y : region}
    (hx : x ∈ pre ∨ x ∈ post) (hy : y ∈ mid) : x.addr ≠ y.addr := by
  rw [List.map_append, List.map_append, List.nodup_append, List.nodup_append] at hnd
  obtain ⟨⟨_, _, d1⟩, _, d2⟩ := hnd
  intro he
  rcases hx with hx | hx
  · exact d1 (List.mem_map_of_mem _ hx) (he ▸ List.mem_map_of_mem _ hy)
  · exact d2 (List.mem_append_right _ (he ▸ List.mem_map_of_mem _ hy))
      (List.mem_map_of_mem _ hx)

/-- The invariant after a release: the process region `r` and the holes
`lh`, `rh` around it are replaced by the single hole `m`. -/
theorem inv_released {total : Nat} {s : State} (hI : Inv total s)
    {pre lh rh post : List region} {r m : region}
    (hn : s.nodes = pre ++ (lh ++ r :: rh) ++ post) (hrk : r.kind = R_PROC)
    (hlh : ∀ x ∈ lh, x.kind = R_HOLE) (hrh : ∀ x ∈ rh, x.kind = R_HOLE)
    (hbl : ∀ x ∈ pre.getLast?, x.kind ≠ R_HOLE) (hbr : ∀ x ∈ post.head?, x.kind ≠ R_HOLE)
    (hmk : m.kind = R_HOLE) (hmp : m.pid = 0)
    (hma : (lh ++ r :: rh).head?.map region.addr = some m.addr)
    (hms : (lh ++ r :: rh).head?.map region.start = some m.start)
    (hmz : m.size = ((lh ++ r :: rh).map region.size).sum) :
    Inv total { s with nodes := pre ++ [m] ++ post, proc_table := table_without s.proc_table r } := by
  have hnd := hI.addr_nodup
  rw [hn] at hnd
  have hr : r ∈ s.nodes := by rw [hn]; simp
  have hrmid : r ∈ lh ++ r :: rh := by simp
  obtain ⟨hd, hdm, hda⟩ : ∃ hd ∈ lh ++ r :: rh, hd.addr = m.addr := by
    cases hh : (lh ++ r :: rh).head? with
    | none => simp [hh] at hma
    | some hd =>
      rw [hh] at hma
      exact ⟨hd, List.mem_of_mem_head? hh, by simpa using hma⟩
  have hold : ∀ x ∈ s.nodes, x.kind = R_PROC → x = r ∨ x ∈ pre ∨ x ∈ post := by
    intro x hx hxk
    rw [hn] at hx
    simp only [List.mem_append, List.mem_cons] at hx
    rcases hx with (hx | hx | rfl | hx) | hx
    · exact Or.inr (Or.inl hx)
    · rw [hlh x hx] at hxk; cases hxk
    · exact Or.inl rfl
    · rw [hrh x hx] at hxk; cases hxk
    · exact Or.inr (Or.inr hx)
  have hnew : ∀ x ∈ pre ++ [m] ++ post, x.kind = R_PROC →
      x ∈ s.nodes ∧ x.addr ≠ r.addr := by
    intro x hx hxk
    simp only [List.mem_append, List.mem_singleton] at hx
    rcases hx with (hx | rfl) | hx
    · exact ⟨by rw [hn]; simp [hx], nodup_mid_ne hnd (Or.inl hx) hrmid⟩
    · rw [hmk] at hxk; cases hxk
    · exact ⟨by rw [hn]; simp [hx], nodup_mid_ne hnd (Or.inr hx) hrmid⟩
  apply inv_replace hI hn rfl (by simp)
  · show s.mem = _
    rw [hI.mem_head, hn]
    cases pre with
    | nil => simpa using hma
    | cons x xs => simp
  · intro x y hxy
    have hsum := tiles_sum hxy
    have hpos : 0 < m.size := by
      have := (tiles_mem hxy hrmid).2.2
      have hle : r.size ≤ ((lh ++ r :: rh).map region.size).sum :=
        List.single_le_sum (by simp) _ (List.mem_map_of_mem _ hrmid)
      omega
    have hst : m.start = x := by
      cases hh : lh ++ r :: rh with
      | nil => simp at hh
      | cons z zs =>
        rw [hh] at hxy hms
        simp only [List.head?_cons, Option.map_some', Option.some.injEq] at hms
        rw [← hms]; exact hxy.1
    simp only [tiles_cons, tiles_nil]
    omega
  · simp
  · intro x hx
    simp only [List.mem_singleton] at hx
    subst hx
    left
    rw [← hda]
    exact List.mem_map_of_mem _ hdm
  · exact Nat.le_refl _
  · intro x hx
    simp only [List.mem_singleton] at hx
    subst hx
    rw [← hda]
    exact hI.addr_lt hd
      (by rw [hn]; exact List.mem_append_left _ (List.mem_append_right _ hdm))
  · intro x hx _
    simp only [List.mem_singleton] at hx
    subst hx
    exact hmp
  · simp
  · intro x hx y hy
    simp only [List.head?_cons, Option.mem_def, Option.some.injEq] at hy
    subst hy
    intro hc
    exact hbl x hx hc.1
  · intro x hx y hy
    intro hc
    exact hbr y hy hc.2
  · -- table: sound
    intro b p hp
    show ∃ x ∈ pre ++ [m] ++ post, _
    have hp2 : p ∈ s.proc_table b ∧ (b = hash r.pid → p ≠ { reg := some r.addr }) := by
      simp only [table_without] at hp
      by_cases hb : b = hash r.pid
      · subst hb
        rw [Function.update_same] at hp
        have := (List.Nodup.mem_erase_iff (hI.tbl_nodup _)).1 hp
        exact ⟨this.2, fun _ => this.1⟩
      · rw [Function.update_noteq hb] at hp
        exact ⟨hp, fun h => absurd h hb⟩
    obtain ⟨x, hx, hreg, hxk, hxb⟩ := hI.tbl_sound b p hp2.1
    have hxr : x ≠ r := by
      rintro rfl
      apply hp2.2 hxb.symm
      cases p
      simp_all
    rcases hold x hx hxk with h | h | h
    · exact absurd h hxr
    · exact ⟨x, by simp [h], hreg, hxk, hxb⟩
    · exact ⟨x, by simp [h], hreg, hxk, hxb⟩
  · intro b
    show (table_without s.proc_table r b).Nodup
    simp only [table_without]
    by_cases hb : b = hash r.pid
    · subst hb
      rw [Function.update_same]
      exact List.Nodup.erase _ (hI.tbl_nodup _)
    · rw [Function.update_noteq hb]; exact hI.tbl_nodup b

/-- A release keeps index and ledger in agreement. -/
theorem coherent_released {total : Nat} {s : State} (hI : Inv total s) (hC : Coherent s)
    {pre lh rh post : List region} {r m : region}
    (hn : s.nodes = pre ++ (lh ++ r :: rh) ++ post) (hmk : m.kind = R_HOLE) :
    Coherent { s with nodes := pre ++ [m] ++ post,
                      proc_table := table_without s.proc_table r } := by
  have hnd := hI.addr_nodup
  rw [hn] at hnd
  have hrmid : r ∈ lh ++ r :: rh := by simp
  have hnew : ∀ x ∈ pre ++ [m] ++ post, x.kind = R_PROC →
      x ∈ s.nodes ∧ x.addr ≠ r.addr := by
    intro x hx hxk
    simp only [List.mem_append, List.mem_singleton] at hx
    rcases hx with (hx | rfl) | hx
    · exact ⟨by rw [hn]; simp [hx], nodup_mid_ne hnd (Or.inl hx) hrmid⟩
    · rw [hmk] at hxk; cases hxk
    · exact ⟨by rw [hn]; simp [hx], nodup_mid_ne hnd (Or.inr hx) hrmid⟩
  apply coherent_replace hC hn rfl
  · simp [hmk]
  · intro x hx hxk
    simp only [List.mem_singleton] at hx
    subst hx
    rw [hmk] at hxk; cases hxk
  · -- table: complete
    intro x hx hxk
    obtain ⟨hx1, hx2⟩ := hnew x hx hxk
    have := hC.tbl_complete x hx1 hxk
    show ({ reg := some x.addr } : proc) ∈ table_without s.proc_table r (hash x.pid)
    simp only [table_without]
    by_cases hb : hash x.pid = hash r.pid
    · rw [hb, Function.update_same]
      rw [hb] at this
      apply (List.Nodup.mem_erase_iff (hI.tbl_nodup _)).2
      refine ⟨?_, this⟩
      intro he
      simp only [proc.mk.injEq, Option.some.injEq] at he
      exact hx2 he
    · rw [Function.update_noteq hb]; exact this

theorem merge_right_fst {x : region} {post : List region} :
    (merge_right x post).1.addr = x.addr ∧ (merge_right x post).1.kind = x.kind ∧
      (merge_right x post).1.pid = x.pid ∧ (merge_right x post).1.start = x.start := by
  unfold merge_right
  split
  · split <;> simp
  · simp

/-- Step 4 of `release_reg`, first half: the merge with the next region. -/
theorem release_merge_next_spec {pre post : List region} {x : region}
    (hnd : ((pre ++ x :: post).map region.addr).Nodup) (hk : x.kind = R_HOLE)
    (hp : x.pid = 0) (hpost : ∀ n ∈ post, n.kind = R_HOLE → n.pid = 0)
    (hlt : ∀ n ∈ post.head?, x.size + n.size < ULONG_MOD) :
    release_merge_next (pre ++ x :: post) x.addr 0
      = some (pre ++ (merge_right x post).1 :: (merge_right x post).2, 0) := by
  unfold release_merge_next
  rw [locate_mid hnd]
  cases post with
  | nil => simp [merge_right]
  | cons n post1 =>
    by_cases hn : n.kind = R_HOLE
    · have h1 := combine_adjacent hnd (by rw [hk, hn])
        (by rw [hp, hpost n (List.mem_cons_self _ _) hn])
      have h2 := hlt n (by simp)
      simp [hn, h1, merge_right, absorb, uadd_eq h2]
    · simp [hn, merge_right]

/-- Step 4 of `release_reg`, second half: the merge with the previous
region. -/
theorem release_merge_prev_spec {pre post : List region} {x : region}
    (hnd : ((pre ++ x :: post).map region.addr).Nodup) (hk : x.kind = R_HOLE)
    (hp : x.pid = 0) (hpre : ∀ n ∈ pre, n.kind = R_HOLE → n.pid = 0)
    (hlt : ∀ n ∈ pre.getLast?, n.size + x.size < ULONG_MOD) :
    release_merge_prev (pre ++ x :: post) x.addr 0 = some (merge_left pre x post, 0) := by
  unfold release_merge_prev
  rw [locate_mid hnd]
  rcases List.eq_nil_or_concat pre with rfl | ⟨pre0, p, rfl⟩
  · simp [merge_left]
  · simp only [List.concat_eq_append] at hnd hpre hlt ⊢
    by_cases hpk : p.kind = R_HOLE
    · have hnd2 : ((pre0 ++ p :: x :: post).map region.addr).Nodup := by simpa using hnd
      have h1 := combine_adjacent hnd2 (by rw [hk, hpk])
        (by rw [hp, hpre p (by simp) hpk])
      have h2 := hlt p (by simp)
      have hl : pre0 ++ [p] ++ x :: post = pre0 ++ p :: x :: post := by simp
      rw [hl]
      simp [hpk, h1, merge_left, absorb, uadd_eq h2]
    · simp [hpk, merge_left]

theorem merge_right_decomp {post : List region}
    (hch : post.Chain' (fun a b => ¬ (a.kind = R_HOLE ∧ b.kind = R_HOLE))) :
    ∃ rh post1, post = rh ++ post1 ∧ (∀ n ∈ rh, n.kind = R_HOLE) ∧
      (∀ n ∈ post1.head?, n.kind ≠ R_HOLE) ∧
      ∀ x : region, merge_right x post
        = ({ x with size := x.size + (rh.map region.size).sum }, post1) := by
  cases post with
  | nil => exact ⟨[], [], rfl, by simp, by simp, fun x => by simp [merge_right]⟩
  | cons n post1 =>
    by_cases hn : n.kind = R_HOLE
    · refine ⟨[n], post1, rfl, by simp [hn], ?_, fun x => by simp [merge_right, hn]⟩
      intro y hy hyk
      cases post1 with
      | nil => simp at hy
      | cons z zs =>
        simp only [List.head?_cons, Option.mem_def, Option.some.injEq] at hy
        subst hy
        rw [List.chain'_cons] at hch
        exact hch.1 ⟨hn, hyk⟩
    · refine ⟨[], n :: post1, rfl, by simp, ?_, fun x => by simp [merge_right, hn]⟩
      intro y hy
      simp only [List.head?_cons, Option.mem_def, Option.some.injEq] at hy
      subst hy
      exact hn

theorem merge_left_decomp {pre : List region}
    (hch : pre.Chain' (fun a b => ¬ (a.kind = R_HOLE ∧ b.kind = R_HOLE)))
    (hpre : ∀ n ∈ pre, n.kind = R_HOLE → n.pid = 0)
    (y : region) (hyk : y.kind = R_HOLE) (hyp : y.pid = 0) :
    ∃ lh pre1 m, pre = pre1 ++ lh ∧ (∀ n ∈ lh, n.kind = R_HOLE) ∧
      (∀ n ∈ pre1.getLast?, n.kind ≠ R_HOLE) ∧
      (∀ post, merge_left pre y post = pre1 ++ [m] ++ post) ∧
      m.kind = R_HOLE ∧ m.pid = 0 ∧
      (lh ++ [y]).head?.map region.addr = some m.addr ∧
      (lh ++ [y]).head?.map region.start = some m.start ∧
      m.size = (lh.map region.size).sum + y.size := by
  rcases List.eq_nil_or_concat pre with rfl | ⟨pre0, p, rfl⟩
  · exact ⟨[], [], y, rfl, by simp, by simp, fun post => by simp [merge_left], hyk, hyp,
      rfl, rfl, by simp⟩
  · simp only [List.concat_eq_append] at hch hpre ⊢
    by_cases hp : p.kind = R_HOLE
    · refine ⟨[p], pre0, { p with size := p.size + y.size }, rfl, by simp [hp], ?_,
        fun post => by simp [merge_left, hp], hp, hpre p (by simp) hp, rfl, rfl, by simp⟩
      intro z hz hzk
      rw [List.chain'_append] at hch
      exact hch.2.2 z hz p (by simp) ⟨hzk, hp⟩
    · refine ⟨[], pre0 ++ [p], y, by simp, by simp, ?_,
        fun post => by simp [merge_left, hp], hyk, hyp, rfl, rfl, by simp⟩
      intro z hz
      simp only [List.getLast?_append, List.getLast?_singleton, Option.mem_def,
        Option.or, Option.some.injEq] at hz
      subst hz
      exact hp

theorem merge_right_addrs {x : region} {post : List region} :
    (((merge_right x post).1 :: (merge_right x post).2).map region.addr).Sublist
      ((x :: post).map region.addr) := by
  unfold merge_right
  split
  · split
    · simp
    · simp
  · simp

theorem merge_right_size {x : region} {post : List region} :
    (merge_right x post).1.size ≤ ((x :: post).map region.size).sum := by
  unfold merge_right
  split
  · split
    · simp
    · simp
  · simp

theorem merge_right_mem {x : region} {post : List region} {n : region}
    (hn : n ∈ (merge_right x post).2) : n ∈ post := by
  unfold merge_right at hn
  split at hn
  · split at hn
    · exact List.mem_cons_of_mem _ hn
    · exact hn
  · simp at hn

/-- The state after the release of the region `r` by the pid whose entry
points at it. -/
theorem release_reg_owned {total : Nat} {s : State} (hI : Inv total s)
    {pre post : List region} {r : region}
    (hn : s.nodes = pre ++ r :: post)
    (hlook : lookup s.nodes s.proc_table r.pid = some (some { reg := some r.addr })) :
    release_reg s r.pid = some ({ s with nodes := released pre r post,
                                         proc_table := table_without s.proc_table r }, 0) := by
  have hnd := hI.addr_nodup
  have htl := hI.tiles
  rw [hn] at hnd htl
  have hloc : locate s.nodes r.addr = some (pre, r, post) := by
    rw [hn]; exact locate_mid hnd
  have hsum := tiles_sum htl
  simp only [List.map_append, List.sum_append, List.map_cons, List.sum_cons] at hsum
  have htot := hI.total_lt
  have hpre : ∀ n ∈ pre, n.kind = R_HOLE → n.pid = 0 :=
    fun n hn1 => hI.hole_pid n (by rw [hn]; simp [hn1])
  have hpost : ∀ n ∈ post, n.kind = R_HOLE → n.pid = 0 :=
    fun n hn1 => hI.hole_pid n (by rw [hn]; simp [hn1])
  have h1 : release_merge_next
      (pre ++ { r with kind := R_HOLE, pid := 0 } :: post) r.addr 0
      = some (pre ++ (merge_right { r with kind := R_HOLE, pid := 0 } post).1 ::
          (merge_right { r with kind := R_HOLE, pid := 0 } post).2, 0) := by
    apply release_merge_next_spec (x := { r with kind := R_HOLE, pid := 0 }) _ rfl rfl hpost
    · intro n hn1
      have hle : n.size ≤ (post.map region.size).sum :=
        List.single_le_sum (by simp) _ (List.mem_map_of_mem _ (List.mem_of_mem_head? hn1))
      show r.size + n.size < ULONG_MOD
      omega
    · simpa using hnd
  have hnd2 : ((pre ++ (merge_right { r with kind := R_HOLE, pid := 0 } post).1 ::
      (merge_right { r with kind := R_HOLE, pid := 0 } post).2).map region.addr).Nodup := by
    rw [List.map_append] at hnd ⊢
    exact List.Nodup.sublist (List.Sublist.append (List.Sublist.refl _) merge_right_addrs) hnd
  obtain ⟨ha, hk, hp, _⟩ :=
    @merge_right_fst ({ r with kind := R_HOLE, pid := 0 } : region) post
  have h2 := release_merge_prev_spec hnd2 hk hp hpre (by
    intro n hn1
    have hle : n.size ≤ (pre.map region.size).sum :=
      List.single_le_sum (by simp) _ (List.mem_map_of_mem _ (List.mem_of_mem_getLast? hn1))
    have := @merge_right_size ({ r with kind := R_HOLE, pid := 0 } : region) post
    simp only [List.map_cons, List.sum_cons] at this
    omega)
  rw [ha] at h2
  unfold release_reg
  simp only [hlook, undef, hloc, ne_eq, not_true_eq_false, if_false, h1, h2]
  rfl

/-- The invariant holds after a release. -/
theorem release_reg_owned_inv {total : Nat} {s : State} (hI : Inv total s)
    {pre post : List region} {r : region}
    (hn : s.nodes = pre ++ r :: post) (hrk : r.kind = R_PROC) :
    Inv total { s with nodes := released pre r post,
                       proc_table := table_without s.proc_table r } := by
  have hch := hI.no_adj_holes
  rw [hn, List.chain'_append] at hch
  obtain ⟨c1, c2, _⟩ := hch
  rw [List.chain'_cons'] at c2
  obtain ⟨rh, post1, e1, hrh, hbr, hmr⟩ := merge_right_decomp c2.2
  have hpre : ∀ n ∈ pre, n.kind = R_HOLE → n.pid = 0 :=
    fun n hn1 => hI.hole_pid n (by rw [hn]; simp [hn1])
  obtain ⟨lh, pre1, m, e2, hlh, hbl, hml, hmk, hmp, hma, hms, hmz⟩ :=
    merge_left_decomp c1 hpre
      { r with kind := R_HOLE, pid := 0, size := r.size + (rh.map region.size).sum } rfl rfl
  have hrel : released pre r post = pre1 ++ [m] ++ post1 := by
    unfold released
    rw [hmr]
    exact hml post1
  rw [hrel]
  apply @inv_released total s hI pre1 lh rh post1 r m
    (by rw [hn, e1, e2]; simp) hrk hlh hrh hbl hbr hmk hmp
  · cases lh <;> simpa using hma
  · cases lh <;> simpa using hms
  · rw [hmz]
    simp only [List.map_append, List.sum_append, List.map_cons, List.sum_cons]

/-- The release by the owner of a region keeps index and ledger in
agreement. -/
theorem release_reg_owned_coherent {total : Nat} {s : State} (hI : Inv total s)
    (hC : Coherent s) {pre post : List region} {r : region}
    (hn : s.nodes = pre ++ r :: post) :
    Coherent { s with nodes := released pre r post,
                      proc_table := table_without s.proc_table r } := by
  have hch := hI.no_adj_holes
  rw [hn, List.chain'_append] at hch
  obtain ⟨c1, c2, _⟩ := hch
  rw [List.chain'_cons'] at c2
  obtain ⟨rh, post1, e1, hrh, hbr, hmr⟩ := merge_right_decomp c2.2
  have hpre : ∀ n ∈ pre, n.kind = R_HOLE → n.pid = 0 :=
    fun n hn1 => hI.hole_pid n (by rw [hn]; simp [hn1])
  obtain ⟨lh, pre1, m, e2, hlh, hbl, hml, hmk, hmp, hma, hms, hmz⟩ :=
    merge_left_decomp c1 hpre
      { r with kind := R_HOLE, pid := 0, size := r.size + (rh.map region.size).sum } rfl rfl
  have hrel : released pre r post = pre1 ++ [m] ++ post1 := by
    unfold released
    rw [hmr]
    exact hml post1
  rw [hrel]
  exact @coherent_released total s hI hC pre1 lh rh post1 r m
    (by rw [hn, e1, e2]; simp) hmk

/-- The call for a pid without entry. -/
theorem release_reg_unowned {s : State} {pid : Nat}
    (hnone : lookup s.nodes s.proc_table pid = some none) :
    release_reg s pid = some (s, E_NOTDEF) := by
  unfold release_reg
  simp only [hnone]

/-- Every call of `release_reg` in a state of the invariant returns, in a
state of the invariant: 0 for a pid with an entry, `E_NOTDEF` and the state
as it was otherwise. -/
theorem release_reg_total {total : Nat} {s : State} (hI : Inv total s) (pid : Nat) :
    ∃ s1 rc, release_reg s pid = some (s1, rc) ∧ Inv total s1 ∧
      ((∃ p, lookup s.nodes s.proc_table pid = some (some p)) → rc = 0) ∧
      (lookup s.nodes s.proc_table pid = some none → rc = E_NOTDEF ∧ s1 = s) ∧
      (Coherent s → Coherent s1) := by
  rcases lookup_cases hI pid with hnone | ⟨pre, r, post, hn, hrk, rfl, hlook⟩
  · refine ⟨s, E_NOTDEF, release_reg_unowned hnone, hI, ?_, fun _ => ⟨rfl, rfl⟩, fun hC => hC⟩
    rintro ⟨p, hp⟩
    rw [hnone] at hp
    simp at hp
  · refine ⟨_, _, release_reg_owned hI hn hlook, release_reg_owned_inv hI hn hrk,
      fun _ => rfl, ?_, fun hC => release_reg_owned_coherent hI hC hn⟩
    intro hnone
    rw [hlook] at hnone
    simp at hnone

theorem release_reg_inv {total : Nat} {s : State} (hI : Inv total s) (pid : Nat) :
    ∃ s1 rc, release_reg s pid = some (s1, rc) ∧ Inv total s1 := by
  obtain ⟨s1, rc, h1, h2, _⟩ := release_reg_total hI pid
  exact ⟨s1, rc, h1, h2⟩

/-! ## `compact_regs` -/

theorem kind_ne_proc {r : region} : r.kind ≠ R_PROC ↔ r.kind = R_HOLE := by
  cases h : r.kind <;> simp

theorem kind_ne_hole {r : region} : r.kind ≠ R_HOLE ↔ r.kind = R_PROC := by
  cases h : r.kind <;> simp

theorem pack_append (a : Nat) (l1 l2 : List region) :
    pack a (l1 ++ l2) = pack a l1 ++ pack (a + (l1.map region.size).sum) l2 := by
  induction l1 generalizing a with
  | nil => simp [pack]
  | cons x xs ih => simp [pack, ih, Nat.add_assoc]

theorem pack_tiles {l : List region} {a b : Nat} (h : Tiles l a b) : pack a l = l := by
  induction l generalizing a with
  | nil => rfl
  | cons x xs ih =>
    obtain ⟨h1, _, h3⟩ := h
    simp only [pack, ih h3]
    rw [← h1]

/-- The leading process regions of a list. -/
theorem split_procs (l : List region) :
    ∃ pp rest, l = pp ++ rest ∧ (∀ p ∈ pp, p.kind = R_PROC) ∧
      (∀ n ∈ rest.head?, n.kind = R_HOLE) := by
  induction l with
  | nil => exact ⟨[], [], rfl, by simp, by simp⟩
  | cons x xs ih =>
    by_cases hx : x.kind = R_PROC
    · obtain ⟨pp, rest, h1, h2, h3⟩ := ih
      refine ⟨x :: pp, rest, by simp [h1], ?_, h3⟩
      intro p hp
      rcases List.mem_cons.1 hp with rfl | hp
      · exact hx
      · exact h2 p hp
    · refine ⟨[], x :: xs, rfl, by simp, ?_⟩
      intro n hn
      simp only [List.head?_cons, Option.mem_def, Option.some.injEq] at hn
      subst hn
      exact kind_ne_proc.1 hx

theorem bubble_nil (mem : Option Nat) (pre : List region) (reg : region) :
    bubble mem pre reg [] = (mem, pre, reg, []) := rfl

theorem bubble_cons_proc (mem : Option Nat) (pre : List region) (reg n : region)
    (rest : List region) (hn : n.kind = R_PROC) :
    bubble mem pre reg (n :: rest)
      = bubble (if mem = some reg.addr then some n.addr else mem)
          (pre ++ [{ n with start := reg.start }])
          { reg with start := uadd reg.start n.size } rest := by
  rw [bubble]
  simp only [hn, if_true]

theorem bubble_cons_hole (mem : Option Nat) (pre : List region) (reg n : region)
    (rest : List region) (hn : n.kind = R_HOLE) :
    bubble mem pre reg (n :: rest) = (mem, pre, reg, n :: rest) := by
  rw [bubble]
  simp [hn]

/-- The inner loop moves the hole `reg` behind the process regions `pp` that
follow it and packs them from the start of the hole. -/
theorem bubble_spec (pp rest : List region) (mem : Option Nat) (pre : List region)
    (reg : region) (hpp : ∀ p ∈ pp, p.kind = R_PROC)
    (hrest : ∀ n ∈ rest.head?, n.kind = R_HOLE)
    (haddr : ∀ p ∈ pp, p.addr ≠ reg.addr)
    (hlt : reg.start + (pp.map region.size).sum < ULONG_MOD) :
    bubble mem pre reg (pp ++ rest)
      = (head_after mem reg.addr pp, pre ++ pack reg.start pp,
         { reg with start := reg.start + (pp.map region.size).sum }, rest) := by
  induction pp generalizing mem pre reg with
  | nil =>
    cases rest with
    | nil => simp [bubble_nil, pack, head_after]
    | cons n ns =>
      have hn : n.kind = R_HOLE := hrest n (by simp)
      simp [bubble_cons_hole _ _ _ _ _ hn, pack, head_after]
  | cons p ps ih =>
    have hp : p.kind = R_PROC := hpp p (List.mem_cons_self _ _)
    simp only [List.map_cons, List.sum_cons] at hlt
    have hlt1 : reg.start + p.size < ULONG_MOD := by omega
    have hpa : p.addr ≠ reg.addr := haddr p (List.mem_cons_self _ _)
    rw [List.cons_append, bubble_cons_proc _ _ _ _ _ hp, uadd_eq hlt1]
    rw [ih (if mem = some reg.addr then some p.addr else mem)
      (pre ++ [({ p with start := reg.start } : region)])
      ({ reg with start := reg.start + p.size } : region)
      (fun q hq => hpp q (List.mem_cons_of_mem _ hq))
      (fun q hq => haddr q (List.mem_cons_of_mem _ hq)) (by simp only []; omega)]
    have hmem : head_after (if mem = some reg.addr then some p.addr else mem) reg.addr ps
        = head_after mem reg.addr (p :: ps) := by
      cases ps with
      | nil => rfl
      | cons q qs =>
        by_cases hm : mem = some reg.addr
        · simp [head_after, hm, hpa]
        · simp [head_after, hm]
    simp only [hmem, pack, List.append_assoc, List.singleton_append, List.map_cons,
      List.sum_cons, Nat.add_assoc]

/-! The equations of the outer loop. -/

theorem compact_loop_nil (mem : Option Nat) (pre : List region) :
    compact_loop mem pre [] = (mem, pre, 0) := by
  rw [compact_loop]

theorem compact_loop_proc (mem : Option Nat) (pre : List region) {reg : region}
    (rest : List region) (hk : reg.kind = R_PROC) :
    compact_loop mem pre (reg :: rest) = compact_loop mem (pre ++ [reg]) rest := by
  rw [compact_loop]
  simp [hk]

theorem compact_loop_hole_end {mem mem1 : Option Nat} {pre pre1 rest : List region}
    {reg reg1 : region} (hk : reg.kind = R_HOLE)
    (hb : bubble mem pre reg rest = (mem1, pre1, reg1, [])) :
    compact_loop mem pre (reg :: rest) = (mem1, pre1 ++ [reg1], 0) := by
  rw [compact_loop]
  simp only [hk, ne_eq, not_true_eq_false, if_false]
  split
  · rename_i h
    rw [hb] at h
    simp only [Prod.mk.injEq] at h
    obtain ⟨rfl, rfl, rfl, _⟩ := h
    rfl
  · rename_i h
    rw [hb] at h
    simp at h

theorem compact_loop_hole_next {mem mem1 : Option Nat} {pre pre1 rest rest1 : List region}
    {reg reg1 n : region} (hk : reg.kind = R_HOLE)
    (hb : bubble mem pre reg rest = (mem1, pre1, reg1, n :: rest1)) :
    compact_loop mem pre (reg :: rest) =
      if combine_check reg1 n ≠ 0 then (mem1, pre1 ++ reg1 :: n :: rest1, combine_check reg1 n)
      else compact_loop mem1 pre1 (absorb reg1 n :: rest1) := by
  rw [compact_loop]
  simp only [hk, ne_eq, not_true_eq_false, if_false]
  split
  · rename_i h
    rw [hb] at h
    simp at h
  · rename_i h
    rw [hb] at h
    simp only [Prod.mk.injEq, List.cons.injEq] at h
    obtain ⟨rfl, rfl, rfl, rfl, rfl⟩ := h
    rfl

theorem pack_map_addr (a : Nat) (l : List region) :
    (pack a l).map region.addr = l.map region.addr := by
  induction l generalizing a with
  | nil => rfl
  | cons x xs ih => simp [pack, ih]

theorem pack_map_pid (a : Nat) (l : List region) :
    (pack a l).map region.pid = l.map region.pid := by
  induction l generalizing a with
  | nil => rfl
  | cons x xs ih => simp [pack, ih]

theorem pack_map_size (a : Nat) (l : List region) :
    (pack a l).map region.size = l.map region.size := by
  induction l generalizing a with
  | nil => rfl
  | cons x xs ih => simp [pack, ih]

theorem mem_pack {a : Nat} {l : List region} {x : region} (hx : x ∈ pack a l) :
    ∃ y ∈ l, x.addr = y.addr ∧ x.kind = y.kind ∧ x.pid = y.pid ∧ x.size = y.size := by
  induction l generalizing a with
  | nil => simp [pack] at hx
  | cons z zs ih =>
    simp only [pack, List.mem_cons] at hx
    rcases hx with rfl | hx
    · exact ⟨z, List.mem_cons_self _ _, rfl, rfl, rfl, rfl⟩
    · obtain ⟨y, hy, h⟩ := ih hx
      exact ⟨y, List.mem_cons_of_mem _ hy, h⟩

theorem pack_mem {a : Nat} {l : List region} {y : region} (hy : y ∈ l) :
    ∃ x ∈ pack a l, x.addr = y.addr ∧ x.kind = y.kind ∧ x.pid = y.pid ∧ x.size = y.size := by
  induction l generalizing a with
  | nil => simp at hy
  | cons z zs ih =>
    rcases List.mem_cons.1 hy with rfl | hy
    · exact ⟨{ y with start := a }, by simp [pack], rfl, rfl, rfl, rfl⟩
    · obtain ⟨x, hx, h⟩ := ih (a := a + z.size) hy
      exact ⟨x, by simp [pack, hx], h⟩

theorem tiles_pack {a : Nat} {l : List region} (h : ∀ x ∈ l, 0 < x.size) :
    Tiles (pack a l) a (a + (l.map region.size).sum) := by
  induction l generalizing a with
  | nil => simp [pack, tiles_nil]
  | cons x xs ih =>
    have := ih (a := a + x.size) (fun y hy => h y (List.mem_cons_of_mem _ hy))
    simp only [pack, tiles_cons, List.map_cons, List.sum_cons]
    refine ⟨trivial, h x (List.mem_cons_self _ _), ?_⟩
    rw [← Nat.add_assoc]
    exact this

theorem head_after_spec {mem : Option Nat} {pre pp rest rest1 : List region}
    {reg reg1 : region} (s : Nat)
    (hnd : ((pre ++ reg :: (pp ++ rest)).map region.addr).Nodup)
    (hmem : mem = (pre ++ reg :: (pp ++ rest)).head?.map region.addr)
    (ha : reg1.addr = reg.addr) :
    head_after mem reg.addr pp = (pre ++ pack s pp ++ reg1 :: rest1).head?.map region.addr := by
  cases pre with
  | nil =>
    simp only [List.nil_append, List.head?_cons, Option.map_some'] at hmem
    cases pp with
    | nil => simp [head_after, hmem, pack, ha]
    | cons p ps => simp [head_after, hmem, pack]
  | cons x xs =>
    simp only [List.cons_append, List.head?_cons, Option.map_some'] at hmem
    have hx : x.addr ≠ reg.addr := by
      intro he
      simp only [List.cons_append, List.map_cons, List.nodup_cons, List.map_append,
        List.mem_append, List.mem_cons, List.mem_map] at hnd
      exact hnd.1 (Or.inr (Or.inl he))
    cases pp with
    | nil => simp [head_after, hmem]
    | cons p ps => simp [head_after, hmem, hx]

theorem filter_proc_all {pp : List region} (hpp : ∀ p ∈ pp, p.kind = R_PROC) :
    pp.filter (fun r => r.kind = R_PROC) = pp ∧ pp.filter (fun r => r.kind = R_HOLE) = [] := by
  constructor
  · rw [List.filter_eq_self]
    intro p hp
    simp [hpp p hp]
  · rw [List.filter_eq_nil_iff]
    intro p hp
    simp [hpp p hp]

theorem compact_tail_cons_proc (a : Nat) {reg : region} (rest : List region)
    (hk : reg.kind = R_PROC) :
    compact_tail a (reg :: rest) = { reg with start := a } :: compact_tail (a + reg.size) rest := by
  simp [compact_tail, hk, pack, Nat.add_assoc]

theorem compact_tail_hole (a : Nat) {reg : region} {pp : List region} (rest : List region)
    (hk : reg.kind = R_HOLE) (hpp : ∀ p ∈ pp, p.kind = R_PROC) :
    compact_tail a (reg :: (pp ++ rest))
      = pack a pp ++ compact_tail (a + (pp.map region.size).sum) (reg :: rest) := by
  obtain ⟨h1, h2⟩ := filter_proc_all hpp
  simp [compact_tail, hk, List.filter_append, h1, h2, pack_append, Nat.add_assoc]

theorem compact_tail_merge (b : Nat) {reg n m : region} (rest : List region)
    (hk : reg.kind = R_HOLE) (hn : n.kind = R_HOLE) (hmk : m.kind = R_HOLE)
    (hma : m.addr = reg.addr) (hms : m.size = reg.size + n.size) :
    compact_tail b (reg :: n :: rest) = compact_tail b (m :: rest) := by
  simp [compact_tail, hk, hn, hmk, hma, hms, Nat.add_assoc]

theorem compact_tail_one_hole (b : Nat) {reg : region} (hk : reg.kind = R_HOLE)
    (hp : reg.pid = 0) : compact_tail b [reg] = [{ reg with start := b }] := by
  simp [compact_tail, hk, pack, ← hp]

/-- The outer loop, started behind the packed process regions `pre` on the
regions `l` that tile the rest of the space, packs the process regions of `l`
behind `pre` and leaves the holes of `l` as one hole at the end. -/
theorem compact_loop_spec {total : Nat} (htot : total < ULONG_MOD) (l : List region) :
    ∀ (pre : List region) (mem : Option Nat) (a : Nat),
      Tiles pre 0 a → Tiles l a total → (∀ x ∈ pre, x.kind = R_PROC) →
      (∀ x ∈ l, x.kind = R_HOLE → x.pid = 0) → ((pre ++ l).map region.addr).Nodup →
      mem = (pre ++ l).head?.map region.addr →
      compact_loop mem pre l
        = ((pre ++ compact_tail a l).head?.map region.addr, pre ++ compact_tail a l, 0) := by
  generalize hlen : l.length = k
  induction k using Nat.strong_induction_on generalizing l with
  | _ k ih =>
    intro pre mem a hT1 hT2 hprocs hholes hnd hmem
    cases l with
    | nil =>
      rw [compact_loop_nil]
      simp [compact_tail, pack, hmem]
    | cons reg rest =>
      simp only [List.length_cons] at hlen
      obtain ⟨hs, hpos, hT3⟩ := hT2
      by_cases hk : reg.kind = R_PROC
      · rw [compact_loop_proc _ _ _ hk]
        have hT1b : Tiles (pre ++ [reg]) 0 (a + reg.size) := by
          rw [tiles_append]
          exact ⟨a, hT1, hs, hpos, rfl⟩
        rw [ih rest.length (by omega) rest rfl (pre ++ [reg]) mem (a + reg.size) hT1b hT3
          (by
            intro x hx
            rcases List.mem_append.1 hx with hx | hx
            · exact hprocs x hx
            · simp only [List.mem_singleton] at hx
              subst hx; exact hk)
          (fun x hx => hholes x (List.mem_cons_of_mem _ hx))
          (by simpa using hnd) (by simpa using hmem)]
        have : ({ reg with start := a } : region) = reg := by rw [← hs]
        simp [compact_tail_cons_proc a rest hk, this]
      · have hk : reg.kind = R_HOLE := kind_ne_proc.1 hk
        have hp0 : reg.pid = 0 := hholes reg (List.mem_cons_self _ _) hk
        obtain ⟨pp, rest1, rfl, hpp, hrest1⟩ := split_procs rest
        rw [tiles_append] at hT3
        obtain ⟨b, hT4, hT5⟩ := hT3
        have hsum := tiles_sum hT4
        have hle := tiles_le hT5
        have haddr : ∀ p ∈ pp, p.addr ≠ reg.addr := by
          intro p hp he
          simp only [List.map_append, List.map_cons, List.nodup_append, List.nodup_cons,
            List.mem_append, List.mem_map] at hnd
          exact hnd.2.1.1 (Or.inl ⟨p, hp, he⟩)
        have hlt : reg.start + (pp.map region.size).sum < ULONG_MOD := by omega
        have hb := bubble_spec pp rest1 mem pre reg hpp hrest1 haddr hlt
        have hppos : ∀ x ∈ pp, 0 < x.size := fun x hx => (tiles_mem hT4 hx).2.2
        cases rest1 with
        | nil =>
          rw [compact_loop_hole_end hk hb]
          have hm := @head_after_spec mem pre pp [] [] reg
            ({ reg with start := reg.start + (pp.map region.size).sum } : region) a
            hnd hmem rfl
          rw [hm]
          have hct := @compact_tail_hole a reg pp [] hk hpp
          simp only [List.append_nil] at hct ⊢
          rw [hct, compact_tail_one_hole _ hk hp0, hs]
          simp
        | cons n rest2 =>
          have hn : n.kind = R_HOLE := hrest1 n (by simp)
          have hnp : n.pid = 0 := hholes n (by simp) hn
          obtain ⟨hns, hnpos, hT6⟩ := hT5
          have hle2 := tiles_le hT6
          rw [compact_loop_hole_next hk hb]
          have hc : combine_check { reg with start := reg.start + (pp.map region.size).sum } n
              = 0 := by
            simp [combine_check, hk, hn, hp0, hnp]
          simp only [hc, ne_eq, not_true_eq_false, if_false]
          have hab : absorb { reg with start := reg.start + (pp.map region.size).sum } n
              = { reg with start := reg.start + (pp.map region.size).sum,
                           size := reg.size + n.size } := by
            simp only [absorb]
            rw [uadd_eq (by omega)]
          rw [hab]
          have hm := @head_after_spec mem pre pp (n :: rest2) rest2 reg
            ({ reg with start := reg.start + (pp.map region.size).sum,
                        size := reg.size + n.size } : region) a hnd hmem rfl
          rw [ih (rest2.length + 1) (by simp at hlen; omega) _ (by simp)
            (pre ++ pack reg.start pp) _ (a + (pp.map region.size).sum)
            (by
              rw [tiles_append]
              refine ⟨a, hT1, ?_⟩
              rw [hs]
              exact tiles_pack hppos)
            (by
              refine ⟨by simp only []; omega, by simp only []; omega, ?_⟩
              have : a + (pp.map region.size).sum + (reg.size + n.size) = b + n.size := by
                omega
              simp only []
              rw [this]
              exact hT6)
            (by
              intro x hx
              rcases List.mem_append.1 hx with hx | hx
              · exact hprocs x hx
              · obtain ⟨y, hy, _, hyk, _⟩ := mem_pack hx
                rw [hyk]; exact hpp y hy)
            (by
              intro x hx hxk
              rcases List.mem_cons.1 hx with rfl | hx
              · exact hp0
              · exact hholes x (by simp [hx]) hxk)
            (by
              simp only [List.map_append, pack_map_addr, List.map_cons, List.append_assoc]
                at hnd ⊢
              simp only [List.nodup_append, List.nodup_cons, List.mem_append, List.mem_cons,
                List.disjoint_left, not_or] at hnd ⊢
              obtain ⟨h1, ⟨⟨h2, _, h4⟩, h5, ⟨_, h7⟩, h8⟩, h9⟩ := hnd
              exact ⟨h1, ⟨h5, ⟨h4, h7⟩, fun x hx => ⟨fun he => h2 (he ▸ hx), (h8 hx).2⟩⟩,
                fun x hx => ⟨(h9 hx).2.1, (h9 hx).1, (h9 hx).2.2.2⟩⟩)
            (by rw [hm, hs])]
          rw [compact_tail_hole a (n :: rest2) hk hpp,
            compact_tail_merge _ (m := { reg with
              start := reg.start + (pp.map region.size).sum, size := reg.size + n.size })
              rest2 hk hn hk rfl rfl, hs]
          simp only [List.append_assoc]

/-- The call of `compact_regs` on a ledger that tiles `[0, total)`. -/
theorem compact_regs_spec {total : Nat} {s : State} (htot : total < ULONG_MOD)
    (hT : Tiles s.nodes 0 total) (hne : s.nodes ≠ [])
    (hholes : ∀ x ∈ s.nodes, x.kind = R_HOLE → x.pid = 0)
    (hnd : (s.nodes.map region.addr).Nodup)
    (hmem : s.mem = s.nodes.head?.map region.addr) :
    compact_regs s
      = some ({ s with mem := (compact_ref s.nodes).head?.map region.addr,
                       nodes := compact_ref s.nodes }, 0) := by
  cases hns : s.nodes with
  | nil => exact absurd hns hne
  | cons r rest =>
    rw [hns] at hT hholes hnd hmem
    have hm : s.mem = some r.addr := by simpa using hmem
    have hloc : locate s.nodes r.addr = some ([], r, rest) := by
      rw [hns]; simp [locate]
    have hloop := compact_loop_spec htot (r :: rest) [] s.mem 0 rfl hT (by simp) hholes
      (by simpa using hnd) (by simpa using hmem)
    unfold compact_regs
    simp only [hm, hloc]
    rw [← hm, hloop]
    simp [compact_ref]

theorem sum_filter_kind (l : List region) :
    (l.map region.size).sum
      = ((l.filter (fun r => r.kind = R_PROC)).map region.size).sum
        + ((l.filter (fun r => r.kind = R_HOLE)).map region.size).sum := by
  induction l with
  | nil => rfl
  | cons x xs ih =>
    cases hk : x.kind <;> simp [List.filter_cons, hk, ih] <;> omega

theorem chain_procs_then {A B : List region} (hA : ∀ x ∈ A, x.kind = R_PROC)
    (hB : B.length ≤ 1) :
    (A ++ B).Chain' (fun a b => ¬ (a.kind = R_HOLE ∧ b.kind = R_HOLE)) := by
  induction A with
  | nil =>
    cases B with
    | nil => simp
    | cons b bs =>
      cases bs with
      | nil => simp
      | cons c cs => simp at hB
  | cons x xs ih =>
    rw [List.cons_append, List.chain'_cons']
    refine ⟨?_, ih (fun y hy => hA y (List.mem_cons_of_mem _ hy))⟩
    intro y _ hc
    have := hA x (List.mem_cons_self _ _)
    rw [this] at hc
    exact absurd hc.1 (by simp)

/-- The members of the compacted ledger. -/
theorem mem_compact_tail {a : Nat} {l : List region} {x : region}
    (hx : x ∈ compact_tail a l) :
    (x.kind = R_PROC ∧ ∃ y ∈ l, y.kind = R_PROC ∧ x.addr = y.addr ∧ x.pid = y.pid) ∨
    (x.kind = R_HOLE ∧ x.pid = 0 ∧ ∃ y ∈ l, y.kind = R_HOLE ∧ x.addr = y.addr) := by
  unfold compact_tail at hx
  rcases List.mem_append.1 hx with hx | hx
  · left
    obtain ⟨y, hy, h1, h2, h3, _⟩ := mem_pack hx
    obtain ⟨hy1, hy2⟩ := List.mem_filter.1 hy
    have : y.kind = R_PROC := by simpa using hy2
    exact ⟨by rw [h2, this], y, hy1, this, h1, h3⟩
  · right
    split at hx
    · simp at hx
    · rename_i h hs heq
      simp only [List.mem_singleton] at hx
      subst hx
      have hh : h ∈ l.filter (fun r => r.kind = R_HOLE) := by rw [heq]; simp
      obtain ⟨hy1, hy2⟩ := List.mem_filter.1 hh
      exact ⟨rfl, rfl, h, hy1, by simpa using hy2, rfl⟩

theorem compact_tail_mem {a : Nat} {l : List region} {y : region} (hy : y ∈ l)
    (hk : y.kind = R_PROC) :
    ∃ x ∈ compact_tail a l, x.addr = y.addr ∧ x.kind = R_PROC ∧ x.pid = y.pid := by
  have hy2 : y ∈ l.filter (fun r => r.kind = R_PROC) := List.mem_filter.2 ⟨hy, by simp [hk]⟩
  obtain ⟨x, hx, h1, h2, h3, _⟩ := pack_mem (a := a) hy2
  exact ⟨x, by unfold compact_tail; exact List.mem_append_left _ hx, h1, by rw [h2, hk], h3⟩

theorem tiles_compact_tail {l : List region} {a b : Nat} (h : Tiles l a b) :
    Tiles (compact_tail a l) a b := by
  have hsum := tiles_sum h
  rw [sum_filter_kind] at hsum
  have hp : ∀ x ∈ l.filter (fun r => r.kind = R_PROC), 0 < x.size :=
    fun x hx => (tiles_mem h (List.mem_filter.1 hx).1).2.2
  unfold compact_tail
  rw [tiles_append]
  refine ⟨_, tiles_pack hp, ?_⟩
  split
  · rename_i heq
    rw [heq] at hsum
    simp only [List.map_nil, List.sum_nil, Nat.add_zero] at hsum
    rw [tiles_nil]
    exact hsum
  · rename_i x xs heq
    rw [heq] at hsum
    have hx : x ∈ l.filter (fun r => r.kind = R_HOLE) := by rw [heq]; simp
    have hxpos := (tiles_mem h (List.mem_filter.1 hx).1).2.2
    simp only [tiles_cons, tiles_nil, List.map_cons, List.sum_cons] at hsum ⊢
    exact ⟨trivial, by omega, by omega⟩

theorem nodup_compact_tail {l : List region} (a : Nat) (hnd : (l.map region.addr).Nodup) :
    ((compact_tail a l).map region.addr).Nodup := by
  unfold compact_tail
  rw [List.map_append, pack_map_addr, List.nodup_append]
  refine ⟨List.Nodup.sublist (List.Sublist.map _ (List.filter_sublist _)) hnd, ?_, ?_⟩
  · split <;> simp
  · split
    · simp
    · rename_i h hs heq
      have hh : h ∈ l.filter (fun r => r.kind = R_HOLE) := by rw [heq]; simp
      obtain ⟨hh1, hh2⟩ := List.mem_filter.1 hh
      intro x hx1 hx2
      simp only [List.map_cons, List.map_nil, List.mem_singleton] at hx2
      obtain ⟨y, hy, rfl⟩ := List.mem_map.1 hx1
      obtain ⟨hy1, hy2⟩ := List.mem_filter.1 hy
      have : y = h := addr_unique hnd hy1 hh1 hx2
      subst this
      simp at hy2 hh2
      rw [hy2] at hh2
      cases hh2

/-- The invariant holds after a compaction. -/
theorem compact_inv {total : Nat} {s : State} (hI : Inv total s) :
    Inv total { s with mem := (compact_ref s.nodes).head?.map region.addr,
                       nodes := compact_ref s.nodes } := by
  refine
    { total_pos := hI.total_pos
      total_lt := hI.total_lt
      mem_head := rfl
      tiles := tiles_compact_tail hI.tiles
      addr_nodup := nodup_compact_tail 0 hI.addr_nodup
      addr_lt := ?_
      hole_pid := ?_
      no_adj_holes := ?_
      tbl_sound := ?_
      tbl_nodup := hI.tbl_nodup }
  · intro x hx
    rcases mem_compact_tail hx with ⟨_, y, hy, _, ha, _⟩ | ⟨_, _, y, hy, _, ha⟩
    · show x.addr < s.brk
      rw [ha]; exact hI.addr_lt y hy
    · show x.addr < s.brk
      rw [ha]; exact hI.addr_lt y hy
  · intro x hx hk
    rcases mem_compact_tail hx with ⟨hk2, _⟩ | ⟨_, hp, _⟩
    · rw [hk2] at hk; cases hk
    · exact hp
  · show (compact_tail 0 s.nodes).Chain' _
    unfold compact_tail
    apply chain_procs_then
    · intro x hx
      obtain ⟨y, hy, _, hk, _⟩ := mem_pack hx
      rw [hk]
      simpa using (List.mem_filter.1 hy).2
    · split <;> simp
  · intro b p hp
    obtain ⟨r, hr, hreg, hrk, hrb⟩ := hI.tbl_sound b p hp
    obtain ⟨x, hx, h1, h2, h3⟩ := compact_tail_mem (a := 0) hr hrk
    exact ⟨x, hx, by rw [hreg, h1], h2, by rw [h3]; exact hrb⟩

/-- A compaction keeps index and ledger in agreement. -/
theorem compact_coherent {s : State} (hC : Coherent s) :
    Coherent { s with mem := (compact_ref s.nodes).head?.map region.addr,
                      nodes := compact_ref s.nodes } := by
  refine { pid_nodup := ?_, tbl_complete := ?_ }
  · show (((compact_tail 0 s.nodes).filter (fun r => r.kind = R_PROC)).map region.pid).Nodup
    have hall : ∀ x ∈ pack 0 (s.nodes.filter (fun r => r.kind = R_PROC)), x.kind = R_PROC := by
      intro x hx
      obtain ⟨y, hy, _, hk, _⟩ := mem_pack hx
      rw [hk]
      simpa using (List.mem_filter.1 hy).2
    unfold compact_tail
    rw [List.filter_append, (filter_proc_all hall).1]
    have : (match s.nodes.filter (fun r : region => r.kind = R_HOLE) with
        | [] => []
        | h :: hs =>
          [({ addr := h.addr, kind := R_HOLE,
              start := 0 + ((s.nodes.filter
                (fun r : region => r.kind = R_PROC)).map region.size).sum,
              size := ((h :: hs).map region.size).sum, pid := 0 } : region)]).filter
        (fun r : region => r.kind = R_PROC) = [] := by
      split <;> simp
    rw [this, List.append_nil, pack_map_pid]
    exact hC.pid_nodup
  · intro x hx hk
    rcases mem_compact_tail hx with ⟨_, y, hy, hyk, ha, hp⟩ | ⟨hk2, _⟩
    · show ({ reg := some x.addr } : proc) ∈ s.proc_table (hash x.pid)
      rw [ha, hp]
      exact hC.tbl_complete y hy hyk
    · rw [hk2] at hk; cases hk

/-- Every call of `compact_regs` in a state of the invariant returns 0, in
a state of the invariant. -/
theorem compact_regs_inv {total : Nat} {s : State} (hI : Inv total s) :
    ∃ s1, compact_regs s = some (s1, 0) ∧ Inv total s1 ∧ (Coherent s → Coherent s1) :=
  ⟨_, compact_regs_spec hI.total_lt hI.tiles (tiles_ne_nil hI.tiles hI.total_pos)
    hI.hole_pid hI.addr_nodup hI.mem_head, compact_inv hI, compact_coherent⟩

/-! ## Reachable states -/

theorem inv_init {total : Nat} (hpos : 0 < total) (hlt : total < ULONG_MOD) :
    Inv total (mem_init total) := by
  refine
    { total_pos := hpos
      total_lt := hlt
      mem_head := rfl
      tiles := ⟨rfl, hpos, by simp [tiles_nil, region_init]⟩
      addr_nodup := by simp [mem_init]
      addr_lt := by simp [mem_init, region_init]
      hole_pid := by simp [mem_init, region_init]
      no_adj_holes := by simp [mem_init]
      tbl_sound := by simp [mem_init]
      tbl_nodup := by simp [mem_init] }

theorem coherent_init (total : Nat) (heap : List Bool) :
    Coherent { mem_init total with heap := heap } :=
  { pid_nodup := by simp [mem_init, region_init]
    tbl_complete := by simp [mem_init, region_init] }

theorem step_inv {total : Nat} {s : State} (hI : Inv total s) (c : Cmd) :
    ∃ s1 rc, step s c = some (s1, rc) ∧ Inv total s1 := by
  cases c with
  | RQ pid size flag => exact request_reg_inv hI pid size flag
  | RL pid => exact release_reg_inv hI pid
  | C =>
    obtain ⟨s1, h1, h2, _⟩ := compact_regs_inv hI
    exact ⟨s1, 0, h1, h2⟩

/-- Index and ledger stay in agreement over every call that does not return
-1. -/
theorem step_coherent {total : Nat} {s s1 : State} {rc : Int} (hI : Inv total s)
    (hC : Coherent s) (c : Cmd) (h : step s c = some (s1, rc)) (hrc : rc ≠ -1) :
    Coherent s1 := by
  cases c with
  | RQ pid size flag =>
    obtain ⟨t, r, e, _, _, _, hco⟩ := request_reg_total hI pid size flag
    simp only [step] at h
    rw [e] at h
    simp only [Option.some.injEq, Prod.mk.injEq] at h
    obtain ⟨rfl, rfl⟩ := h
    exact hco hC hrc
  | RL pid =>
    obtain ⟨t, r, e, _, _, _, hco⟩ := release_reg_total hI pid
    simp only [step] at h
    rw [e] at h
    simp only [Option.some.injEq, Prod.mk.injEq] at h
    obtain ⟨rfl, rfl⟩ := h
    exact hco hC
  | C =>
    obtain ⟨t, e, _, hco⟩ := compact_regs_inv hI
    simp only [step] at h
    rw [e] at h
    simp only [Option.some.injEq, Prod.mk.injEq] at h
    obtain ⟨rfl, rfl⟩ := h
    exact hco hC

theorem reachable_inv {total : Nat} (hpos : 0 < total) (hlt : total < ULONG_MOD)
    {s : State} (hr : Reachable total s) : Inv total s := by
  induction hr with
  | init heap => exact inv_heap (inv_init hpos hlt) heap
  | step c _ hstep ih =>
    obtain ⟨s1, rc, h1, h2⟩ := step_inv ih c
    rw [h1] at hstep
    simp only [Option.some.injEq, Prod.mk.injEq] at hstep
    rw [← hstep.1]
    exact h2

theorem reachableOK_reachable {total : Nat} {s : State} (hr : ReachableOK total s) :
    Reachable total s := by
  induction hr with
  | init heap => exact Reachable.init heap
  | step c _ hstep _ ih => exact Reachable.step c ih hstep

/-- As long as no call has returned -1, index and ledger agree. -/
theorem reachableOK_coherent {total : Nat} (hpos : 0 < total) (hlt : total < ULONG_MOD)
    {s : State} (hr : ReachableOK total s) : Coherent s := by
  induction hr with
  | init heap => exact coherent_init total heap
  | step c hprev hstep hrc ih =>
    exact step_coherent (reachable_inv hpos hlt (reachableOK_reachable hprev)) ih c hstep hrc

theorem run_inv {total : Nat} {s : State} (hI : Inv total s) (cmds : List Cmd) :
    ∃ s1, run s cmds = some s1 ∧ Inv total s1 := by
  induction cmds generalizing s with
  | nil => exact ⟨s, rfl, hI⟩
  | cons c cs ih =>
    obtain ⟨s1, rc, h1, h2⟩ := step_inv hI c
    obtain ⟨s2, h3, h4⟩ := ih h2
    exact ⟨s2, by simp [run, h1, h3], h4⟩

/-! ## Consequences of the invariant -/

theorem inv_I2 {total : Nat} {s : State} (hI : Inv total s) (hC : Coherent s) :
    I2 s.nodes := by
  have h1 := hI.no_adj_holes
  have h2 := hC.pid_nodup
  unfold I2
  generalize s.nodes = l at h1 h2
  induction l with
  | nil => simp
  | cons x xs ih =>
    cases xs with
    | nil => simp
    | cons y ys =>
      rw [List.chain'_cons] at h1 ⊢
      refine ⟨⟨h1.1, ?_⟩, ih h1.2 ?_⟩
      · rintro ⟨hx, hy, hp⟩
        simp [List.filter_cons, hx, hy, hp] at h2
      · by_cases hx : x.kind = R_PROC
        · simp only [List.filter_cons, hx, decide_True, if_true, List.map_cons,
            List.nodup_cons] at h2
          simpa [List.filter_cons] using h2.2
        · simpa [List.filter_cons, hx] using h2

/-- A pid owns at most one region. -/
theorem inv_owner_count {s : State} (hC : Coherent s) (pid : Nat) :
    (s.nodes.filter (fun r => r.kind = R_PROC ∧ r.pid = pid)).length ≤ 1 := by
  have h2 := hC.pid_nodup
  generalize s.nodes = l at h2
  induction l with
  | nil => simp
  | cons x xs ih =>
    by_cases hx : x.kind = R_PROC
    · simp only [List.filter_cons, hx, decide_True, if_true, List.map_cons,
        List.nodup_cons] at h2
      by_cases hp : x.pid = pid
      · have hnil : xs.filter (fun r => r.kind = R_PROC ∧ r.pid = pid) = [] := by
          rw [List.filter_eq_nil_iff]
          intro y hy hc
          simp only [decide_eq_true_eq] at hc
          apply h2.1
          rw [hp, ← hc.2]
          exact List.mem_map_of_mem _ (List.mem_filter.2 ⟨hy, by simp [hc.1]⟩)
        rw [List.filter_cons]
        simp only [hx, hp, and_self, decide_True, if_true, hnil]
        simp
      · have := ih h2.2
        simpa [List.filter_cons, hx, hp] using this
    · have := ih (by simpa [List.filter_cons, hx] using h2)
      simpa [List.filter_cons, hx] using this

/-- The index is coherent with the ledger. -/
theorem inv_lookup {total : Nat} {s : State} (hI : Inv total s) (hC : Coherent s)
    (pid : Nat) :
    (∀ r ∈ s.nodes, r.kind = R_PROC → r.pid = pid →
      lookup s.nodes s.proc_table pid = some (some { reg := some r.addr })) ∧
    ((∀ r ∈ s.nodes, r.kind = R_PROC → r.pid ≠ pid) →
      lookup s.nodes s.proc_table pid = some none) := by
  constructor
  · intro r hr hk hp
    rw [← hp]
    exact lookup_owner hI hC hr hk
  · exact lookup_absent hI

theorem ledger_of_head {s : State} (hmem : s.mem = s.nodes.head?.map region.addr) :
    ledger s = s.nodes := by
  unfold ledger
  cases hn : s.nodes with
  | nil => rw [hn] at hmem; simp [hmem]
  | cons r rest =>
    rw [hn] at hmem
    simp only [List.head?_cons, Option.map_some'] at hmem
    simp [hmem, locate]

theorem chain_tiles {l : List region} {a b : Nat}
    (hc : l.Chain' (fun x y => x.start + x.size = y.start))
    (hh : ∀ r ∈ l.head?, r.start = a)
    (hl : l.getLast?.map (fun r => r.start + r.size) = some b)
    (hp : ∀ r ∈ l, 0 < r.size) : Tiles l a b := by
  induction l generalizing a with
  | nil => simp at hl
  | cons x xs ih =>
    have hx : x.start = a := hh x (by simp)
    refine ⟨hx, hp x (List.mem_cons_self _ _), ?_⟩
    cases xs with
    | nil =>
      simp only [List.getLast?_singleton, Option.map_some', Option.some.injEq] at hl
      rw [tiles_nil, ← hx]
      exact hl
    | cons y ys =>
      rw [List.chain'_cons] at hc
      apply ih hc.2
      · intro r hr
        simp only [List.head?_cons, Option.mem_def, Option.some.injEq] at hr
        subst hr
        rw [← hx]; exact hc.1.symm
      · simpa [List.getLast?_cons_cons] using hl
      · exact fun r hr => hp r (List.mem_cons_of_mem _ hr)

theorem I1_tiles {total : Nat} {l : List region} (h : I1 total l) :
    Tiles l 0 total ∧ l ≠ [] := by
  obtain ⟨h1, h2, h3, h4, _⟩ := h
  constructor
  · apply chain_tiles h2 _ h3 h4
    intro r hr
    simp only [Option.mem_def] at hr
    rw [hr] at h1
    simpa using h1
  · rintro rfl
    simp at h1

theorem chosen_hole_none {flag : Char} {l : List region} {size : Nat}
    (h : ∀ r ∈ l, r.kind = R_HOLE → r.size < size) : chosen_hole flag l size = none := by
  cases hc : chosen_hole flag l size with
  | none => rfl
  | some x =>
    obtain ⟨h1, h2, h3⟩ := chosen_hole_mem hc
    have := h x h1 h2
    omega

/-! ## The claims -/

/-- C1 (tiling and conservation): for every `total_size > 0` (an `unsigned
long`), every sequence of `request_reg` / `release_reg` / `compact_regs`
calls from the ledger of `mem_init` and every sequence of outcomes of
`malloc`, every call returns and the ledger read from `*mem` tiles
`[0, total_size)`: the first region starts at 0, each region ends where the
next starts, the last ends at `total_size`, every size is positive and the
sizes sum to `total_size`. -/
theorem C1_tiling (total : Nat) (hpos : 0 < total) (hlt : total < ULONG_MOD)
    (heap : List Bool) (cmds : List Cmd) :
    ∃ s, run { mem_init total with heap := heap } cmds = some s ∧ I1 total (ledger s) := by
  obtain ⟨s, h1, h2⟩ := run_inv (inv_heap (inv_init hpos hlt) heap) cmds
  refine ⟨s, h1, ?_⟩
  rw [inv_ledger h2]
  exact tiles_I1 h2.tiles (tiles_ne_nil h2.tiles h2.total_pos)

theorem C1_tiling_witness :
    ∃ s, run { mem_init 100 with heap := [true, false] }
        [Cmd.RQ 1 20 'F', Cmd.RQ 2 30 'B', Cmd.RL 1, Cmd.C] = some s ∧
      I1 100 (ledger s) :=
  C1_tiling 100 (by decide) (by decide) [true, false]
    [Cmd.RQ 1 20 'F', Cmd.RQ 2 30 'B', Cmd.RL 1, Cmd.C]

/-- On every state reached without a call returning -1, no two neighbouring
regions are both holes and no two neighbouring regions are process regions of
the same pid. -/
theorem no_adjacent_mergeable_ok (total : Nat) (hpos : 0 < total) (hlt : total < ULONG_MOD)
    (s : State) (hr : ReachableOK total s) : I2 (ledger s) := by
  have hI := reachable_inv hpos hlt (reachableOK_reachable hr)
  rw [inv_ledger hI]
  exact inv_I2 hI (reachableOK_coherent hpos hlt hr)

/-- C2, the failing run: from `mem_init(100)`, `request_reg(1, 20, 'F')`
gets a node from `malloc` and then `NULL` for the entry of `install`; it
returns -1 with the region of pid 1 left in the ledger and no entry in the
table.  The call `request_reg(1, 30, 'F')` that follows finds no entry for
pid 1, takes the fresh path and returns 0: the ledger is then P1 `[0, 20)`,
P1 `[20, 50)`, hole `[50, 100)`, two neighbouring process regions of one
pid. -/
theorem C2_failing_run :
    request_reg { mem_init 100 with heap := [true, false] } 1 20 'F'
      = some (state_no_entry, -1) ∧
    request_reg state_no_entry 1 30 'F' = some (state_two_regions, 0) ∧
    ledger state_two_regions
      = [⟨1, R_PROC, 0, 20, 1⟩, ⟨2, R_PROC, 20, 30, 1⟩, ⟨0, R_HOLE, 50, 50, 0⟩] ∧
    ¬ I2 (ledger state_two_regions) := by
  refine ⟨rfl, rfl, rfl, ?_⟩
  simp [I2, ledger, locate, state_two_regions]

/-- On every state reached without a call returning -1 the index is
coherent with the ledger: for every pid, `lookup(pid)` is defined; it returns
an entry exactly when the ledger has exactly one process region owned by
pid; the `reg` of that entry is the address of that region; and the ledger
has at most one process region of a pid. -/
theorem index_coherence_ok (total : Nat) (hpos : 0 < total) (hlt : total < ULONG_MOD)
    (s : State) (hr : ReachableOK total s) :
    ∀ pid,
      lookup s.nodes s.proc_table pid ≠ none ∧
      ((∃ p, lookup s.nodes s.proc_table pid = some (some p)) ↔
        ∃! r, Owns (ledger s) pid r) ∧
      (∀ p, lookup s.nodes s.proc_table pid = some (some p) →
        ∃ r, Owns (ledger s) pid r ∧ p.reg = some r.addr) ∧
      ((ledger s).filter (fun r => r.kind = R_PROC ∧ r.pid = pid)).length ≤ 1 := by
  have h2 := reachable_inv hpos hlt (reachableOK_reachable hr)
  have hC := reachableOK_coherent hpos hlt hr
  intro pid
  rw [inv_ledger h2]
  obtain ⟨hown, hfree⟩ := inv_lookup h2 hC pid
  by_cases hex : ∃ r ∈ s.nodes, r.kind = R_PROC ∧ r.pid = pid
  · obtain ⟨r, hr, hk, hp⟩ := hex
    have hl := hown r hr hk hp
    have huniq : ∃! x, Owns s.nodes pid x := by
      refine ⟨r, ⟨hr, hk, hp⟩, ?_⟩
      rintro y ⟨hy, hyk, hyp⟩
      exact pid_unique hC.pid_nodup hy hr hyk hk (by rw [hyp, hp])
    refine ⟨by rw [hl]; simp, ⟨fun _ => huniq, fun _ => ⟨_, hl⟩⟩, ?_, inv_owner_count hC pid⟩
    intro p hpl
    rw [hl] at hpl
    simp only [Option.some.injEq] at hpl
    subst hpl
    exact ⟨r, ⟨hr, hk, hp⟩, rfl⟩
  · have hnone : ∀ r ∈ s.nodes, r.kind = R_PROC → r.pid ≠ pid :=
      fun r hr hk hp => hex ⟨r, hr, hk, hp⟩
    have hl := hfree hnone
    refine ⟨by rw [hl]; simp, ⟨?_, ?_⟩, ?_, inv_owner_count hC pid⟩
    · rintro ⟨p, hp⟩
      rw [hl] at hp
      simp at hp
    · rintro ⟨r, ⟨hr, hk, hp⟩, _⟩
      exact absurd hp (hnone r hr hk)
    · intro p hp
      rw [hl] at hp
      simp at hp

/-- C3, the failing run: after `request_reg(1, 20, 'F')` from
`mem_init(100)` whose call of `install` got `NULL` from `malloc` (returned
code -1), pid 1 owns the region `[0, 20)` of the ledger but `lookup(1)` finds
nothing; after the call `request_reg(1, 30, 'F')` that follows (returned code
0) pid 1 owns two regions of the ledger. -/
theorem C3_failing_run :
    request_reg { mem_init 100 with heap := [true, false] } 1 20 'F'
      = some (state_no_entry, -1) ∧
    Owns (ledger state_no_entry) 1 ⟨1, R_PROC, 0, 20, 1⟩ ∧
    lookup state_no_entry.nodes state_no_entry.proc_table 1 = some none ∧
    request_reg state_no_entry 1 30 'F' = some (state_two_regions, 0) ∧
    ((ledger state_two_regions).filter (fun r => r.kind = R_PROC ∧ r.pid = 1)).length = 2 := by
  refine ⟨rfl, ?_, rfl, rfl, rfl⟩
  simp [Owns, ledger, locate, state_no_entry]

/-- C4 (compaction against its reference): on a ledger that satisfies I1 for
an `unsigned long` total and whose holes carry pid 0 (`*mem` being the first
node and node addresses distinct), `compact_regs` returns 0 and leaves
exactly the reference ledger: the process regions in their order with their
pid and size, packed from address 0, then one hole as large as all holes
together when there was a hole and nothing otherwise; `*mem` is the first
region of that result and the process table is untouched. -/
theorem C4_compact_reference (total : Nat) (s : State) (hlt : total < ULONG_MOD)
    (hmem : s.mem = s.nodes.head?.map region.addr)
    (hnd : (s.nodes.map region.addr).Nodup)
    (hI1 : I1 total (ledger s))
    (hholes : ∀ r ∈ ledger s, r.kind = R_HOLE → r.pid = 0) :
    ∃ s1, compact_regs s = some (s1, 0) ∧
      ledger s1 = compact_ref (ledger s) ∧
      s1.mem = (compact_ref (ledger s)).head?.map region.addr ∧
      s1.proc_table = s.proc_table := by
  rw [ledger_of_head hmem] at hI1 hholes ⊢
  obtain ⟨hT, hne⟩ := I1_tiles hI1
  refine ⟨_, compact_regs_spec hlt hT hne hholes hnd hmem, ?_, rfl, rfl⟩
  exact ledger_of_head rfl

theorem C4_compact_reference_witness :
    ∃ s1, compact_regs
        { mem := some 1
          nodes := [⟨1, R_HOLE, 0, 20, 0⟩, ⟨2, R_PROC, 20, 30, 2⟩, ⟨0, R_HOLE, 50, 50, 0⟩]
          proc_table := fun _ => []
          brk := 3 } = some (s1, 0) ∧
      ledger s1 = compact_ref (ledger
        { mem := some 1
          nodes := [⟨1, R_HOLE, 0, 20, 0⟩, ⟨2, R_PROC, 20, 30, 2⟩, ⟨0, R_HOLE, 50, 50, 0⟩]
          proc_table := fun _ => []
          brk := 3 }) ∧
      s1.mem = (compact_ref (ledger
        { mem := some 1
          nodes := [⟨1, R_HOLE, 0, 20, 0⟩, ⟨2, R_PROC, 20, 30, 2⟩, ⟨0, R_HOLE, 50, 50, 0⟩]
          proc_table := fun _ => []
          brk := 3 })).head?.map region.addr ∧
      s1.proc_table = fun _ => [] :=
  C4_compact_reference 100
    { mem := some 1
      nodes := [⟨1, R_HOLE, 0, 20, 0⟩, ⟨2, R_PROC, 20, 30, 2⟩, ⟨0, R_HOLE, 50, 50, 0⟩]
      proc_table := fun _ => []
      brk := 3 }
    (by decide) (by decide) (by decide) (by simp [I1, ledger, locate]) (by decide)

/-- C5, counterexample.  In the reachable state where pid 1 owns `[0, 20)`
followed by a hole of 80 units and the next call of `malloc` returns `NULL`,
`request_reg(1, 5, 'F')` returns -1: it does not succeed although the region
after that of pid 1 is a hole of at least 5 units, and the code is not
`E_MEM`.  In the reachable state left by the call `request_reg(1, 20, 'F')`
whose `install` got no storage, pid 1 owns `[0, 20)` followed by a hole of 80
units, yet `request_reg(1, 5, 'X')` returns `E_FLAG`. -/
theorem C5_counterexample :
    (Reachable 100 { state_one_proc with heap := [false] } ∧
      Owns (ledger { state_one_proc with heap := [false] }) 1 ⟨1, R_PROC, 0, 20, 1⟩ ∧
      ledger { state_one_proc with heap := [false] }
        = [⟨1, R_PROC, 0, 20, 1⟩, ⟨0, R_HOLE, 20, 80, 0⟩] ∧
      request_reg { state_one_proc with heap := [false] } 1 5 'F'
        = some (state_one_proc, -1) ∧ (-1 : Int) ≠ 0 ∧ (-1 : Int) ≠ E_MEM) ∧
    (Reachable 100 state_no_entry ∧
      Owns (ledger state_no_entry) 1 ⟨1, R_PROC, 0, 20, 1⟩ ∧
      ledger state_no_entry = [⟨1, R_PROC, 0, 20, 1⟩, ⟨0, R_HOLE, 20, 80, 0⟩] ∧
      request_reg state_no_entry 1 5 'X' = some (state_no_entry, E_FLAG) ∧
      E_FLAG ≠ 0 ∧ E_FLAG ≠ E_MEM) := by
  refine ⟨⟨Reachable.step (Cmd.RQ 1 20 'F') (Reachable.init [true, true, false]) rfl, ?_, rfl,
    rfl, by decide, by decide⟩,
    ⟨Reachable.step (Cmd.RQ 1 20 'F') (Reachable.init [true, false]) rfl, ?_, rfl, rfl,
      by decide, by decide⟩⟩
  · simp [Owns, ledger, locate, state_one_proc]
  · simp [Owns, ledger, locate, state_no_entry]

/-- C5, amended (extension only): in a reachable state where `lookup(pid)`
returns the entry of the region `R` (`pre` before it, `post` after it in the
ledger), `request_reg(pid, size, flag)` with `size > 0` returns 0 exactly
when the region right after `R` exists, is a hole and has at least `size`
units, and `malloc` returns storage for the node; the ledger is then the old
one with `R` enlarged by `size` (same address, start and pid) and that hole
shortened by `size` from its front, or gone when used up, the table being
untouched; when the region after `R` is no such hole the call returns `E_MEM`
and the state is unchanged, whatever other holes the ledger has; when it is
such a hole and `malloc` returns `NULL` the call returns -1 and ledger, `*mem`
and table are unchanged. -/
theorem C5_extension (total : Nat) (s : State) (hpos : 0 < total) (hlt : total < ULONG_MOD)
    (hr : Reachable total s) (flag : Char) (size : Nat) (hsz : 0 < size)
    (pre post : List region) (R : region) (hl : ledger s = pre ++ R :: post)
    (hlook : lookup s.nodes s.proc_table R.pid = some (some { reg := some R.addr })) :
    ∃ s1 rc, request_reg s R.pid size flag = some (s1, rc) ∧
      (rc = 0 ↔ (∃ h post1, post = h :: post1 ∧ h.kind = R_HOLE ∧ size ≤ h.size) ∧
        malloc_ok s.heap = true) ∧
      (rc = 0 → ∀ h post1, post = h :: post1 →
        ledger s1 = pre ++ grow R h size ++ post1 ∧ s1.proc_table = s.proc_table) ∧
      ((¬ ∃ h post1, post = h :: post1 ∧ h.kind = R_HOLE ∧ size ≤ h.size) →
        rc = E_MEM ∧ s1 = s) ∧
      ((∃ h post1, post = h :: post1 ∧ h.kind = R_HOLE ∧ size ≤ h.size) →
        malloc_ok s.heap = false →
        rc = -1 ∧ ledger s1 = ledger s ∧ s1.mem = s.mem ∧ s1.proc_table = s.proc_table) := by
  have hI := reachable_inv hpos hlt hr
  rw [inv_ledger hI] at hl
  have h0 : size ≠ 0 := by omega
  have hk : R.kind = R_PROC := by
    rcases lookup_cases hI R.pid with hnone | ⟨pre1, r, post1, hn, hrk, _, hlk⟩
    · rw [hnone] at hlook; simp at hlook
    · rw [hlk] at hlook
      simp only [Option.some.injEq, proc.mk.injEq] at hlook
      have hr1 : r ∈ s.nodes := by rw [hn]; simp
      have hR : R ∈ s.nodes := by rw [hl]; simp
      have := addr_unique hI.addr_nodup hr1 hR hlook
      rw [← this]; exact hrk
  rw [request_reg_owned hI flag hl hlook h0]
  cases post with
  | nil =>
    refine ⟨s, E_MEM, rfl, ?_, ?_, fun _ => ⟨rfl, rfl⟩, ?_⟩
    · simp [E_MEM]
    · intro h1; simp [E_MEM] at h1
    · rintro ⟨h, post1, hp, _⟩; cases hp
  | cons h post1 =>
    by_cases hc : h.kind = R_HOLE ∧ size ≤ h.size
    · simp only [hc, and_self, if_true]
      have hex : ∃ h2 post2, h :: post1 = h2 :: post2 ∧ h2.kind = R_HOLE ∧ size ≤ h2.size :=
        ⟨h, post1, rfl, hc.1, hc.2⟩
      by_cases hm : malloc_ok s.heap = true
      · obtain ⟨e1, e2⟩ := request_extend_spec hI hl hk hc.1 hc.2 h0 hm
        refine ⟨_, 0, e1, ?_, ?_, fun hne => absurd hex hne, ?_⟩
        · simp only [true_iff]
          exact ⟨hex, hm⟩
        · intro _ h2 post2 hp
          simp only [List.cons.injEq] at hp
          obtain ⟨rfl, rfl⟩ := hp
          exact ⟨inv_ledger e2, rfl⟩
        · intro _ hm2
          rw [hm] at hm2
          cases hm2
      · have hm2 : malloc_ok s.heap = false := by simpa using hm
        refine ⟨_, -1, request_extend_nonode s R.addr h R.pid size hm2, ?_, ?_,
          fun hne => absurd hex hne, fun _ _ => ⟨rfl, ?_, rfl, rfl⟩⟩
        · constructor
          · intro h1; simp at h1
          · rintro ⟨_, h1⟩
            exact absurd h1 hm
        · intro h1; simp at h1
        · rw [inv_ledger (inv_heap hI _), inv_ledger hI]
    · simp only [hc, if_false]
      have hnex : ¬ ∃ h2 post2, h :: post1 = h2 :: post2 ∧ h2.kind = R_HOLE ∧ size ≤ h2.size := by
        rintro ⟨h2, post2, hp, hk2, hs2⟩
        simp only [List.cons.injEq] at hp
        obtain ⟨rfl, rfl⟩ := hp
        exact hc ⟨hk2, hs2⟩
      refine ⟨s, E_MEM, rfl, ?_, ?_, fun _ => ⟨rfl, rfl⟩, fun hex => absurd hex hnex⟩
      · constructor
        · intro h1; simp [E_MEM] at h1
        · rintro ⟨hex, _⟩
          exact absurd hex hnex
      · intro h1; simp [E_MEM] at h1

theorem C5_extension_witness :
    ∃ s1 rc, request_reg state_one_proc (region.pid ⟨1, R_PROC, 0, 20, 1⟩) 5 'X'
        = some (s1, rc) ∧
      (rc = 0 ↔ (∃ h post1, [(⟨0, R_HOLE, 20, 80, 0⟩ : region)] = h :: post1 ∧
        h.kind = R_HOLE ∧ 5 ≤ h.size) ∧ malloc_ok state_one_proc.heap = true) ∧
      (rc = 0 → ∀ h post1, [(⟨0, R_HOLE, 20, 80, 0⟩ : region)] = h :: post1 →
        ledger s1 = [] ++ grow ⟨1, R_PROC, 0, 20, 1⟩ h 5 ++ post1 ∧
          s1.proc_table = state_one_proc.proc_table) ∧
      ((¬ ∃ h post1, [(⟨0, R_HOLE, 20, 80, 0⟩ : region)] = h :: post1 ∧
        h.kind = R_HOLE ∧ 5 ≤ h.size) → rc = E_MEM ∧ s1 = state_one_proc) ∧
      ((∃ h post1, [(⟨0, R_HOLE, 20, 80, 0⟩ : region)] = h :: post1 ∧
        h.kind = R_HOLE ∧ 5 ≤ h.size) → malloc_ok state_one_proc.heap = false →
        rc = -1 ∧ ledger s1 = ledger state_one_proc ∧ s1.mem = state_one_proc.mem ∧
          s1.proc_table = state_one_proc.proc_table) :=
  C5_extension 100 state_one_proc (by decide) (by decide)
    (Reachable.step (Cmd.RQ 1 20 'F') (Reachable.init []) rfl) 'X' 5 (by decide)
    [] [⟨0, R_HOLE, 20, 80, 0⟩] ⟨1, R_PROC, 0, 20, 1⟩ rfl rfl

/-- C6, counterexample.  From `mem_init(100)`, where pid 1 owns no region
and first fit returns the hole `[0, 100)`: when `malloc` returns `NULL` for
the node, `request_reg(1, 20, 'F')` returns -1 and the ledger is unchanged;
when `malloc` returns a node and then `NULL` for the entry of `install`,
`request_reg(1, 20, 'F')` returns -1 with the hole carved and `lookup(1)`
finding nothing.  In both cases the call does not succeed. -/
theorem C6_counterexample :
    chosen_hole 'F' (ledger (mem_init 100)) 20 = some ⟨0, R_HOLE, 0, 100, 0⟩ ∧
    (request_reg { mem_init 100 with heap := [false] } 1 20 'F' = some (mem_init 100, -1)) ∧
    (request_reg { mem_init 100 with heap := [true, false] } 1 20 'F'
        = some (state_no_entry, -1) ∧
      ledger state_no_entry = [⟨1, R_PROC, 0, 20, 1⟩, ⟨0, R_HOLE, 20, 80, 0⟩] ∧
      lookup state_no_entry.nodes state_no_entry.proc_table 1 = some none) ∧
    (-1 : Int) ≠ 0 :=
  ⟨rfl, rfl, ⟨rfl, rfl, rfl⟩, by decide⟩

/-- C6, amended (fresh allocation): in a reachable state where pid owns no
region, for `size > 0` and a flag among `F`, `B`, `W` whose strategy returns
the hole `H` (`pre` before it, `post` after it in the ledger): when `malloc`
returns storage for the node and for the entry, `request_reg` returns 0 and
the ledger is the old one with `H` replaced in place by a process region at
the start of `H` of exactly `size` units owned by pid, followed by the hole
shortened from the front when `H` is larger than `size` and by nothing when it
is exactly `size`; `lookup(pid)` returns the entry of the new node and `*mem`
is the new node when `H` was the head.  When `malloc` returns `NULL` for the
node, `request_reg` returns -1 and ledger, `*mem` and table are unchanged. -/
theorem C6_fresh_allocation (total : Nat) (s : State) (hpos : 0 < total)
    (hlt : total < ULONG_MOD) (hr : Reachable total s) (pid size : Nat) (flag : Char)
    (hsz : 0 < size) (hflag : flag = 'F' ∨ flag = 'B' ∨ flag = 'W')
    (hfree : ∀ r ∈ ledger s, r.kind = R_PROC → r.pid ≠ pid)
    (H : region) (hch : chosen_hole flag (ledger s) size = some H)
    (pre post : List region) (hl : ledger s = pre ++ H :: post) :
    (malloc_ok s.heap = true → malloc_ok s.heap.tail = true →
      ∃ s1, request_reg s pid size flag = some (s1, 0) ∧
        ledger s1 = pre ++ carve s.brk H pid size ++ post ∧
        region_init s.brk R_PROC H.start size pid ∈ ledger s1 ∧
        lookup s1.nodes s1.proc_table pid = some (some { reg := some s.brk }) ∧
        (pre = [] → s1.mem = some s.brk)) ∧
    (malloc_ok s.heap = false →
      ∃ s1, request_reg s pid size flag = some (s1, -1) ∧
        ledger s1 = ledger s ∧ s1.mem = s.mem ∧ s1.proc_table = s.proc_table) := by
  have hI := reachable_inv hpos hlt hr
  rw [inv_ledger hI] at hl hch hfree
  have h0 : size ≠ 0 := by omega
  obtain ⟨_, hk, hs⟩ := chosen_hole_mem hch
  have hnone := lookup_absent hI hfree
  rw [request_reg_unowned hI flag h0 hfree]
  simp only [hflag, if_true, hch]
  constructor
  · intro hm1 hm2
    obtain ⟨e1, e2⟩ := request_fresh_spec hI hl hk hs h0 hnone hm1 hm2
    have hm : region_init s.brk R_PROC H.start size pid
        ∈ pre ++ carve s.brk H pid size ++ post := by
      have := List.mem_of_mem_head? (@carve_head s.brk pid size H)
      simp [this]
    refine ⟨_, e1, inv_ledger e2, ?_, ?_, ?_⟩
    · rw [inv_ledger e2]
      exact hm
    · show lookup_chain _ pid (Function.update s.proc_table (hash pid)
        ({ reg := some s.brk } :: s.proc_table (hash pid)) (hash pid)) = _
      rw [Function.update_same]
      exact @lookup_chain_found _ e2.addr_nodup _ [] _ _ _ (by simp) hm rfl rfl
    · intro hp
      simp [hp]
  · intro hm1
    refine ⟨_, request_fresh_nonode s H pid size hm1, ?_, rfl, rfl⟩
    rw [inv_ledger (inv_heap hI _), inv_ledger hI]

theorem C6_fresh_allocation_witness :
    (malloc_ok state_one_proc.heap = true → malloc_ok state_one_proc.heap.tail = true →
      ∃ s1, request_reg state_one_proc 2 80 'B' = some (s1, 0) ∧
        ledger s1 = [⟨1, R_PROC, 0, 20, 1⟩] ++
          carve state_one_proc.brk ⟨0, R_HOLE, 20, 80, 0⟩ 2 80 ++ [] ∧
        region_init state_one_proc.brk R_PROC (region.start ⟨0, R_HOLE, 20, 80, 0⟩) 80 2
          ∈ ledger s1 ∧
        lookup s1.nodes s1.proc_table 2 = some (some { reg := some state_one_proc.brk }) ∧
        (([⟨1, R_PROC, 0, 20, 1⟩] : List region) = [] → s1.mem = some state_one_proc.brk)) ∧
    (malloc_ok state_one_proc.heap = false →
      ∃ s1, request_reg state_one_proc 2 80 'B' = some (s1, -1) ∧
        ledger s1 = ledger state_one_proc ∧ s1.mem = state_one_proc.mem ∧
          s1.proc_table = state_one_proc.proc_table) :=
  C6_fresh_allocation 100 state_one_proc (by decide) (by decide)
    (Reachable.step (Cmd.RQ 1 20 'F') (Reachable.init []) rfl) 2 80 'B' (by decide)
    (by decide) (by decide) ⟨0, R_HOLE, 20, 80, 0⟩ rfl [⟨1, R_PROC, 0, 20, 1⟩] [] rfl

/-- C7, counterexample: in the reachable state where pid 1 owns `[0, 20)`
followed by a hole, the ledger is not empty, the size is 5 and the flag `X` is
none of `F`, `B`, `W`, yet `request_reg(1, 5, 'X')` returns 0 (the region is
extended), not `E_FLAG`. -/
theorem C7_counterexample :
    Reachable 100 state_one_proc ∧ ledger state_one_proc ≠ [] ∧
      ('X' ≠ 'F' ∧ 'X' ≠ 'B' ∧ 'X' ≠ 'W') ∧
      (request_reg state_one_proc 1 5 'X').map Prod.snd = some 0 ∧ (0 : Int) ≠ E_FLAG :=
  ⟨Reachable.step (Cmd.RQ 1 20 'F') (Reachable.init []) rfl, by decide, by decide, by decide,
    by decide⟩

/-- C7, amended: for every non-empty ledger, every pid for which `lookup`
finds no entry (a pid that owns no region) and every `size > 0`,
`request_reg` called with a strategy character other than `F`, `B`, `W`
returns `E_FLAG` and leaves the state unchanged. -/
theorem C7_unknown_flag (s : State) (pid size : Nat) (flag : Char)
    (hmem : s.mem ≠ none) (hsz : 0 < size)
    (hlook : lookup s.nodes s.proc_table pid = some none)
    (hF : flag ≠ 'F') (hB : flag ≠ 'B') (hW : flag ≠ 'W') :
    request_reg s pid size flag = some (s, E_FLAG) := by
  have h0 : size ≠ 0 := by omega
  unfold request_reg
  cases hm : s.mem with
  | none => exact absurd hm hmem
  | some m => simp [h0, hlook, hF, hB, hW]

theorem C7_unknown_flag_witness :
    request_reg (mem_init 100) 1 5 'X' = some (mem_init 100, E_FLAG) :=
  C7_unknown_flag (mem_init 100) 1 5 'X' (by decide) (by decide) rfl (by decide) (by decide)
    (by decide)

/-- C9, counterexample: on a space of 100 units, a fresh request of 200
units for pid 1 (no hole fits) returns `E_MEM`, and after `RQ P1 20 F`,
`RQ P2 80 F` the request of 5 more units for pid 1 (its region is followed by
the region of pid 2: blocked extension) returns `E_MEM` too: the two
conditions do not have different codes. -/
theorem C9_counterexample :
    (request_reg (mem_init 100) 1 200 'F').map Prod.snd = some E_MEM ∧
      (run (mem_init 100) [Cmd.RQ 1 20 'F', Cmd.RQ 2 80 'F']).bind
        (fun s => (request_reg s 1 5 'F').map Prod.snd) = some E_MEM := by
  constructor <;> rfl

/-- C9, amended: `request_reg` returns `E_NULLREG` for an absent ledger,
`E_EMPTY` for a zero-size request, `E_FLAG` for an unknown strategy selector
(pid owning no region), and the one code `E_MEM` both when no hole fits a
fresh allocation and when the extension of an existing region is blocked;
`E_NULLREG`, `E_EMPTY`, `E_FLAG` and `E_MEM` are pairwise distinct.  The
existing region of pid is the one its entry points at: `request_reg` tries
the extension exactly when `lookup(pid)` returns an entry; in a state reached
without a call returning -1 that is the region pid owns. -/
theorem C9_failure_codes (total : Nat) (s : State) (hpos : 0 < total)
    (hlt : total < ULONG_MOD) (hr : Reachable total s) (pid size : Nat) (flag : Char) :
    (∀ s0 : State, s0.mem = none → request_reg s0 pid size flag = some (s0, E_NULLREG)) ∧
    request_reg s pid 0 flag = some (s, E_EMPTY) ∧
    (0 < size → (∀ r ∈ ledger s, r.kind = R_PROC → r.pid ≠ pid) →
      flag ≠ 'F' → flag ≠ 'B' → flag ≠ 'W' →
      request_reg s pid size flag = some (s, E_FLAG)) ∧
    (0 < size → (∀ r ∈ ledger s, r.kind = R_PROC → r.pid ≠ pid) →
      (flag = 'F' ∨ flag = 'B' ∨ flag = 'W') →
      (∀ h ∈ ledger s, h.kind = R_HOLE → h.size < size) →
      request_reg s pid size flag = some (s, E_MEM)) ∧
    (0 < size → ∀ pre R post, ledger s = pre ++ R :: post →
      lookup s.nodes s.proc_table pid = some (some { reg := some R.addr }) →
      (¬ ∃ h post1, post = h :: post1 ∧ h.kind = R_HOLE ∧ size ≤ h.size) →
      request_reg s pid size flag = some (s, E_MEM)) ∧
    (ReachableOK total s → 0 < size → ∀ pre R post, ledger s = pre ++ R :: post →
      R.kind = R_PROC → R.pid = pid →
      (¬ ∃ h post1, post = h :: post1 ∧ h.kind = R_HOLE ∧ size ≤ h.size) →
      request_reg s pid size flag = some (s, E_MEM)) ∧
    E_NULLREG ≠ E_EMPTY ∧ E_NULLREG ≠ E_FLAG ∧ E_NULLREG ≠ E_MEM ∧
    E_EMPTY ≠ E_FLAG ∧ E_EMPTY ≠ E_MEM ∧ E_FLAG ≠ E_MEM := by
  have hI := reachable_inv hpos hlt hr
  rw [inv_ledger hI]
  obtain ⟨x, rest, h1, h2, h3⟩ := inv_head hI
  have ext : 0 < size → ∀ pre R post, s.nodes = pre ++ R :: post →
      lookup s.nodes s.proc_table pid = some (some { reg := some R.addr }) →
      (¬ ∃ h post1, post = h :: post1 ∧ h.kind = R_HOLE ∧ size ≤ h.size) →
      request_reg s pid size flag = some (s, E_MEM) := by
    intro hsz pre R post hl hlook hno
    have hp := (lookup_entry_region hI (by rw [hl]; simp) hlook).2
    subst hp
    rw [request_reg_owned hI flag hl hlook (by omega)]
    cases post with
    | nil => rfl
    | cons h post1 =>
      have hc : ¬ (h.kind = R_HOLE ∧ size ≤ h.size) :=
        fun hc => hno ⟨h, post1, rfl, hc.1, hc.2⟩
      simp only [hc, if_false]
  refine ⟨?_, ?_, ?_, ?_, ext, ?_, by decide, by decide, by decide, by decide, by decide,
    by decide⟩
  · intro s0 hs0
    unfold request_reg
    simp [hs0]
  · unfold request_reg
    simp [h2]
  · intro hsz hfree hF hB hW
    rw [request_reg_unowned hI flag (by omega) hfree]
    simp [hF, hB, hW]
  · intro hsz hfree hflag hnofit
    rw [request_reg_unowned hI flag (by omega) hfree]
    simp only [hflag, if_true, chosen_hole_none hnofit]
    rfl
  · intro hok hsz pre R post hl hk hp hno
    have hC := reachableOK_coherent hpos hlt hok
    exact ext hsz pre R post hl
      ((inv_lookup hI hC pid).1 R (by rw [hl]; simp) hk hp) hno

theorem C9_failure_codes_witness :
    (∀ s0 : State, s0.mem = none → request_reg s0 1 90 'F' = some (s0, E_NULLREG)) ∧
    request_reg state_one_proc 1 0 'F' = some (state_one_proc, E_EMPTY) ∧
    (0 < 90 → (∀ r ∈ ledger state_one_proc, r.kind = R_PROC → r.pid ≠ 1) →
      'F' ≠ 'F' → 'F' ≠ 'B' → 'F' ≠ 'W' →
      request_reg state_one_proc 1 90 'F' = some (state_one_proc, E_FLAG)) ∧
    (0 < 90 → (∀ r ∈ ledger state_one_proc, r.kind = R_PROC → r.pid ≠ 1) →
      ('F' = 'F' ∨ 'F' = 'B' ∨ 'F' = 'W') →
      (∀ h ∈ ledger state_one_proc, h.kind = R_HOLE → h.size < 90) →
      request_reg state_one_proc 1 90 'F' = some (state_one_proc, E_MEM)) ∧
    (0 < 90 → ∀ pre R post, ledger state_one_proc = pre ++ R :: post →
      lookup state_one_proc.nodes state_one_proc.proc_table 1
        = some (some { reg := some R.addr }) →
      (¬ ∃ h post1, post = h :: post1 ∧ h.kind = R_HOLE ∧ 90 ≤ h.size) →
      request_reg state_one_proc 1 90 'F' = some (state_one_proc, E_MEM)) ∧
    (ReachableOK 100 state_one_proc → 0 < 90 →
      ∀ pre R post, ledger state_one_proc = pre ++ R :: post →
      R.kind = R_PROC → R.pid = 1 →
      (¬ ∃ h post1, post = h :: post1 ∧ h.kind = R_HOLE ∧ 90 ≤ h.size) →
      request_reg state_one_proc 1 90 'F' = some (state_one_proc, E_MEM)) ∧
    E_NULLREG ≠ E_EMPTY ∧ E_NULLREG ≠ E_FLAG ∧ E_NULLREG ≠ E_MEM ∧
    E_EMPTY ≠ E_FLAG ∧ E_EMPTY ≠ E_MEM ∧ E_FLAG ≠ E_MEM :=
  C9_failure_codes 100 state_one_proc (by decide) (by decide)
    (Reachable.step (Cmd.RQ 1 20 'F') (Reachable.init []) rfl) 1 90 'F'

/-- On every state reached without a call returning -1, `release_reg(pid)`
returns; the code is `E_NOTDEF` exactly when pid owns no region of the
ledger, and the state is then unchanged; when pid owns a region the code is
0. -/
theorem release_unknown_ok (total : Nat) (s : State) (hpos : 0 < total)
    (hlt : total < ULONG_MOD) (hr : ReachableOK total s) (pid : Nat) :
    ∃ s1 rc, release_reg s pid = some (s1, rc) ∧
      (rc = E_NOTDEF ↔ ∀ r ∈ ledger s, r.kind = R_PROC → r.pid ≠ pid) ∧
      (rc = E_NOTDEF → s1 = s ∧ ledger s1 = ledger s ∧ s1.proc_table = s.proc_table) ∧
      ((∃ r, Owns (ledger s) pid r) → rc = 0) := by
  have hI := reachable_inv hpos hlt (reachableOK_reachable hr)
  have hC := reachableOK_coherent hpos hlt hr
  have hl := inv_ledger hI
  obtain ⟨s1, rc, h1, _, h3, h4, _⟩ := release_reg_total hI pid
  have hown : (∃ r ∈ s.nodes, r.kind = R_PROC ∧ r.pid = pid) → rc = 0 := by
    rintro ⟨r, hr1, hk, hp⟩
    exact h3 ⟨_, hp ▸ lookup_owner hI hC hr1 hk⟩
  refine ⟨s1, rc, h1, ?_, ?_, ?_⟩
  · constructor
    · intro hrc r hr hk hp
      rw [hl] at hr
      have := hown ⟨r, hr, hk, hp⟩
      rw [this] at hrc
      simp [E_NOTDEF] at hrc
    · intro hfree
      exact (h4 (lookup_absent hI (fun r hr => hfree r (by rw [hl]; exact hr)))).1
  · intro hrc
    rcases lookup_cases hI pid with hnone | ⟨_, _, _, _, _, _, hlk⟩
    · have := (h4 hnone).2
      subst this
      exact ⟨rfl, rfl, rfl⟩
    · have := h3 ⟨_, hlk⟩
      rw [this] at hrc
      simp [E_NOTDEF] at hrc
  · rintro ⟨r, hr, hk, hp⟩
    rw [hl] at hr
    exact hown ⟨r, hr, hk, hp⟩

/-- C10, the failing run: after `request_reg(1, 20, 'F')` from
`mem_init(100)` whose call of `install` got `NULL` from `malloc` (returned
code -1), pid 1 owns the region `[0, 20)` of the ledger, yet `release_reg(1)`
returns `E_NOTDEF`, not 0, and leaves the region in place. -/
theorem C10_failing_run :
    request_reg { mem_init 100 with heap := [true, false] } 1 20 'F'
      = some (state_no_entry, -1) ∧
    Owns (ledger state_no_entry) 1 ⟨1, R_PROC, 0, 20, 1⟩ ∧
    release_reg state_no_entry 1 = some (state_no_entry, E_NOTDEF) ∧ E_NOTDEF ≠ 0 := by
  refine ⟨rfl, ?_, rfl, by decide⟩
  simp [Owns, ledger, locate, state_no_entry]

/-! ## Placement strategies: what they select -/

theorem find_first_fit_hole_cons (x : region) (xs : List region) (size : Nat) :
    find_first_fit_hole (x :: xs) size
      = if Fits size x then some x else find_first_fit_hole xs size := by
  rw [find_first_fit_hole]
  by_cases hk : x.kind = R_HOLE
  · by_cases hs : size ≤ x.size
    · simp [Fits, hk, hs]
    · simp [Fits, hk, hs]
  · simp [Fits, hk]

/-- C13 (first fit): for every ledger and size, `find_first_fit_hole`
returns `h` exactly when `h` is a hole of at least `size` units with no such
hole before it in ledger order, and returns `NULL` exactly when the ledger has
no hole of at least `size` units.  The function only reads the list. -/
theorem C13_first_fit (l : List region) (size : Nat) :
    (∀ h, find_first_fit_hole l size = some h ↔
      ∃ pre post, l = pre ++ h :: post ∧ Fits size h ∧ ∀ x ∈ pre, ¬ Fits size x) ∧
    (find_first_fit_hole l size = none ↔ ∀ x ∈ l, ¬ Fits size x) := by
  induction l with
  | nil => simp [find_first_fit_hole]
  | cons x xs ih =>
    obtain ⟨ih1, ih2⟩ := ih
    rw [find_first_fit_hole_cons]
    by_cases hx : Fits size x
    · simp only [hx, if_true]
      constructor
      · intro h
        constructor
        · intro he
          simp only [Option.some.injEq] at he
          subst he
          exact ⟨[], xs, rfl, hx, by simp⟩
        · rintro ⟨pre, post, hl, hf, hpre⟩
          cases pre with
          | nil =>
            simp only [List.nil_append, List.cons.injEq] at hl
            rw [hl.1]
          | cons y ys =>
            simp only [List.cons_append, List.cons.injEq] at hl
            exact absurd (hl.1 ▸ hx) (hpre y (List.mem_cons_self _ _))
      · constructor
        · intro he
          simp at he
        · intro hall
          exact absurd hx (hall x (List.mem_cons_self _ _))
    · simp only [hx, if_false]
      constructor
      · intro h
        rw [ih1 h]
        constructor
        · rintro ⟨pre, post, hl, hf, hpre⟩
          refine ⟨x :: pre, post, by simp [hl], hf, ?_⟩
          intro y hy
          rcases List.mem_cons.1 hy with rfl | hy
          · exact hx
          · exact hpre y hy
        · rintro ⟨pre, post, hl, hf, hpre⟩
          cases pre with
          | nil =>
            simp only [List.nil_append, List.cons.injEq] at hl
            exact absurd (hl.1 ▸ hf) hx
          | cons y ys =>
            simp only [List.cons_append, List.cons.injEq] at hl
            exact ⟨ys, post, hl.2, hf, fun z hz => hpre z (List.mem_cons_of_mem _ hz)⟩
      · rw [ih2]
        constructor
        · intro hall y hy
          rcases List.mem_cons.1 hy with rfl | hy
          · exact hx
          · exact hall y hy
        · exact fun hall y hy => hall y (List.mem_cons_of_mem _ hy)

theorem best_fit_loop_cons (size : Nat) (acc : Option region) (x : region)
    (xs : List region) :
    best_fit_loop size acc (x :: xs)
      = if Fits size x ∧ (∀ a ∈ acc, x.size < a.size) then best_fit_loop size (some x) xs
        else best_fit_loop size acc xs := by
  rw [best_fit_loop]
  by_cases hk : x.kind = R_HOLE
  · cases acc with
    | none => simp [Fits, hk]
    | some a => simp [Fits, hk]
  · simp [Fits, hk]

/-- The loop of `find_best_fit_hole`: either the candidate `acc` is kept and
no fitting hole of the list is smaller, or the result is the first of the
smallest fitting holes of the list and is smaller than `acc`. -/
theorem best_fit_loop_spec (size : Nat) (l : List region) (acc : Option region) :
    (best_fit_loop size acc l = acc ∧
      ∀ x ∈ l, Fits size x → ∃ a ∈ acc, a.size ≤ x.size) ∨
    (∃ pre h post, l = pre ++ h :: post ∧ best_fit_loop size acc l = some h ∧
      Fits size h ∧ (∀ a ∈ acc, h.size < a.size) ∧
      (∀ x ∈ pre, Fits size x → h.size < x.size) ∧
      (∀ x ∈ post, Fits size x → h.size ≤ x.size)) := by
  induction l generalizing acc with
  | nil => exact Or.inl ⟨rfl, by simp⟩
  | cons x xs ih =>
    rw [best_fit_loop_cons]
    by_cases hc : Fits size x ∧ (∀ a ∈ acc, x.size < a.size)
    · rw [if_pos hc]
      rcases ih (some x) with ⟨h1, h2⟩ | ⟨pre, h, post, hl, hres, hf, hacc, hpre, hpost⟩
      · refine Or.inr ⟨[], x, xs, rfl, h1, hc.1, hc.2, by simp, ?_⟩
        intro y hy hfy
        obtain ⟨a, ha, hle⟩ := h2 y hy hfy
        simp only [Option.mem_def, Option.some.injEq] at ha
        subst ha
        exact hle
      · have hhx : h.size < x.size := hacc x rfl
        refine Or.inr ⟨x :: pre, h, post, by simp [hl], hres, hf, ?_, ?_, hpost⟩
        · intro a ha
          have := hc.2 a ha
          omega
        · intro y hy hfy
          rcases List.mem_cons.1 hy with rfl | hy
          · exact hhx
          · exact hpre y hy hfy
    · rw [if_neg hc]
      have hx : Fits size x → ∃ a ∈ acc, a.size ≤ x.size := by
        intro hfx
        by_contra hno
        apply hc
        refine ⟨hfx, fun a ha => ?_⟩
        by_contra hlt
        exact hno ⟨a, ha, by omega⟩
      rcases ih acc with ⟨h1, h2⟩ | ⟨pre, h, post, hl, hres, hf, hacc, hpre, hpost⟩
      · refine Or.inl ⟨h1, ?_⟩
        intro y hy hfy
        rcases List.mem_cons.1 hy with rfl | hy
        · exact hx hfy
        · exact h2 y hy hfy
      · refine Or.inr ⟨x :: pre, h, post, by simp [hl], hres, hf, hacc, ?_, hpost⟩
        intro y hy hfy
        rcases List.mem_cons.1 hy with rfl | hy
        · obtain ⟨a, ha, hle⟩ := hx hfy
          have := hacc a ha
          omega
        · exact hpre y hy hfy

/-- Two places of one list that are both "first among the best" hold the same
region; `lt` and `le` are the strict and weak order on sizes (or its
converse). -/
theorem first_best_unique (P : region → Prop) (lt le : region → region → Prop)
    (hirr : ∀ a b, lt a b → le b a → False)
    {pre post pre1 post1 : List region} {h h1 : region}
    (hl : pre ++ h :: post = pre1 ++ h1 :: post1) (hP : P h) (hP1 : P h1)
    (hpre : ∀ x ∈ pre, P x → lt h x) (hpost : ∀ x ∈ post, P x → le h x)
    (hpre1 : ∀ x ∈ pre1, P x → lt h1 x) (hpost1 : ∀ x ∈ post1, P x → le h1 x) :
    h = h1 := by
  rcases List.append_eq_append_iff.1 hl with ⟨a, ha, hb⟩ | ⟨c, hc, hd⟩
  · cases a with
    | nil =>
      simp only [List.nil_append, List.cons.injEq] at hb
      exact hb.1
    | cons y ys =>
      simp only [List.cons_append, List.cons.injEq] at hb
      obtain ⟨rfl, hb2⟩ := hb
      have h1post : h1 ∈ post := by rw [hb2]; simp
      have hpre1mem : h ∈ pre1 := by rw [ha]; simp
      exact absurd (hpost h1 h1post hP1) (fun hle => hirr _ _ (hpre1 h hpre1mem hP) hle)
  · cases c with
    | nil =>
      simp only [List.nil_append, List.cons.injEq] at hd
      exact hd.1.symm
    | cons y ys =>
      simp only [List.cons_append, List.cons.injEq] at hd
      obtain ⟨rfl, hd2⟩ := hd
      have hpost1mem : h ∈ post1 := by rw [hd2]; simp
      have hpremem : h1 ∈ pre := by rw [hc]; simp
      exact absurd (hpost1 h hpost1mem hP) (fun hle => hirr _ _ (hpre h1 hpremem hP1) hle)

/-- C14 (best fit): for every ledger and size, `find_best_fit_hole` returns
`h` exactly when `h` is a hole of at least `size` units, every such hole
before it in ledger order is strictly larger and every such hole after it is
at least as large (so `h` is the first of the smallest fitting holes); it
returns `NULL` exactly when no hole has at least `size` units.  The function
only reads the list. -/
theorem C14_best_fit (l : List region) (size : Nat) :
    (∀ h, find_best_fit_hole l size = some h ↔
      ∃ pre post, l = pre ++ h :: post ∧ Fits size h ∧
        (∀ x ∈ pre, Fits size x → h.size < x.size) ∧
        (∀ x ∈ post, Fits size x → h.size ≤ x.size)) ∧
    (find_best_fit_hole l size = none ↔ ∀ x ∈ l, ¬ Fits size x) := by
  unfold find_best_fit_hole
  rcases best_fit_loop_spec size l none with ⟨h1, h2⟩ |
    ⟨pre, h, post, hl, hres, hf, _, hpre, hpost⟩
  · rw [h1]
    constructor
    · intro h
      constructor
      · intro he; simp at he
      · rintro ⟨pre, post, hl, hf, _, _⟩
        obtain ⟨a, ha, _⟩ := h2 h (by rw [hl]; simp) hf
        simp at ha
    · simp only [true_iff]
      intro x hx hfx
      obtain ⟨a, ha, _⟩ := h2 x hx hfx
      simp at ha
  · rw [hres]
    constructor
    · intro h1
      constructor
      · intro he
        simp only [Option.some.injEq] at he
        subst he
        exact ⟨pre, post, hl, hf, hpre, hpost⟩
      · rintro ⟨pre1, post1, hl1, hf1, hpre1, hpost1⟩
        rw [hl] at hl1
        have := first_best_unique (Fits size) (fun a b => a.size < b.size)
          (fun a b => a.size ≤ b.size) (fun a b h1 h2 => by omega)
          hl1 hf hf1 hpre hpost hpre1 hpost1
        rw [this]
    · constructor
      · intro he; simp at he
      · intro hall
        exact absurd hf (hall h (by rw [hl]; simp))

theorem worst_fit_loop_cons (size : Nat) (acc : Option region) (x : region)
    (xs : List region) :
    worst_fit_loop size acc (x :: xs)
      = if Fits size x ∧ (∀ a ∈ acc, x.size > a.size) then worst_fit_loop size (some x) xs
        else worst_fit_loop size acc xs := by
  rw [worst_fit_loop]
  by_cases hk : x.kind = R_HOLE
  · cases acc with
    | none => simp [Fits, hk]
    | some a => simp [Fits, hk]
  · simp [Fits, hk]

/-- The loop of `find_worst_fit_hole`: either the candidate `acc` is kept and
no fitting hole of the list is larger, or the result is the first of the
largest fitting holes of the list and is larger than `acc`. -/
theorem worst_fit_loop_spec (size : Nat) (l : List region) (acc : Option region) :
    (worst_fit_loop size acc l = acc ∧
      ∀ x ∈ l, Fits size x → ∃ a ∈ acc, x.size ≤ a.size) ∨
    (∃ pre h post, l = pre ++ h :: post ∧ worst_fit_loop size acc l = some h ∧
      Fits size h ∧ (∀ a ∈ acc, a.size < h.size) ∧
      (∀ x ∈ pre, Fits size x → x.size < h.size) ∧
      (∀ x ∈ post, Fits size x → x.size ≤ h.size)) := by
  induction l generalizing acc with
  | nil => exact Or.inl ⟨rfl, by simp⟩
  | cons x xs ih =>
    rw [worst_fit_loop_cons]
    by_cases hc : Fits size x ∧ (∀ a ∈ acc, x.size > a.size)
    · rw [if_pos hc]
      rcases ih (some x) with ⟨h1, h2⟩ | ⟨pre, h, post, hl, hres, hf, hacc, hpre, hpost⟩
      · refine Or.inr ⟨[], x, xs, rfl, h1, hc.1, hc.2, by simp, ?_⟩
        intro y hy hfy
        obtain ⟨a, ha, hle⟩ := h2 y hy hfy
        simp only [Option.mem_def, Option.some.injEq] at ha
        subst ha
        exact hle
      · have hhx : x.size < h.size := hacc x rfl
        refine Or.inr ⟨x :: pre, h, post, by simp [hl], hres, hf, ?_, ?_, hpost⟩
        · intro a ha
          have := hc.2 a ha
          omega
        · intro y hy hfy
          rcases List.mem_cons.1 hy with rfl | hy
          · exact hhx
          · exact hpre y hy hfy
    · rw [if_neg hc]
      have hx : Fits size x → ∃ a ∈ acc, x.size ≤ a.size := by
        intro hfx
        by_contra hno
        apply hc
        refine ⟨hfx, fun a ha => ?_⟩
        by_contra hlt
        exact hno ⟨a, ha, by omega⟩
      rcases ih acc with ⟨h1, h2⟩ | ⟨pre, h, post, hl, hres, hf, hacc, hpre, hpost⟩
      · refine Or.inl ⟨h1, ?_⟩
        intro y hy hfy
        rcases List.mem_cons.1 hy with rfl | hy
        · exact hx hfy
        · exact h2 y hy hfy
      · refine Or.inr ⟨x :: pre, h, post, by simp [hl], hres, hf, hacc, ?_, hpost⟩
        intro y hy hfy
        rcases List.mem_cons.1 hy with rfl | hy
        · obtain ⟨a, ha, hle⟩ := hx hfy
          have := hacc a ha
          omega
        · exact hpre y hy hfy

/-- C15 (worst fit): for every ledger and size, `find_worst_fit_hole`
returns `h` exactly when `h` is a hole of at least `size` units, every hole
before it in ledger order is strictly smaller and every hole after it is at
most as large (so `h` is the first of the largest holes); it returns `NULL`
exactly when no hole has at least `size` units.  The function only reads the
list. -/
theorem C15_worst_fit (l : List region) (size : Nat) :
    (∀ h, find_worst_fit_hole l size = some h ↔
      ∃ pre post, l = pre ++ h :: post ∧ Fits size h ∧
        (∀ x ∈ pre, x.kind = R_HOLE → x.size < h.size) ∧
        (∀ x ∈ post, x.kind = R_HOLE → x.size ≤ h.size)) ∧
    (find_worst_fit_hole l size = none ↔ ∀ x ∈ l, ¬ Fits size x) := by
  unfold find_worst_fit_hole
  rcases worst_fit_loop_spec size l none with ⟨h1, h2⟩ |
    ⟨pre, h, post, hl, hres, hf, _, hpre, hpost⟩
  · rw [h1]
    constructor
    · intro h
      constructor
      · intro he; simp at he
      · rintro ⟨pre, post, hl, hf, _, _⟩
        obtain ⟨a, ha, _⟩ := h2 h (by rw [hl]; simp) hf
        simp at ha
    · simp only [true_iff]
      intro x hx hfx
      obtain ⟨a, ha, _⟩ := h2 x hx hfx
      simp at ha
  · rw [hres]
    have hpre2 : ∀ x ∈ pre, x.kind = R_HOLE → x.size < h.size := by
      intro x hx hk
      by_cases hfx : size ≤ x.size
      · exact hpre x hx ⟨hk, hfx⟩
      · have := hf.2
        omega
    have hpost2 : ∀ x ∈ post, x.kind = R_HOLE → x.size ≤ h.size := by
      intro x hx hk
      by_cases hfx : size ≤ x.size
      · exact hpost x hx ⟨hk, hfx⟩
      · have := hf.2
        omega
    constructor
    · intro h1
      constructor
      · intro he
        simp only [Option.some.injEq] at he
        subst he
        exact ⟨pre, post, hl, hf, hpre2, hpost2⟩
      · rintro ⟨pre1, post1, hl1, hf1, hpre1, hpost1⟩
        rw [hl] at hl1
        have := first_best_unique (fun x => x.kind = R_HOLE) (fun a b => b.size < a.size)
          (fun a b => b.size ≤ a.size) (fun a b h1 h2 => by omega)
          hl1 hf.1 hf1.1 hpre2 hpost2 hpre1 hpost1
        rw [this]
    · constructor
      · intro he; simp at he
      · intro hall
        exact absurd hf (hall h (by rw [hl]; simp))

/-! ## The scenario of the specification -/

/-- C16 (scenario): on a space of 100 units `request_reg(1, 20, 'F')` and
`request_reg(2, 30, 'F')` return 0 and `stat` then reports P1 `[0:19]`, P2
`[20:49]`, Unused `[50:99]`; `release_reg(1)` returns 0 and the report is
Unused `[0:19]`, P2 `[20:49]`, Unused `[50:99]`; `compact_regs` returns 0 and
the report is P2 `[0:29]`, Unused `[30:99]`. -/
theorem C16_scenario :
    ∃ s1 s2 s3 s4,
      request_reg (mem_init 100) 1 20 'F' = some (s1, 0) ∧
      stat (ledger s1) = [(0, 19, label.Process 1), (20, 99, label.Unused)] ∧
      request_reg s1 2 30 'F' = some (s2, 0) ∧
      stat (ledger s2)
        = [(0, 19, label.Process 1), (20, 49, label.Process 2), (50, 99, label.Unused)] ∧
      release_reg s2 1 = some (s3, 0) ∧
      stat (ledger s3)
        = [(0, 19, label.Unused), (20, 49, label.Process 2), (50, 99, label.Unused)] ∧
      compact_regs s3 = some (s4, 0) ∧
      stat (ledger s4) = [(0, 29, label.Process 2), (30, 99, label.Unused)] := by
  have hR : Reachable 100 _ :=
    Reachable.step (Cmd.RL 1)
      (Reachable.step (Cmd.RQ 2 30 'F')
        (Reachable.step (Cmd.RQ 1 20 'F') (Reachable.init []) rfl) rfl) rfl
  have hI := reachable_inv (by decide) (by decide) hR
  refine ⟨_, _, _, _, rfl, rfl, rfl, rfl, rfl, rfl,
    compact_regs_spec hI.total_lt hI.tiles (tiles_ne_nil hI.tiles hI.total_pos)
      hI.hole_pid hI.addr_nodup hI.mem_head, ?_⟩
  rfl

/-! ## Compaction is idempotent -/

theorem pack_idem (a : Nat) (l : List region) : pack a (pack a l) = pack a l := by
  induction l generalizing a with
  | nil => rfl
  | cons x xs ih => simp [pack, ih]

theorem pack_all_proc {a : Nat} {l : List region} (h : ∀ x ∈ l, x.kind = R_PROC) :
    ∀ x ∈ pack a l, x.kind = R_PROC := by
  intro x hx
  obtain ⟨y, hy, _, hk, _⟩ := mem_pack hx
  rw [hk]; exact h y hy

theorem compact_tail_idem (a : Nat) (l : List region) :
    compact_tail a (compact_tail a l) = compact_tail a l := by
  have hall : ∀ x ∈ pack a (l.filter (fun r => r.kind = R_PROC)), x.kind = R_PROC :=
    pack_all_proc (fun x hx => by simpa using (List.mem_filter.1 hx).2)
  obtain ⟨f1, f2⟩ := filter_proc_all hall
  have hs : ((pack a (l.filter (fun r => r.kind = R_PROC))).map region.size).sum
      = ((l.filter (fun r => r.kind = R_PROC)).map region.size).sum := by
    rw [pack_map_size]
  cases hh : l.filter (fun r => r.kind = R_HOLE) with
  | nil =>
    have e1 : compact_tail a l = pack a (l.filter (fun r => r.kind = R_PROC)) := by
      simp [compact_tail, hh]
    rw [e1]
    simp [compact_tail, f1, f2, pack_idem]
  | cons h hs1 =>
    have e1 : compact_tail a l = pack a (l.filter (fun r => r.kind = R_PROC)) ++
        [{ addr := h.addr, kind := R_HOLE,
           start := a + ((l.filter (fun r => r.kind = R_PROC)).map region.size).sum,
           size := ((h :: hs1).map region.size).sum, pid := 0 }] := by
      simp [compact_tail, hh]
    rw [e1]
    simp [compact_tail, List.filter_append, f1, f2, pack_idem, hs, pack_append]

/-- C12 (compaction is idempotent): in a reachable state `compact_regs`
returns 0, a second call right after it returns 0 too and leaves the state of
the first call: the same ledger (addresses, kinds, starts, sizes, owners) and
the same head `*mem`. -/
theorem C12_compact_idempotent (total : Nat) (s : State) (hpos : 0 < total)
    (hlt : total < ULONG_MOD) (hr : Reachable total s) :
    ∃ s1 s2, compact_regs s = some (s1, 0) ∧ compact_regs s1 = some (s2, 0) ∧
      ledger s2 = ledger s1 ∧ s2.mem = s1.mem ∧ s2 = s1 := by
  have hI := reachable_inv hpos hlt hr
  have hI1 := compact_inv hI
  have e1 := compact_regs_spec hI.total_lt hI.tiles (tiles_ne_nil hI.tiles hI.total_pos)
    hI.hole_pid hI.addr_nodup hI.mem_head
  have e2 := compact_regs_spec hI1.total_lt hI1.tiles
    (tiles_ne_nil hI1.tiles hI1.total_pos) hI1.hole_pid hI1.addr_nodup hI1.mem_head
  have hid : compact_ref (compact_ref s.nodes) = compact_ref s.nodes :=
    compact_tail_idem 0 s.nodes
  simp only [hid] at e2
  exact ⟨_, _, e1, e2, rfl, rfl, rfl⟩

theorem C12_compact_idempotent_witness :
    ∃ s1 s2, compact_regs state_released = some (s1, 0) ∧ compact_regs s1 = some (s2, 0) ∧
      ledger s2 = ledger s1 ∧ s2.mem = s1.mem ∧ s2 = s1 :=
  C12_compact_idempotent 100 state_released (by decide) (by decide)
    (Reachable.step (Cmd.RL 1)
      (Reachable.step (Cmd.RQ 2 30 'F')
        (Reachable.step (Cmd.RQ 1 20 'F') (Reachable.init []) rfl) rfl) rfl)

/-! ## `release_reg`: the ledger and the index afterwards -/

theorem holes_length_le_one {l : List region}
    (hc : l.Chain' (fun a b => ¬ (a.kind = R_HOLE ∧ b.kind = R_HOLE)))
    (hh : ∀ x ∈ l, x.kind = R_HOLE) : l.length ≤ 1 := by
  cases l with
  | nil => simp
  | cons a t =>
    cases t with
    | nil => simp
    | cons b u =>
      rw [List.chain'_cons] at hc
      exact absurd ⟨hh a (by simp), hh b (by simp)⟩ hc.1

theorem released_decomp {total : Nat} {s : State} (hI : Inv total s)
    {pre post : List region} {r : region} (hn : s.nodes = pre ++ r :: post) :
    ReleasedFrom pre r post (released pre r post) := by
  have hch := hI.no_adj_holes
  rw [hn, List.chain'_append] at hch
  obtain ⟨c1, c2, _⟩ := hch
  rw [List.chain'_cons'] at c2
  obtain ⟨rh, post1, e1, hrh, hbr, hmr⟩ := merge_right_decomp c2.2
  have hpre : ∀ n ∈ pre, n.kind = R_HOLE → n.pid = 0 :=
    fun n hn1 => hI.hole_pid n (by rw [hn]; simp [hn1])
  obtain ⟨lh, pre1, m, e2, hlh, hbl, hml, hmk, hmp, _, hms, hmz⟩ :=
    merge_left_decomp c1 hpre
      { r with kind := R_HOLE, pid := 0, size := r.size + (rh.map region.size).sum } rfl rfl
  have hrel : released pre r post = pre1 ++ m :: post1 := by
    unfold released
    rw [hmr]
    simpa using hml post1
  have hcl : lh.Chain' (fun a b => ¬ (a.kind = R_HOLE ∧ b.kind = R_HOLE)) := by
    rw [e2, List.chain'_append] at c1
    exact c1.2.1
  have hcr : rh.Chain' (fun a b => ¬ (a.kind = R_HOLE ∧ b.kind = R_HOLE)) := by
    have := c2.2
    rw [e1, List.chain'_append] at this
    exact this.1
  refine ⟨pre1, lh, rh, post1, m, e2, e1, hlh, hrh, holes_length_le_one hcl hlh,
    holes_length_le_one hcr hrh, hbl, hbr, hrel, hmk, hmp, ?_, ?_⟩
  · cases lh <;> simpa using hms
  · rw [hmz]
    simp only [List.map_append, List.sum_append, List.map_cons, List.sum_cons]

/-- The process regions of the ledger after a release are those of the
ledger before it, `r` apart. -/
theorem released_procs {total : Nat} {s : State} (hI : Inv total s)
    {pre post : List region} {r : region} (hn : s.nodes = pre ++ r :: post)
    (x : region) (hx : x.kind = R_PROC) :
    x ∈ released pre r post ↔ (x ∈ pre ∨ x ∈ post) := by
  obtain ⟨pre1, lh, rh, post1, m, e2, e1, hlh, hrh, _, _, _, _, hrel, hmk, _⟩ :=
    released_decomp hI hn
  rw [hrel, e1, e2]
  simp only [List.mem_append, List.mem_cons]
  constructor
  · rintro (h | rfl | h)
    · exact Or.inl (Or.inl h)
    · rw [hmk] at hx; cases hx
    · exact Or.inr (Or.inr h)
  · rintro ((h | h) | (h | h))
    · exact Or.inl h
    · rw [hlh x h] at hx; cases hx
    · rw [hrh x h] at hx; cases hx
    · exact Or.inr (Or.inr h)

/-- On every state reached without a call returning -1 where pid owns the
region `R` (`pre` before it, `post` after it in the ledger), `release_reg(pid)` returns 0; the
ledger is then the old one with `R`, the hole directly before `R` and the hole
directly after `R` replaced by one hole of owner 0 that spans exactly their
union, every other region being kept as it is; `lookup(pid)` finds nothing,
and for every other pid `lookup` returns what it returned before and the
region owned by that pid is still in the ledger, unchanged. -/
theorem release_ok (total : Nat) (s : State) (hpos : 0 < total) (hlt : total < ULONG_MOD)
    (hr : ReachableOK total s) (pre post : List region) (R : region)
    (hl : ledger s = pre ++ R :: post) (hk : R.kind = R_PROC) :
    ∃ s1, release_reg s R.pid = some (s1, 0) ∧
      ledger s1 = released pre R post ∧
      ReleasedFrom pre R post (ledger s1) ∧
      lookup s1.nodes s1.proc_table R.pid = some none ∧
      (∀ pid, pid ≠ R.pid →
        lookup s1.nodes s1.proc_table pid = lookup s.nodes s.proc_table pid ∧
        ∀ r, Owns (ledger s) pid r → Owns (ledger s1) pid r) := by
  have hI := reachable_inv hpos hlt (reachableOK_reachable hr)
  have hC := reachableOK_coherent hpos hlt hr
  rw [inv_ledger hI] at hl ⊢
  have hC1 := release_reg_owned_coherent hI hC hl
  have hI1 := release_reg_owned_inv hI hl hk
  have hl1 := inv_ledger hI1
  have hR : R ∈ s.nodes := by rw [hl]; simp
  have hnd := hI.addr_nodup
  rw [hl] at hnd
  have hnd2 : ((pre ++ [R] ++ post).map region.addr).Nodup := by simpa using hnd
  have hprocs := released_procs hI hl
  -- a process region of the new ledger is one of the old ledger, other than `R`
  have hsub : ∀ x ∈ released pre R post, x.kind = R_PROC → x ∈ s.nodes ∧ x.pid ≠ R.pid := by
    intro x hx hxk
    have hx2 := (hprocs x hxk).1 hx
    have hxs : x ∈ s.nodes := by
      rw [hl]
      rcases hx2 with h | h
      · simp [h]
      · simp [h]
    refine ⟨hxs, fun hp => ?_⟩
    have hxR : x = R := pid_unique hC.pid_nodup hxs hR hxk hk hp
    exact @nodup_mid_ne pre [R] post hnd2 x R hx2 (by simp) (by rw [hxR])
  refine ⟨_, release_reg_owned hI hl (lookup_owner hI hC hR hk), hl1, ?_, ?_, ?_⟩
  · rw [hl1]
    exact released_decomp hI hl
  · apply lookup_absent hI1
    intro x hx hxk
    exact (hsub x hx hxk).2
  · intro pid hpid
    rw [hl1]
    constructor
    · by_cases hown : ∃ x ∈ s.nodes, x.kind = R_PROC ∧ x.pid = pid
      · obtain ⟨x, hx, hxk, rfl⟩ := hown
        have hx1 : x ∈ released pre R post := by
          apply (hprocs x hxk).2
          rw [hl] at hx
          simp only [List.mem_append, List.mem_cons] at hx
          rcases hx with h | rfl | h
          · exact Or.inl h
          · exact absurd rfl hpid
          · exact Or.inr h
        rw [lookup_owner hI hC hx hxk]
        exact lookup_owner hI1 hC1 hx1 hxk
      · have hfree : ∀ x ∈ s.nodes, x.kind = R_PROC → x.pid ≠ pid :=
          fun x hx hxk hp => hown ⟨x, hx, hxk, hp⟩
        rw [lookup_absent hI hfree]
        apply lookup_absent hI1
        intro x hx hxk
        exact hfree x (hsub x hx hxk).1 hxk
    · rintro r ⟨hr1, hrk, hrp⟩
      refine ⟨?_, hrk, hrp⟩
      apply (hprocs r hrk).2
      rw [hl] at hr1
      simp only [List.mem_append, List.mem_cons] at hr1
      rcases hr1 with h | rfl | h
      · exact Or.inl h
      · exact absurd hrp.symm hpid
      · exact Or.inr h

/-- C11, the failing run: after `request_reg(1, 20, 'F')` from
`mem_init(100)` whose call of `install` got `NULL` from `malloc` (returned
code -1), pid 1 owns the region `R` = `[0, 20)`, followed by the hole
`[20, 100)`.  `release_reg(1)` returns `E_NOTDEF` and the ledger is as before:
`R` is still a process region of pid 1, where the release of `R` would leave
the single hole `[0, 100)`. -/
theorem C11_failing_run :
    request_reg { mem_init 100 with heap := [true, false] } 1 20 'F'
      = some (state_no_entry, -1) ∧
    ledger state_no_entry = [] ++ ⟨1, R_PROC, 0, 20, 1⟩ :: [⟨0, R_HOLE, 20, 80, 0⟩] ∧
    (∃ s1 rc, release_reg state_no_entry 1 = some (s1, rc) ∧ rc ≠ 0 ∧
      ledger s1 = [⟨1, R_PROC, 0, 20, 1⟩, ⟨0, R_HOLE, 20, 80, 0⟩] ∧
      ledger s1 ≠ released [] ⟨1, R_PROC, 0, 20, 1⟩ [⟨0, R_HOLE, 20, 80, 0⟩]) ∧
    released [] ⟨1, R_PROC, 0, 20, 1⟩ [⟨0, R_HOLE, 20, 80, 0⟩] = [⟨1, R_HOLE, 0, 100, 0⟩] :=
  ⟨rfl, rfl, ⟨state_no_entry, E_NOTDEF, rfl, by decide, rfl, by decide⟩, rfl⟩


/-! ## Process table: `install` -/

theorem lookup_chain_cons (nodes : List region) (pid : Nat) (p : proc) (ps : List proc)
    (hp : p.reg ≠ none → entry_pid nodes p ≠ none) :
    lookup_chain nodes pid (p :: ps)
      = if entry_pid nodes p = some pid then some (some p) else lookup_chain nodes pid ps := by
  rw [lookup_chain]
  unfold entry_pid at hp ⊢
  cases hreg : p.reg with
  | none => simp
  | some a =>
    rw [hreg] at hp
    cases hloc : locate nodes a with
    | none => simp [hloc] at hp
    | some t =>
      obtain ⟨pre, r, post⟩ := t
      simp [hloc]

/-- On a chain without dangling entry `lookup` returns the first entry
whose region has the pid looked up. -/
theorem lookup_chain_find {nodes : List region} (pid : Nat) {ps : List proc}
    (hlive : ChainLive nodes ps) :
    lookup_chain nodes pid ps = some (ps.find? (fun p => entry_pid nodes p = some pid)) := by
  induction ps with
  | nil => rfl
  | cons p ps ih =>
    rw [lookup_chain_cons nodes pid p ps (hlive p (List.mem_cons_self _ _)),
      ih (fun q hq => hlive q (List.mem_cons_of_mem _ hq))]
    by_cases hp : entry_pid nodes p = some pid
    · simp [hp]
    · simp [hp]

theorem find_split {P : proc → Bool} {ps : List proc} {p : proc}
    (h : ps.find? P = some p) :
    P p = true ∧ ∃ ps1 ps2, ps = ps1 ++ p :: ps2 ∧ ∀ x ∈ ps1, P x = false := by
  induction ps with
  | nil => simp at h
  | cons q qs ih =>
    rw [List.find?_cons] at h
    cases hq : P q with
    | true =>
      rw [hq] at h
      simp only [Option.some.injEq] at h
      subst h
      exact ⟨hq, [], qs, rfl, by simp⟩
    | false =>
      rw [hq] at h
      obtain ⟨h1, ps1, ps2, h2, h3⟩ := ih h
      refine ⟨h1, q :: ps1, ps2, by simp [h2], ?_⟩
      intro x hx
      rcases List.mem_cons.1 hx with rfl | hx
      · exact hq
      · exact h3 x hx

theorem find_append_skip {P : proc → Bool} {ps1 ps2 : List proc} (q : proc)
    (h : ∀ x ∈ ps1, P x = false) :
    (ps1 ++ q :: ps2).find? P = if P q then some q else ps2.find? P := by
  induction ps1 with
  | nil => simp [List.find?_cons]; cases P q <;> simp
  | cons x xs ih =>
    have hx := h x (List.mem_cons_self _ _)
    rw [List.cons_append, List.find?_cons, hx]
    exact ih (fun y hy => h y (List.mem_cons_of_mem _ hy))

theorem replace_split {ps1 ps2 : List proc} (p q : proc) (h : p ∉ ps1) :
    (ps1 ++ p :: ps2).replace p q = ps1 ++ q :: ps2 := by
  induction ps1 with
  | nil => simp [List.replace_cons]
  | cons x xs ih =>
    have hx : (p == x) = false := by
      simp only [beq_eq_false_iff_ne, ne_eq]
      exact fun he => h (he ▸ List.mem_cons_self _ _)
    have hxs : p ∉ xs := fun hm => h (List.mem_cons_of_mem _ hm)
    rw [List.cons_append, List.replace_cons, hx]
    simp [ih hxs]

/-- C17, counterexample.  With the one region of pid 7 at address 0 and an
empty table, `install(5, region)` leaves a table in which `lookup(5)` finds
nothing (the entry is recognised by the pid of its region, which is 7), and a
second `install(5, region)` adds a second entry to the bucket: the table is
not what it was after the first call.  With two regions of pid 5 and a table
that holds an entry for each, `install(5, first region)` leaves both entries
in the bucket: two entries for pid 5, not one.  With an empty table and a
call of `malloc` that returns `NULL`, `install(7, region)` returns -1 and
inserts nothing: `lookup(7)` finds nothing afterwards. -/
theorem C17_counterexample :
    (∃ s1 s2,
      install state_pid7 5 (some 0) = some (s1, 0) ∧
      lookup s1.nodes s1.proc_table 5 = some none ∧
      install s1 5 (some 0) = some (s2, 0) ∧
      s1.proc_table (hash 5) = [⟨some 0⟩] ∧ s2.proc_table (hash 5) = [⟨some 0⟩, ⟨some 0⟩]) ∧
    (∃ s3,
      install state_two_entries 5 (some 0) = some (s3, 0) ∧
      s3.proc_table (hash 5) = [⟨some 0⟩, ⟨some 1⟩] ∧
      (s3.proc_table (hash 5)).map (entry_pid s3.nodes) = [some 5, some 5]) ∧
    (∃ s4,
      install { state_pid7 with heap := [false] } 7 (some 0) = some (s4, -1) ∧
      lookup s4.nodes s4.proc_table 7 = some none ∧ s4.proc_table (hash 7) = []) :=
  ⟨⟨_, _, rfl, rfl, rfl, rfl, rfl⟩, ⟨_, rfl, rfl, rfl⟩, ⟨_, rfl, rfl, rfl⟩⟩

/-- C17, amended: for every process table whose bucket of pid has no
dangling entry, every pid and every live region `r` (at address `a`) whose
pid field is pid, when `malloc` returns storage for the entry in case
`lookup(pid)` finds none, `install(pid, r)` returns 0 and afterwards
`lookup(pid)` returns an entry pointing at `r`; the ledger is untouched, the
other buckets are untouched and in the bucket of pid the entries of other
pids are kept in their order, so `lookup` of every other pid returns what it
returned before; the bucket holds exactly one entry for pid when it held at
most one before (one if it held none, as many as before otherwise); and a
second `install(pid, r)` leaves the state exactly as the first. -/
theorem C17_install (s : State) (pid a : Nat) (pre post : List region) (r : region)
    (hlive : ChainLive s.nodes (s.proc_table (hash pid)))
    (hloc : locate s.nodes a = some (pre, r, post)) (hpid : r.pid = pid)
    (hm : lookup s.nodes s.proc_table pid = some none → malloc_ok s.heap = true) :
    ∃ s1, install s pid (some a) = some (s1, 0) ∧
      s1.nodes = s.nodes ∧ s1.mem = s.mem ∧
      lookup s1.nodes s1.proc_table pid = some (some { reg := some a }) ∧
      (∀ b, b ≠ hash pid → s1.proc_table b = s.proc_table b) ∧
      (s1.proc_table (hash pid)).filter (fun p => entry_pid s.nodes p ≠ some pid)
        = (s.proc_table (hash pid)).filter (fun p => entry_pid s.nodes p ≠ some pid) ∧
      ((s1.proc_table (hash pid)).filter (fun p => entry_pid s.nodes p = some pid)).length
        = max 1
          ((s.proc_table (hash pid)).filter (fun p => entry_pid s.nodes p = some pid)).length ∧
      (∀ pid1, pid1 ≠ pid →
        lookup s1.nodes s1.proc_table pid1 = lookup s.nodes s.proc_table pid1) ∧
      install s1 pid (some a) = some (s1, 0) := by
  have hq : entry_pid s.nodes { reg := some a } = some pid := by
    simp [entry_pid, hloc, hpid]
  have hlook : lookup s.nodes s.proc_table pid = _ := lookup_chain_find pid hlive
  -- the second call finds the entry of the first and overwrites it with itself
  have hagain : ∀ (t : State) (ps1 ps2 : List proc), t.nodes = s.nodes →
      t.proc_table (hash pid) = ps1 ++ { reg := some a } :: ps2 →
      ChainLive s.nodes (ps1 ++ { reg := some a } :: ps2) →
      (∀ x ∈ ps1, entry_pid s.nodes x ≠ some pid) →
      lookup t.nodes t.proc_table pid = some (some { reg := some a }) ∧
        install t pid (some a) = some (t, 0) := by
    intro t ps1 ps2 hn hb hl1 hps1
    have hl : lookup t.nodes t.proc_table pid = some (some { reg := some a }) := by
      unfold lookup
      rw [hn, hb, lookup_chain_find pid hl1, find_append_skip _ (by
        intro x hx
        simpa using hps1 x hx)]
      simp [hq]
    refine ⟨hl, ?_⟩
    unfold install
    rw [hl]
    have hnot : ({ reg := some a } : proc) ∉ ps1 := fun hm => hps1 _ hm hq
    simp only [hb, replace_split _ _ hnot]
    rw [← hb, Function.update_eq_self]
  cases hfind : (s.proc_table (hash pid)).find? (fun p => entry_pid s.nodes p = some pid) with
  | none =>
    rw [hfind] at hlook
    have hmo := hm hlook
    have hnone : ∀ x ∈ s.proc_table (hash pid), entry_pid s.nodes x ≠ some pid := by
      intro x hx
      have := List.find?_eq_none.1 hfind x hx
      simpa using this
    have hlive1 : ChainLive s.nodes ({ reg := some a } :: s.proc_table (hash pid)) := by
      intro x hx hr
      rcases List.mem_cons.1 hx with rfl | hx
      · rw [hq]; simp
      · exact hlive x hx hr
    have hb : Function.update s.proc_table (hash pid)
        ({ reg := some a } :: s.proc_table (hash pid)) (hash pid)
        = [] ++ { reg := some a } :: s.proc_table (hash pid) := by
      rw [Function.update_same]; rfl
    obtain ⟨g1, g2⟩ := hagain
      { s with proc_table := Function.update s.proc_table (hash pid)
                 ({ reg := some a } :: s.proc_table (hash pid)),
               heap := s.heap.tail } [] _ rfl hb hlive1 (by simp)
    refine ⟨{ s with proc_table := Function.update s.proc_table (hash pid)
                       ({ reg := some a } :: s.proc_table (hash pid)),
                     heap := s.heap.tail }, ?_, rfl, rfl, g1, ?_, ?_, ?_, ?_, g2⟩
    · unfold install
      rw [hlook]
      simp only [hmo, if_true]
    · intro b hbne
      show Function.update s.proc_table (hash pid) _ b = _
      rw [Function.update_noteq hbne]
    · show (Function.update s.proc_table (hash pid) _ (hash pid)).filter _ = _
      rw [Function.update_same]
      simp [hq]
    · show ((Function.update s.proc_table (hash pid) _ (hash pid)).filter _).length = _
      rw [Function.update_same]
      have hnil : (s.proc_table (hash pid)).filter
          (fun p => entry_pid s.nodes p = some pid) = [] := by
        rw [List.filter_eq_nil_iff]
        intro x hx
        simpa using hnone x hx
      simp [hq, hnil]
    · intro pid1 hne
      show lookup_chain s.nodes pid1 (Function.update s.proc_table (hash pid) _ (hash pid1)) = _
      unfold lookup
      by_cases hh : hash pid1 = hash pid
      · rw [hh, Function.update_same,
          lookup_chain_cons s.nodes pid1 _ _ (hlive1 _ (List.mem_cons_self _ _)), hq]
        have : ¬ (some pid = some pid1) := by
          intro he
          exact hne (Option.some.inj he).symm
        rw [if_neg this]
      · rw [Function.update_noteq hh]
  | some p =>
    rw [hfind] at hlook
    obtain ⟨hpP, ps1, ps2, hsplit, hps1⟩ := find_split hfind
    have hp : entry_pid s.nodes p = some pid := by simpa using hpP
    have hps1b : ∀ x ∈ ps1, entry_pid s.nodes x ≠ some pid := by
      intro x hx
      simpa using hps1 x hx
    have hnot : p ∉ ps1 := fun hm => hps1b p hm hp
    have hlive1 : ChainLive s.nodes (ps1 ++ { reg := some a } :: ps2) := by
      intro x hx hr
      simp only [List.mem_append, List.mem_cons] at hx
      rcases hx with hx | rfl | hx
      · exact hlive x (by rw [hsplit]; simp [hx]) hr
      · rw [hq]; simp
      · exact hlive x (by rw [hsplit]; simp [hx]) hr
    have hlive0 : ChainLive s.nodes (ps1 ++ p :: ps2) := by
      rw [← hsplit]; exact hlive
    have hb : Function.update s.proc_table (hash pid)
        ((s.proc_table (hash pid)).replace p { reg := some a }) (hash pid)
        = ps1 ++ { reg := some a } :: ps2 := by
      rw [Function.update_same, hsplit, replace_split _ _ hnot]
    obtain ⟨g1, g2⟩ := hagain
      { s with proc_table := Function.update s.proc_table (hash pid)
                 ((s.proc_table (hash pid)).replace p { reg := some a }) }
      ps1 ps2 rfl hb hlive1 hps1b
    refine ⟨{ s with proc_table := Function.update s.proc_table (hash pid)
                       ((s.proc_table (hash pid)).replace p { reg := some a }) },
      ?_, rfl, rfl, g1, ?_, ?_, ?_, ?_, g2⟩
    · unfold install
      rw [hlook]
    · intro b hbne
      show Function.update s.proc_table (hash pid) _ b = _
      rw [Function.update_noteq hbne]
    · show (Function.update s.proc_table (hash pid) _ (hash pid)).filter _ = _
      rw [hb, hsplit]
      simp [List.filter_append, List.filter_cons, hq, hp]
    · show ((Function.update s.proc_table (hash pid) _ (hash pid)).filter _).length = _
      rw [hb, hsplit]
      simp only [List.filter_append, List.filter_cons, hq, hp, decide_True, if_true,
        List.length_append, List.length_cons]
      omega
    · intro pid1 hne
      show lookup_chain s.nodes pid1 (Function.update s.proc_table (hash pid) _ (hash pid1)) = _
      unfold lookup
      by_cases hh : hash pid1 = hash pid
      · have hq1 : ¬ (entry_pid s.nodes { reg := some a } = some pid1) := by
          rw [hq]
          intro he
          exact hne (Option.some.inj he).symm
        have hp1 : ¬ (entry_pid s.nodes p = some pid1) := by
          rw [hp]
          intro he
          exact hne (Option.some.inj he).symm
        rw [hh, hb, hsplit, lookup_chain_find pid1 hlive1, lookup_chain_find pid1 hlive0]
        simp [List.find?_append, List.find?_cons, hq1, hp1]
      · rw [Function.update_noteq hh]

theorem C17_install_witness :
    ∃ s1, install state_before_install 11 (some 2) = some (s1, 0) ∧
      s1.nodes = state_before_install.nodes ∧ s1.mem = state_before_install.mem ∧
      lookup s1.nodes s1.proc_table 11 = some (some { reg := some 2 }) ∧
      (∀ b, b ≠ hash 11 → s1.proc_table b = state_before_install.proc_table b) ∧
      (s1.proc_table (hash 11)).filter
          (fun p => entry_pid state_before_install.nodes p ≠ some 11)
        = (state_before_install.proc_table (hash 11)).filter
            (fun p => entry_pid state_before_install.nodes p ≠ some 11) ∧
      ((s1.proc_table (hash 11)).filter
          (fun p => entry_pid state_before_install.nodes p = some 11)).length
        = max 1 ((state_before_install.proc_table (hash 11)).filter
            (fun p => entry_pid state_before_install.nodes p = some 11)).length ∧
      (∀ pid1, pid1 ≠ 11 →
        lookup s1.nodes s1.proc_table pid1
          = lookup state_before_install.nodes state_before_install.proc_table pid1) ∧
      install s1 11 (some 2) = some (s1, 0) :=
  C17_install state_before_install 11 2 [⟨1, R_PROC, 0, 20, 1⟩]
    [⟨0, R_HOLE, 50, 50, 0⟩] ⟨2, R_PROC, 20, 30, 11⟩ (by unfold ChainLive; decide) rfl rfl
    (fun _ => rfl)

/-! ## Merge failures -/

/-- The result codes of `request_reg` in a state of the invariant. -/
theorem request_reg_codes {total : Nat} {s : State} (hI : Inv total s) (pid size : Nat)
    (flag : Char) :
    ∃ s1 rc, request_reg s pid size flag = some (s1, rc) ∧
      (rc = 0 ∨ rc = E_EMPTY ∨ rc = E_MEM ∨ rc = E_FLAG ∨ rc = -1) := by
  obtain ⟨s1, rc, h1, _, h2, _⟩ := request_reg_total hI pid size flag
  exact ⟨s1, rc, h1, h2⟩

/-- When the extension path returns 0, its call of `allocate` and its call of
`combine` both returned 0. -/
theorem request_extend_calls {s s1 : State} {ex : Nat} {hole : region} {pid size : Nat}
    (h : request_extend s ex hole pid size = some (s1, 0)) :
    ∃ nodes1 nodes2, allocate s.nodes (some s.brk) (some hole.addr) pid size = some (nodes1, 0) ∧
      combine nodes1 ex s.brk = some (nodes2, 0) := by
  unfold request_extend at h
  by_cases hm : malloc_ok s.heap = true
  · rw [if_pos hm] at h
    cases ha : allocate s.nodes (some s.brk) (some hole.addr) pid size with
    | none => simp [ha] at h
    | some p =>
      obtain ⟨nodes1, ret⟩ := p
      simp only [ha] at h
      by_cases hret : ret = 0
      · subst hret
        simp only [ne_eq, not_true_eq_false, if_false] at h
        cases hc : combine nodes1 ex s.brk with
        | none => simp [hc] at h
        | some q =>
          obtain ⟨nodes2, rc⟩ := q
          simp only [hc, Option.some.injEq, Prod.mk.injEq] at h
          exact ⟨nodes1, nodes2, rfl, by rw [hc, h.2]⟩
      · simp only [ne_eq, hret, not_false_eq_true, if_true, Option.some.injEq,
          Prod.mk.injEq] at h
        exact h.2.elim
  · rw [if_neg hm] at h
    simp at h

/-- Both merge statements of `release_reg` return 0 on the region `r` just
turned into a hole. -/
theorem release_merges {total : Nat} {s : State} (hI : Inv total s)
    {pre post : List region} {r : region}
    (hn : s.nodes = pre ++ r :: post) :
    ∃ nodes2 nodes3,
      release_merge_next (pre ++ { r with kind := R_HOLE, pid := 0 } :: post) r.addr 0
        = some (nodes2, 0) ∧
      release_merge_prev nodes2 r.addr 0 = some (nodes3, 0) := by
  have hnd := hI.addr_nodup
  have htl := hI.tiles
  rw [hn] at hnd htl
  have hsum := tiles_sum htl
  simp only [List.map_append, List.sum_append, List.map_cons, List.sum_cons] at hsum
  have htot := hI.total_lt
  have hpre : ∀ n ∈ pre, n.kind = R_HOLE → n.pid = 0 :=
    fun n hn1 => hI.hole_pid n (by rw [hn]; simp [hn1])
  have hpost : ∀ n ∈ post, n.kind = R_HOLE → n.pid = 0 :=
    fun n hn1 => hI.hole_pid n (by rw [hn]; simp [hn1])
  have h1 : release_merge_next
      (pre ++ { r with kind := R_HOLE, pid := 0 } :: post) r.addr 0
      = some (pre ++ (merge_right { r with kind := R_HOLE, pid := 0 } post).1 ::
          (merge_right { r with kind := R_HOLE, pid := 0 } post).2, 0) := by
    apply release_merge_next_spec (x := { r with kind := R_HOLE, pid := 0 }) _ rfl rfl hpost
    · intro n hn1
      have hle : n.size ≤ (post.map region.size).sum :=
        List.single_le_sum (by simp) _ (List.mem_map_of_mem _ (List.mem_of_mem_head? hn1))
      show r.size + n.size < ULONG_MOD
      omega
    · simpa using hnd
  have hnd2 : ((pre ++ (merge_right { r with kind := R_HOLE, pid := 0 } post).1 ::
      (merge_right { r with kind := R_HOLE, pid := 0 } post).2).map region.addr).Nodup := by
    rw [List.map_append] at hnd ⊢
    exact List.Nodup.sublist (List.Sublist.append (List.Sublist.refl _) merge_right_addrs) hnd
  obtain ⟨ha, hk, hp, _⟩ :=
    @merge_right_fst ({ r with kind := R_HOLE, pid := 0 } : region) post
  have h2 := release_merge_prev_spec hnd2 hk hp hpre (by
    intro n hn1
    have hle : n.size ≤ (pre.map region.size).sum :=
      List.single_le_sum (by simp) _ (List.mem_map_of_mem _ (List.mem_of_mem_getLast? hn1))
    have := @merge_right_size ({ r with kind := R_HOLE, pid := 0 } : region) post
    simp only [List.map_cons, List.sum_cons] at this
    omega)
  rw [ha] at h2
  exact ⟨_, _, h1, h2⟩

/-- C18 (merge failures are unreachable): in every state reachable from the
initial ledger, every hole carries owner 0; `compact_regs` returns 0 (its loop
returns the first result of `combine` other than 0, so every merge of the scan
passed the checks of kind, owner and adjacency); each of the three operations
returns, with a code other than `E_KIND`, `E_PID`, `E_ADJ`, `E_NOTHOLE` and
`E_HOLETOOSMALL`; the `allocate` and `combine` calls of the extension path of
`request_reg` return 0; and both merge statements of `release_reg` return 0,
so no failure of `combine` is hidden by the second assignment of `ret`. -/
theorem C18_merge_failures_unreachable (total : Nat) (s : State) (hpos : 0 < total)
    (hlt : total < ULONG_MOD) (hr : Reachable total s) :
    (∀ r ∈ ledger s, r.kind = R_HOLE → r.pid = 0) ∧
    (∃ s1, compact_regs s = some (s1, 0)) ∧
    (∀ c : Cmd, ∃ s1 rc, step s c = some (s1, rc) ∧
      rc ≠ E_KIND ∧ rc ≠ E_PID ∧ rc ≠ E_ADJ ∧ rc ≠ E_NOTHOLE ∧ rc ≠ E_HOLETOOSMALL) ∧
    (∀ pre R h post size, ledger s = pre ++ R :: h :: post → R.kind = R_PROC →
      h.kind = R_HOLE → size ≠ 0 → size ≤ h.size →
      ∃ nodes1 nodes2,
        allocate s.nodes (some s.brk) (some h.addr) R.pid size = some (nodes1, 0) ∧
        combine nodes1 R.addr s.brk = some (nodes2, 0)) ∧
    (∀ pre R post, ledger s = pre ++ R :: post → R.kind = R_PROC →
      ∃ nodes2 nodes3,
        release_merge_next (pre ++ { R with kind := R_HOLE, pid := 0 } :: post) R.addr 0
          = some (nodes2, 0) ∧
        release_merge_prev nodes2 R.addr 0 = some (nodes3, 0)) := by
  have hI := reachable_inv hpos hlt hr
  have hl := inv_ledger hI
  refine ⟨?_, ?_, ?_, ?_, ?_⟩
  · rw [hl]
    exact hI.hole_pid
  · obtain ⟨s1, h1, _⟩ := compact_regs_inv hI
    exact ⟨s1, h1⟩
  · intro c
    cases c with
    | RQ pid size flag =>
      obtain ⟨s1, rc, h1, h2⟩ := request_reg_codes hI pid size flag
      refine ⟨s1, rc, h1, ?_⟩
      rcases h2 with h | h | h | h | h <;> subst h <;>
        simp [E_KIND, E_PID, E_ADJ, E_NOTHOLE, E_HOLETOOSMALL, E_EMPTY, E_MEM, E_FLAG]
    | RL pid =>
      obtain ⟨s1, rc, h1, _, h2, h3, _⟩ := release_reg_total hI pid
      refine ⟨s1, rc, h1, ?_⟩
      rcases lookup_cases hI pid with hnone | ⟨_, _, _, _, _, _, hlk⟩
      · have h := (h3 hnone).1
        subst h
        simp [E_KIND, E_PID, E_ADJ, E_NOTHOLE, E_HOLETOOSMALL, E_NOTDEF]
      · have h := h2 ⟨_, hlk⟩
        subst h
        simp [E_KIND, E_PID, E_ADJ, E_NOTHOLE, E_HOLETOOSMALL]
    | C =>
      obtain ⟨s1, h1, _⟩ := compact_regs_inv hI
      refine ⟨s1, 0, h1, ?_⟩
      simp [E_KIND, E_PID, E_ADJ, E_NOTHOLE, E_HOLETOOSMALL]
  · intro pre R h post size hn hRk hhk h0 hsz
    rw [hl] at hn
    have hI0 : Inv total { s with heap := [] } := inv_heap hI []
    have hc := request_extend_calls (s := { s with heap := [] })
      (request_extend_spec hI0 hn hRk hhk hsz h0 rfl).1
    exact hc
  · intro pre R post hn _
    rw [hl] at hn
    exact release_merges hI hn

theorem C18_merge_failures_unreachable_witness :
    (∀ r ∈ ledger state_two_regions, r.kind = R_HOLE → r.pid = 0) ∧
    (∃ s1, compact_regs state_two_regions = some (s1, 0)) ∧
    (∀ c : Cmd, ∃ s1 rc, step state_two_regions c = some (s1, rc) ∧
      rc ≠ E_KIND ∧ rc ≠ E_PID ∧ rc ≠ E_ADJ ∧ rc ≠ E_NOTHOLE ∧ rc ≠ E_HOLETOOSMALL) ∧
    (∀ pre R h post size, ledger state_two_regions = pre ++ R :: h :: post → R.kind = R_PROC →
      h.kind = R_HOLE → size ≠ 0 → size ≤ h.size →
      ∃ nodes1 nodes2,
        allocate state_two_regions.nodes (some state_two_regions.brk) (some h.addr) R.pid size
          = some (nodes1, 0) ∧
        combine nodes1 R.addr state_two_regions.brk = some (nodes2, 0)) ∧
    (∀ pre R post, ledger state_two_regions = pre ++ R :: post → R.kind = R_PROC →
      ∃ nodes2 nodes3,
        release_merge_next (pre ++ { R with kind := R_HOLE, pid := 0 } :: post) R.addr 0
          = some (nodes2, 0) ∧
        release_merge_prev nodes2 R.addr 0 = some (nodes3, 0)) :=
  C18_merge_failures_unreachable 100 state_two_regions (by decide) (by decide)
    (Reachable.step (Cmd.RQ 1 30 'F')
      (Reachable.step (Cmd.RQ 1 20 'F') (Reachable.init [true, false]) rfl) rfl)

/-! ## Termination of `compact_regs` -/

/-- The inner loop keeps every node: those before the hole and those after
it are as many as before. -/
theorem bubble_length (rest : List region) (mem : Option Nat) (pre : List region)
    (reg : region) :
    (bubble mem pre reg rest).2.1.length + (bubble mem pre reg rest).2.2.2.length
      = pre.length + rest.length := by
  induction rest generalizing mem pre reg with
  | nil => simp [bubble]
  | cons n rest ih =>
    by_cases hn : n.kind = R_PROC
    · rw [bubble_cons_proc _ _ _ _ _ hn, ih]
      simp
      omega
    · rw [bubble_cons_hole _ _ _ _ _ (kind_ne_proc.mp hn)]

/-- The inner loop only shortens the part of the ledger behind the hole. -/
theorem bubble_rest_le (rest : List region) (mem : Option Nat) (pre : List region)
    (reg : region) : (bubble mem pre reg rest).2.2.2.length ≤ rest.length := by
  induction rest generalizing mem pre reg with
  | nil => simp [bubble]
  | cons n rest ih =>
    by_cases hn : n.kind = R_PROC
    · rw [bubble_cons_proc _ _ _ _ _ hn]
      exact Nat.le_succ_of_le (ih _ _ _)
    · rw [bubble_cons_hole _ _ _ _ _ (kind_ne_proc.mp hn)]

/-- The inner loop stops at the end of the ledger or in front of a node that
is not a process region. -/
theorem bubble_stops (rest : List region) (mem : Option Nat) (pre : List region)
    (reg : region) : ∀ n ∈ (bubble mem pre reg rest).2.2.2.head?, n.kind ≠ R_PROC := by
  induction rest generalizing mem pre reg with
  | nil => simp [bubble]
  | cons n rest ih =>
    by_cases hn : n.kind = R_PROC
    · rw [bubble_cons_proc _ _ _ _ _ hn]
      exact ih _ _ _
    · rw [bubble_cons_hole _ _ _ _ _ (kind_ne_proc.mp hn)]
      simpa using hn

/-- The scan creates no node. -/
theorem compact_loop_length (k : Nat) :
    ∀ (l : List region) (mem : Option Nat) (pre : List region), l.length ≤ k →
      (compact_loop mem pre l).2.1.length ≤ pre.length + l.length := by
  induction k with
  | zero =>
    intro l mem pre hl
    have : l = [] := List.length_eq_zero.mp (Nat.le_zero.mp hl)
    subst this
    simp [compact_loop_nil]
  | succ k ih =>
    intro l mem pre hl
    cases l with
    | nil => simp [compact_loop_nil]
    | cons reg rest =>
      have hrest : rest.length ≤ k := by simpa using hl
      by_cases hk : reg.kind = R_PROC
      · rw [compact_loop_proc _ _ _ hk]
        have := ih rest mem (pre ++ [reg]) hrest
        simp only [List.length_append, List.length_cons, List.length_nil] at this ⊢
        omega
      · have hk2 := kind_ne_proc.mp hk
        have hlen := bubble_length rest mem pre reg
        have hle := bubble_rest_le rest mem pre reg
        rcases hb : bubble mem pre reg rest with ⟨mem1, pre1, reg1, rest1⟩
        rw [hb] at hlen hle
        simp only at hlen hle
        cases rest1 with
        | nil =>
          rw [compact_loop_hole_end hk2 hb]
          simp only [List.length_append, List.length_cons, List.length_nil] at hlen ⊢
          omega
        | cons n rest2 =>
          rw [compact_loop_hole_next hk2 hb]
          simp only [List.length_cons] at hlen hle
          by_cases hc : combine_check reg1 n ≠ 0
          · rw [if_pos hc]
            simp only [List.length_append, List.length_cons]
            omega
          · rw [if_neg hc]
            have := ih (absorb reg1 n :: rest2) mem1 pre1 (by simp only [List.length_cons]; omega)
            simp only [List.length_cons] at this ⊢
            omega

/-- C19 (termination of compact_regs): the number of nodes from the scan
pointer to the tail of the ledger drops by one in every iteration of the two
loops.  The outer loop on a process region advances the scan past it; the
inner loop exchanges the hole with the process region behind it, so the hole
is one position nearer to the tail, and keeps every node; the inner loop stops
at the tail or in front of a node that is not a process region; the merge of
step 6 removes a node and the scan goes on from the merged hole; the scan ends
at the tail or at the first merge that fails.  So `compact_loop` is a total
function by recursion on that number, and `compact_regs` returns a result in
every state whose `*mem` is `NULL` or points into the ledger, with no more
nodes than before. -/
theorem C19_compact_terminates :
    (∀ (mem : Option Nat) (pre : List region) (reg : region) (rest : List region),
      reg.kind = R_PROC →
      compact_loop mem pre (reg :: rest) = compact_loop mem (pre ++ [reg]) rest ∧
      rest.length + 1 = (reg :: rest).length) ∧
    (∀ (mem : Option Nat) (pre : List region) (reg n : region) (rest : List region),
      n.kind = R_PROC →
      bubble mem pre reg (n :: rest)
        = bubble (if mem = some reg.addr then some n.addr else mem)
            (pre ++ [{ n with start := reg.start }])
            { reg with start := uadd reg.start n.size } rest ∧
      (pre ++ [{ n with start := reg.start }]).length = pre.length + 1 ∧
      rest.length + 1 = (n :: rest).length) ∧
    (∀ (mem : Option Nat) (pre : List region) (reg : region) (rest : List region),
      (bubble mem pre reg rest).2.1.length + (bubble mem pre reg rest).2.2.2.length
        = pre.length + rest.length ∧
      (bubble mem pre reg rest).2.2.2.length ≤ rest.length ∧
      ∀ n ∈ (bubble mem pre reg rest).2.2.2.head?, n.kind ≠ R_PROC) ∧
    (∀ (mem mem1 : Option Nat) (pre pre1 rest rest1 : List region) (reg reg1 n : region),
      reg.kind = R_HOLE → bubble mem pre reg rest = (mem1, pre1, reg1, n :: rest1) →
      combine_check reg1 n = 0 →
      compact_loop mem pre (reg :: rest) = compact_loop mem1 pre1 (absorb reg1 n :: rest1) ∧
      (absorb reg1 n :: rest1).length < (reg :: rest).length ∧
      pre1.length + (absorb reg1 n :: rest1).length + 1 = pre.length + (reg :: rest).length) ∧
    (∀ (mem mem1 : Option Nat) (pre pre1 rest rest1 : List region) (reg reg1 n : region),
      reg.kind = R_HOLE → bubble mem pre reg rest = (mem1, pre1, reg1, n :: rest1) →
      combine_check reg1 n ≠ 0 →
      compact_loop mem pre (reg :: rest)
        = (mem1, pre1 ++ reg1 :: n :: rest1, combine_check reg1 n)) ∧
    (∀ (mem mem1 : Option Nat) (pre pre1 rest : List region) (reg reg1 : region),
      reg.kind = R_HOLE → bubble mem pre reg rest = (mem1, pre1, reg1, []) →
      compact_loop mem pre (reg :: rest) = (mem1, pre1 ++ [reg1], 0)) ∧
    (∀ (mem : Option Nat) (pre : List region), compact_loop mem pre [] = (mem, pre, 0)) ∧
    (∀ s : State, (s.mem = none ∨ ∃ m p, s.mem = some m ∧ locate s.nodes m = some p) →
      ∃ s1 rc, compact_regs s = some (s1, rc) ∧ s1.nodes.length ≤ s.nodes.length) := by
  refine ⟨?_, ?_, ?_, ?_, ?_, ?_, ?_, ?_⟩
  · intro mem pre reg rest hk
    exact ⟨compact_loop_proc mem pre rest hk, rfl⟩
  · intro mem pre reg n rest hn
    exact ⟨bubble_cons_proc mem pre reg n rest hn, by simp, rfl⟩
  · intro mem pre reg rest
    exact ⟨bubble_length rest mem pre reg, bubble_rest_le rest mem pre reg,
      bubble_stops rest mem pre reg⟩
  · intro mem mem1 pre pre1 rest rest1 reg reg1 n hk hb hc
    have hlen := bubble_length rest mem pre reg
    have hle := bubble_rest_le rest mem pre reg
    rw [hb] at hlen hle
    simp only [List.length_cons] at hlen hle
    refine ⟨?_, ?_, ?_⟩
    · rw [compact_loop_hole_next hk hb, if_neg (by simp [hc])]
    · simp only [List.length_cons]
      omega
    · simp only [List.length_cons]
      omega
  · intro mem mem1 pre pre1 rest rest1 reg reg1 n hk hb hc
    rw [compact_loop_hole_next hk hb, if_pos hc]
  · intro mem mem1 pre pre1 rest reg reg1 hk hb
    exact compact_loop_hole_end hk hb
  · exact compact_loop_nil
  · intro s hs
    rcases hs with h | ⟨m, p, hm, hp⟩
    · refine ⟨s, 0, ?_, le_refl _⟩
      unfold compact_regs
      simp [h]
    · obtain ⟨pre, r, post⟩ := p
      have hlen := compact_loop_length (r :: post).length (r :: post) s.mem pre (le_refl _)
      have hn := (locate_some hp).1
      refine ⟨{ s with mem := (compact_loop s.mem pre (r :: post)).1,
                       nodes := (compact_loop s.mem pre (r :: post)).2.1 },
        (compact_loop s.mem pre (r :: post)).2.2, ?_, ?_⟩
      · unfold compact_regs
        simp [hm, hp]
      · show (compact_loop s.mem pre (r :: post)).2.1.length ≤ s.nodes.length
        rw [hn]
        simpa using hlen

/-! ## Request followed by release -/

theorem merge_right_keep {x : region} {post : List region}
    (h : ∀ n ∈ post.head?, n.kind ≠ R_HOLE) : merge_right x post = (x, post) := by
  cases post with
  | nil => rfl
  | cons n post1 =>
    have hn : n.kind ≠ R_HOLE := h n (by simp)
    simp [merge_right, hn]

theorem merge_left_keep {pre : List region} (x : region) (post : List region)
    (h : ∀ n ∈ pre.getLast?, n.kind ≠ R_HOLE) : merge_left pre x post = pre ++ x :: post := by
  unfold merge_left
  cases hp : pre.getLast? with
  | none => rfl
  | some p =>
    have hn : p.kind ≠ R_HOLE := h p (by simp [hp])
    simp [hn]

/-- The release of the region just carved off the hole `h` gives back a hole
with the start and the size of `h`, at the node of the region. -/
theorem released_carve {pre post : List region} {h : region} (new pid : Nat) {size : Nat}
    (hk : h.kind = R_HOLE) (hsz : size ≤ h.size)
    (hbl : ∀ n ∈ pre.getLast?, n.kind ≠ R_HOLE) (hbr : ∀ n ∈ post.head?, n.kind ≠ R_HOLE) :
    ∃ tl, carve new h pid size = region_init new R_PROC h.start size pid :: tl ∧
      released pre (region_init new R_PROC h.start size pid) (tl ++ post)
        = pre ++ region_init new R_HOLE h.start h.size 0 :: post := by
  by_cases he : h.size = size
  · refine ⟨[], by simp [carve, he], ?_⟩
    unfold released
    rw [List.nil_append, merge_right_keep hbr, merge_left_keep _ _ hbl]
    simp [region_init, he]
  · refine ⟨[{ h with start := h.start + size, size := h.size - size }],
      by simp [carve, he], ?_⟩
    unfold released
    have hm : merge_right ({ region_init new R_PROC h.start size pid with
          kind := R_HOLE, pid := 0 } : region)
        ([{ h with start := h.start + size, size := h.size - size }] ++ post)
        = (region_init new R_HOLE h.start h.size 0, post) := by
      simp only [merge_right, List.singleton_append, hk, if_true, region_init, Prod.mk.injEq,
        and_true]
      congr 1
      omega
    rw [hm, merge_left_keep _ _ hbl]

/-- The state after a request of `pid`, which owns nothing, served in the
hole `h`, and the release that follows. -/
theorem request_release {total : Nat} {s : State} (hI : Inv total s)
    {pre post : List region} {h : region} {pid size : Nat}
    (hn : s.nodes = pre ++ h :: post) (hk : h.kind = R_HOLE) (hsz : size ≤ h.size)
    (h0 : size ≠ 0) (hnone : lookup s.nodes s.proc_table pid = some none)
    (hm1 : malloc_ok s.heap = true) (hm2 : malloc_ok s.heap.tail = true) :
    ∃ s1 s2, request_fresh s (some h) pid size = some (s1, 0) ∧
      release_reg s1 pid = some (s2, 0) ∧ Inv total s2 ∧
      s2.nodes = pre ++ region_init s.brk R_HOLE h.start h.size 0 :: post ∧
      s2.proc_table = s.proc_table := by
  obtain ⟨e1, hI1⟩ := request_fresh_spec hI hn hk hsz h0 hnone hm1 hm2
  have hch := hI.no_adj_holes
  rw [hn] at hch
  have hch2 : (pre ++ [h] ++ post).Chain' (fun a b => ¬ (a.kind = R_HOLE ∧ b.kind = R_HOLE)) := by
    simpa using hch
  obtain ⟨_, _, _, c1, c2⟩ := chain_parts hch2
  have hbl : ∀ n ∈ pre.getLast?, n.kind ≠ R_HOLE :=
    fun n hn1 hnk => c1 n hn1 h (by simp) ⟨hnk, hk⟩
  have hbr : ∀ n ∈ post.head?, n.kind ≠ R_HOLE :=
    fun n hn1 hnk => c2 h (by simp) n hn1 ⟨hk, hnk⟩
  obtain ⟨tl, hc, hrel⟩ := released_carve s.brk pid hk hsz hbl hbr
  rw [hc] at e1 hI1
  have hn1 : pre ++ region_init s.brk R_PROC h.start size pid :: tl ++ post
      = pre ++ region_init s.brk R_PROC h.start size pid :: (tl ++ post) := by simp
  rw [hn1] at e1 hI1
  have hlook1 : lookup_chain (pre ++ region_init s.brk R_PROC h.start size pid :: (tl ++ post))
      pid (Function.update s.proc_table (hash pid)
        ({ reg := some s.brk } :: s.proc_table (hash pid)) (hash pid))
      = some (some { reg := some s.brk }) := by
    rw [Function.update_same]
    exact @lookup_chain_found _ hI1.addr_nodup _ [] _ _
      (region_init s.brk R_PROC h.start size pid) (by simp) (by simp) rfl rfl
  have e2 := release_reg_owned hI1 (r := region_init s.brk R_PROC h.start size pid) rfl hlook1
  have hI2 := release_reg_owned_inv hI1 (r := region_init s.brk R_PROC h.start size pid) rfl rfl
  refine ⟨_, _, e1, e2, hI2, hrel, ?_⟩
  show table_without (Function.update s.proc_table (hash pid)
      ({ reg := some s.brk } :: s.proc_table (hash pid)))
      (region_init s.brk R_PROC h.start size pid) = s.proc_table
  unfold table_without
  simp [region_init]

/-- C20 (allocate-then-release round trip): in a reachable state, for a pid
that owns no region, a size above 0 and a flag among F, B and W, when
`request_reg(pid, size, flag)` returns 0 the call `release_reg(pid)` that
follows returns 0, and afterwards the ledger read as the sequence of (kind,
start, size, owner) is the one before the request, the process table is the
one before the request, `lookup` of every pid returns what it returned before
the request, and every pid owns the region it owned before. -/
theorem C20_round_trip (total : Nat) (s : State) (hpos : 0 < total) (hlt : total < ULONG_MOD)
    (hr : Reachable total s) (pid size : Nat) (flag : Char)
    (hfree : ∀ r ∈ ledger s, r.kind = R_PROC → r.pid ≠ pid) (h0 : 0 < size)
    (hf : flag = 'F' ∨ flag = 'B' ∨ flag = 'W') (s1 : State)
    (hreq : request_reg s pid size flag = some (s1, 0)) :
    ∃ s2, release_reg s1 pid = some (s2, 0) ∧
      (ledger s2).map view = (ledger s).map view ∧
      s2.proc_table = s.proc_table ∧
      (∀ pid1, lookup s2.nodes s2.proc_table pid1 = lookup s.nodes s.proc_table pid1) ∧
      (∀ pid1 r, Owns (ledger s2) pid1 r ↔ Owns (ledger s) pid1 r) := by
  have hI := reachable_inv hpos hlt hr
  have hl := inv_ledger hI
  rw [hl] at hfree ⊢
  have hs0 : size ≠ 0 := by omega
  rw [request_reg_unowned hI flag hs0 hfree, if_pos hf] at hreq
  cases hch : chosen_hole flag s.nodes size with
  | none =>
    rw [hch] at hreq
    simp [request_fresh, E_MEM] at hreq
  | some h =>
    rw [hch] at hreq
    obtain ⟨hm, hk, hsz⟩ := chosen_hole_mem hch
    obtain ⟨pre, post, hn⟩ := List.append_of_mem hm
    have hnone := lookup_absent hI hfree
    have hm1 : malloc_ok s.heap = true := by
      by_contra hne
      rw [request_fresh_nonode s h pid size (by simpa using hne)] at hreq
      simp at hreq
    have hm2 : malloc_ok s.heap.tail = true := by
      by_contra hne
      rw [(request_fresh_noentry hI hn hk hsz hs0 hnone hm1 (by simpa using hne)).1] at hreq
      simp at hreq
    obtain ⟨t1, s2, e1, e2, hI2, hn2, ht2⟩ :=
      request_release hI hn hk hsz hs0 hnone hm1 hm2
    rw [e1] at hreq
    simp only [Option.some.injEq, Prod.mk.injEq, and_true] at hreq
    subst hreq
    have hp : h.pid = 0 := hI.hole_pid h hm hk
    -- the process regions are the same nodes before and after
    have hproc : ∀ r : region, r.kind = R_PROC → (r ∈ s2.nodes ↔ r ∈ s.nodes) := by
      intro r hrk
      rw [hn, hn2]
      simp only [List.mem_append, List.mem_cons]
      constructor
      · rintro (h1 | h1 | h1)
        · exact Or.inl h1
        · rw [h1] at hrk
          simp [region_init] at hrk
        · exact Or.inr (Or.inr h1)
      · rintro (h1 | h1 | h1)
        · exact Or.inl h1
        · rw [h1, hk] at hrk
          simp at hrk
        · exact Or.inr (Or.inr h1)
    refine ⟨s2, e2, ?_, ht2, ?_, ?_⟩
    · rw [inv_ledger hI2, hn2, hn]
      simp [view, region_init, hk, hp]
    · intro pid1
      unfold lookup
      rw [ht2]
      apply lookup_chain_congr hI.addr_nodup hI2.addr_nodup
      intro p hp1
      obtain ⟨r, hr1, hreg, hrk, _⟩ := hI.tbl_sound _ p hp1
      exact ⟨r, hr1, r, (hproc r hrk).mpr hr1, hreg, rfl, rfl⟩
    · intro pid1 r
      rw [inv_ledger hI2]
      unfold Owns
      constructor
      · rintro ⟨h1, h2, h3⟩
        exact ⟨(hproc r h2).mp h1, h2, h3⟩
      · rintro ⟨h1, h2, h3⟩
        exact ⟨(hproc r h2).mpr h1, h2, h3⟩

theorem C20_round_trip_witness :
    ∃ s2, release_reg state_two_procs 2 = some (s2, 0) ∧
      (ledger s2).map view = (ledger state_one_proc).map view ∧
      s2.proc_table = state_one_proc.proc_table ∧
      (∀ pid1, lookup s2.nodes s2.proc_table pid1
        = lookup state_one_proc.nodes state_one_proc.proc_table pid1) ∧
      (∀ pid1 r, Owns (ledger s2) pid1 r ↔ Owns (ledger state_one_proc) pid1 r) :=
  C20_round_trip 100 state_one_proc (by decide) (by decide)
    (Reachable.step (Cmd.RQ 1 20 'F') (Reachable.init []) rfl) 2 30 'F'
    (by simp [ledger, locate, state_one_proc]) (by decide) (Or.inl rfl) state_two_procs rfl

end Allocator

namespace Pager

/-! ## Page replacement steps -/

theorem store_some {a : List Int} {i : Nat} (v : Int) (h : i < a.length) :
    store a i v = some (a.set i v) := by
  simp [store, h]

theorem incr_some {x : Int} (h : x < INT_MAX) : incr x = some (x + 1) := by
  simp [incr, h]

/-- The loop of `find_page` returns, with -1 exactly when the page is in none
of the slots it read. -/
theorem find_page_from_spec (frames : List Int) (page : Int) (k i : Nat)
    (h : i + k ≤ frames.length) :
    ∃ r, find_page_from frames page k i = some r ∧
      (r = -1 ↔ page ∉ (frames.drop i).take k) := by
  induction k generalizing i with
  | zero => exact ⟨-1, rfl, by simp⟩
  | succ k ih =>
    have hi : i < frames.length := by omega
    obtain ⟨r, h1, h2⟩ := ih (i + 1) (by omega)
    rw [List.drop_eq_getElem_cons hi, List.take_succ_cons]
    unfold find_page_from
    rw [List.getElem?_eq_getElem hi]
    by_cases hv : frames[i] = page
    · refine ⟨(i : Int), by simp [hv], ?_⟩
      constructor
      · intro he
        omega
      · intro hn
        exact absurd (by simp [hv]) hn
    · refine ⟨r, by simp [hv, h1], ?_⟩
      rw [h2]
      simp only [List.mem_cons, not_or]
      constructor
      · intro hn
        exact ⟨fun he => hv he.symm, hn⟩
      · intro hn
        exact hn.2

theorem find_page_spec {frames : List Int} {nframes : Nat} (page : Int)
    (h : nframes ≤ frames.length) :
    ∃ r, find_page frames nframes page = some r ∧
      (r = -1 ↔ page ∉ frames.take nframes) := by
  have := find_page_from_spec frames page nframes 0 (by omega)
  simpa [find_page] using this

/-- The search for a free frame returns, with an index among those it read. -/
theorem free_frame_from_spec (frames : List Int) (k i : Nat) (h : i + k ≤ frames.length) :
    ∃ r, free_frame_from frames k i = some r ∧ ∀ j, r = some j → j < i + k := by
  induction k generalizing i with
  | zero => exact ⟨none, rfl, by simp⟩
  | succ k ih =>
    have hi : i < frames.length := by omega
    obtain ⟨r, h1, h2⟩ := ih (i + 1) (by omega)
    unfold free_frame_from
    rw [List.getElem?_eq_getElem hi]
    by_cases hv : frames[i] = -1
    · refine ⟨some i, by simp [hv], ?_⟩
      intro j hj
      simp only [Option.some.injEq] at hj
      omega
    · refine ⟨r, by simp [hv, h1], ?_⟩
      intro j hj
      have := h2 j hj
      omega

/-- The search for the least recently used frame returns, with the index it
started with or one of those it read. -/
theorem lru_victim_from_spec (last_used : List Int) (k i victim : Nat) (oldest : Int)
    (h : i + k ≤ last_used.length) :
    ∃ v, lru_victim_from last_used k i victim oldest = some v ∧ (v = victim ∨ v < i + k) := by
  induction k generalizing i victim oldest with
  | zero => exact ⟨victim, rfl, Or.inl rfl⟩
  | succ k ih =>
    have hi : i < last_used.length := by omega
    unfold lru_victim_from
    rw [List.getElem?_eq_getElem hi]
    simp only
    split
    · obtain ⟨v, h1, h2⟩ := ih (i + 1) i last_used[i] (by omega)
      exact ⟨v, h1, Or.inr (by omega)⟩
    · obtain ⟨v, h1, h2⟩ := ih (i + 1) victim oldest (by omega)
      exact ⟨v, h1, by omega⟩

/-- The inner loop of `opt_step` returns when the indices it reads are inside
`refs`. -/
theorem next_use_from_some (refs : List Int) (p : Int) (k : Nat) (j : Int) (hj : 0 ≤ j)
    (h : j.toNat + k ≤ refs.length) : ∃ r, next_use_from refs p k j = some r := by
  induction k generalizing j with
  | zero => exact ⟨-1, rfl⟩
  | succ k ih =>
    have hi : j.toNat < refs.length := by omega
    unfold next_use_from
    rw [if_neg (by omega), List.getElem?_eq_getElem hi]
    simp only
    split
    · exact ⟨j, rfl⟩
    · exact ih (j + 1) (by omega) (by omega)

theorem next_use_some (refs : List Int) (p : Int) {pos ref_len : Int} (h0 : 0 ≤ pos)
    (hmax : pos < INT_MAX) (hlen : ref_len ≤ refs.length) :
    ∃ r, next_use refs pos ref_len p = some r := by
  unfold next_use
  rw [incr_some hmax]
  simp only
  by_cases hk : ref_len ≤ pos + 1
  · have : (ref_len - (pos + 1)).toNat = 0 := by omega
    rw [this]
    exact ⟨-1, rfl⟩
  · exact next_use_from_some refs p _ _ (by omega) (by omega)

/-- The search for the victim of `opt_step` returns, with the index it
started with or one of those it read. -/
theorem opt_victim_from_spec (frames refs : List Int) {pos ref_len : Int} (h0 : 0 ≤ pos)
    (hmax : pos < INT_MAX) (hlen : ref_len ≤ refs.length) (hrl : ref_len < INT_MAX)
    (k i victim : Nat) (farthest : Int) (h : i + k ≤ frames.length) :
    ∃ v, opt_victim_from frames refs pos ref_len k i victim farthest = some v ∧
      (v = victim ∨ v < i + k) := by
  induction k generalizing i victim farthest with
  | zero => exact ⟨victim, rfl, Or.inl rfl⟩
  | succ k ih =>
    have hi : i < frames.length := by omega
    obtain ⟨nu, hnu⟩ := next_use_some refs frames[i] h0 hmax hlen
    unfold opt_victim_from
    rw [List.getElem?_eq_getElem hi]
    simp only [hnu, incr_some hrl]
    split
    · exact ⟨i, rfl, Or.inr (by omega)⟩
    · split
      · obtain ⟨v, h1, h2⟩ := ih (i + 1) i nu (by omega)
        exact ⟨v, h1, Or.inr (by omega)⟩
      · obtain ⟨v, h1, h2⟩ := ih (i + 1) victim farthest (by omega)
        exact ⟨v, h1, by omega⟩

/-- The contract on a hit: nothing changes and 0 is returned. -/
theorem contract_hit {nframes : Nat} {page : Int} {frames : List Int} (faults : Int)
    (h : page ∈ frames.take nframes) :
    StepContract nframes page frames faults frames faults 0 := by
  refine ⟨?_, ?_, by simp, h, rfl, ⟨0, fun _ _ => rfl⟩, fun _ => rfl⟩
  · simp [h]
  · simp [h]

/-- The contract on a miss: the page is stored in a slot below `nframes` and
1 is returned. -/
theorem contract_miss {nframes : Nat} {page : Int} {frames : List Int} (faults : Int)
    {v : Nat} (h : page ∉ frames.take nframes) (hv : v < nframes)
    (hn : nframes ≤ frames.length) :
    StepContract nframes page frames faults (frames.set v page) (faults + 1) 1 := by
  refine ⟨?_, ?_, rfl, ?_, by simp, ⟨v, fun j hj => ?_⟩, fun h1 => by simp at h1⟩
  · simp [h]
  · simp [h]
  · rw [List.mem_iff_getElem?]
    refine ⟨v, ?_⟩
    rw [List.getElem?_take_of_lt hv]
    have hl : v < frames.length := by omega
    simp [List.getElem?_set, hl]
  · exact List.getElem?_set_ne (Ne.symm hj)

theorem resident_of_found {frames : List Int} {nframes : Nat} {page r : Int}
    (hiff : r = -1 ↔ page ∉ frames.take nframes) (hr : r ≠ -1) :
    page ∈ frames.take nframes := by
  by_contra hn
  exact hr (hiff.mpr hn)

/-- The contract of `fifo_step`; `next` stays below `nframes`. -/
theorem fifo_step_spec (s : FIFOState) {nframes : Nat} (page : Int) (h1 : 1 ≤ nframes)
    (hlen : nframes ≤ s.frames.length) (hn0 : 0 ≤ s.next) (hn1 : s.next < nframes)
    (hf : s.faults < INT_MAX) :
    ∃ s1 ret, fifo_step s nframes page = some (s1, ret) ∧
      StepContract nframes page s.frames s.faults s1.frames s1.faults ret ∧
      0 ≤ s1.next ∧ s1.next < nframes := by
  obtain ⟨r, hr, hiff⟩ := find_page_spec page hlen
  unfold fifo_step
  rw [hr]
  by_cases hr1 : r = -1
  · have hmiss := hiff.mp hr1
    obtain ⟨f, hfree, hfj⟩ := free_frame_from_spec s.frames nframes 0 (by omega)
    simp only [hr1, ne_eq, not_true_eq_false, if_false, incr_some hf, hfree]
    cases f with
    | some j =>
      have hj : j < nframes := by have := hfj j rfl; omega
      simp only [store_some page (show j < s.frames.length by omega)]
      exact ⟨_, _, rfl, contract_miss s.faults hmiss hj hlen, hn0, hn1⟩
    | none =>
      have hnn : ¬ s.next < 0 := by omega
      have hj : s.next.toNat < nframes := by omega
      have hne : nframes ≠ 0 := by omega
      simp only [hnn, if_false, store_some page (show s.next.toNat < s.frames.length by omega),
        hne]
      refine ⟨_, _, rfl, contract_miss s.faults hmiss hj hlen, ?_, ?_⟩
      · exact Int.tmod_nonneg _ (by omega)
      · exact Int.tmod_lt_of_pos _ (by omega)
  · simp only [ne_eq, hr1, not_false_eq_true, if_true]
    exact ⟨_, _, rfl, contract_hit s.faults (resident_of_found hiff hr1), hn0, hn1⟩

/-- The index returned by the loop of `find_page` is -1 or one of those it
read. -/
theorem find_page_from_range (frames : List Int) (page : Int) (k i : Nat) {r : Int}
    (h : find_page_from frames page k i = some r) (hr : r ≠ -1) :
    0 ≤ r ∧ r.toNat < i + k := by
  induction k generalizing i with
  | zero =>
    simp only [find_page_from, Option.some.injEq] at h
    exact absurd h.symm hr
  | succ k ih =>
    unfold find_page_from at h
    split at h
    · simp at h
    · split at h
      · simp only [Option.some.injEq] at h
        omega
      · have := ih (i + 1) h
        omega

/-- The contract of `lru_step`. -/
theorem lru_step_spec (s : LRUState) {nframes : Nat} (page time : Int) (h1 : 1 ≤ nframes)
    (hlen : nframes ≤ s.frames.length) (hlu : nframes ≤ s.last_used.length)
    (hf : s.faults < INT_MAX) :
    ∃ s1 ret, lru_step s nframes page time = some (s1, ret) ∧
      StepContract nframes page s.frames s.faults s1.frames s1.faults ret := by
  obtain ⟨r, hr, hiff⟩ := find_page_spec page hlen
  unfold lru_step
  rw [hr]
  by_cases hr1 : r = -1
  · have hmiss := hiff.mp hr1
    obtain ⟨f, hfree, hfj⟩ := free_frame_from_spec s.frames nframes 0 (by omega)
    simp only [hr1, ne_eq, not_true_eq_false, if_false, incr_some hf, hfree]
    cases f with
    | some j =>
      have hj : j < nframes := by have := hfj j rfl; omega
      simp only [store_some page (show j < s.frames.length by omega),
        store_some time (show j < s.last_used.length by omega)]
      exact ⟨_, _, rfl, contract_miss s.faults hmiss hj hlen⟩
    | none =>
      have h0 : 0 < s.last_used.length := by omega
      obtain ⟨v, hv, hvr⟩ := lru_victim_from_spec s.last_used (nframes - 1) 1 0
        s.last_used[0] (by omega)
      have hj : v < nframes := by omega
      simp only [List.getElem?_eq_getElem h0, hv,
        store_some page (show v < s.frames.length by omega),
        store_some time (show v < s.last_used.length by omega)]
      exact ⟨_, _, rfl, contract_miss s.faults hmiss hj hlen⟩
  · obtain ⟨_, hrange⟩ := find_page_from_range s.frames page nframes 0 hr hr1
    simp only [ne_eq, hr1, not_false_eq_true, if_true,
      store_some time (show r.toNat < s.last_used.length by omega)]
    exact ⟨_, _, rfl, contract_hit s.faults (resident_of_found hiff hr1)⟩

/-- The contract of `opt_step`. -/
theorem opt_step_spec (s : OPTState) {nframes : Nat} (page : Int) {pos ref_len : Int}
    (refs : List Int) (h1 : 1 ≤ nframes) (hlen : nframes ≤ s.frames.length)
    (hf : s.faults < INT_MAX) (h0 : 0 ≤ pos) (hmax : pos < INT_MAX)
    (hrefs : ref_len ≤ refs.length) (hrl : ref_len < INT_MAX) :
    ∃ s1 ret, opt_step s nframes page pos refs ref_len = some (s1, ret) ∧
      StepContract nframes page s.frames s.faults s1.frames s1.faults ret := by
  obtain ⟨r, hr, hiff⟩ := find_page_spec page hlen
  unfold opt_step
  rw [hr]
  by_cases hr1 : r = -1
  · have hmiss := hiff.mp hr1
    obtain ⟨f, hfree, hfj⟩ := free_frame_from_spec s.frames nframes 0 (by omega)
    simp only [hr1, ne_eq, not_true_eq_false, if_false, incr_some hf, hfree]
    cases f with
    | some j =>
      have hj : j < nframes := by have := hfj j rfl; omega
      simp only [store_some page (show j < s.frames.length by omega)]
      exact ⟨_, _, rfl, contract_miss s.faults hmiss hj hlen⟩
    | none =>
      obtain ⟨v, hv, hvr⟩ := opt_victim_from_spec s.frames refs h0 hmax hrefs hrl nframes 0 0
        (-1) (by omega)
      have hj : v < nframes := by omega
      simp only [hv, store_some page (show v < s.frames.length by omega)]
      exact ⟨_, _, rfl, contract_miss s.faults hmiss hj hlen⟩
  · simp only [ne_eq, hr1, not_false_eq_true, if_true]
    exact ⟨_, _, rfl, contract_hit s.faults (resident_of_found hiff hr1)⟩

/-- C21, counterexample.  With one frame that holds page 3 and `next` = 1 (a
slot of the array outside `frames[0..nframes)`), `fifo_step` for page 4
returns 1 and stores the page in slot 1: the page is not resident in
`frames[0..1)` afterwards.  With a fault count of `INT_MAX` the increment
`faults++` of a miss overflows, so none of the three steps has a defined
result.  With a reference array of one entry and `ref_len` = 2, the search of
`opt_step` for the next use reads `refs[1]`, outside the array. -/
theorem C21_counterexample :
    (∃ s1, fifo_step { frames := frames_one, next := 1, faults := 0 } 1 4 = some (s1, 1) ∧
      s1.frames = 3 :: 4 :: List.replicate 48 (-1) ∧ (4 : Int) ∉ s1.frames.take 1) ∧
    (fifo_step { frames := frames_one, next := 0, faults := INT_MAX } 1 4 = none ∧
      lru_step { frames := frames_one, last_used := List.replicate 50 (-1),
                 faults := INT_MAX } 1 4 0 = none ∧
      opt_step { frames := frames_one, faults := INT_MAX } 1 4 0 [4] 1 = none) ∧
    opt_step { frames := frames_one, faults := 0 } 1 4 0 [4] 2 = none :=
  ⟨⟨_, rfl, rfl, by decide⟩, ⟨rfl, rfl, rfl⟩, rfl⟩

/-- C21, amended (page-replacement step contract): for every `nframes` in
1..50, every page and every state whose frame array has its 50 slots and whose
fault count is below `INT_MAX` (for FIFO with `next` in `0..nframes-1`, for LRU
with the 50 slots of `last_used`, for OPT called with `0 ≤ pos < INT_MAX`,
`ref_len < INT_MAX` and a reference array of at least `ref_len` entries), each
of `fifo_step`, `lru_step` and `opt_step` returns; it returns 1 exactly when
the page was not in `frames[0..nframes)` before the call and 0 otherwise,
increases `faults` by exactly the value it returns, leaves the page resident
in `frames[0..nframes)`, changes at most one frame slot, and on a hit leaves
the frame contents unchanged.  After `fifo_step`, `next` is again in
`0..nframes-1`.  The contents of the slots and the sign of the page play no
part. -/
theorem C21_step_contract (nframes : Nat) (page : Int) (sf : FIFOState) (sl : LRUState)
    (so : OPTState) (time pos ref_len : Int) (refs : List Int)
    (h1 : 1 ≤ nframes) (h50 : nframes ≤ MAX_FRAMES)
    (hff : sf.frames.length = MAX_FRAMES) (hfn : 0 ≤ sf.next ∧ sf.next < nframes)
    (hfc : sf.faults < INT_MAX)
    (hlf : sl.frames.length = MAX_FRAMES) (hll : sl.last_used.length = MAX_FRAMES)
    (hlc : sl.faults < INT_MAX)
    (hof : so.frames.length = MAX_FRAMES) (hoc : so.faults < INT_MAX)
    (hp0 : 0 ≤ pos) (hp1 : pos < INT_MAX) (hrefs : ref_len ≤ refs.length)
    (hrl : ref_len < INT_MAX) :
    (∃ s1 ret, fifo_step sf nframes page = some (s1, ret) ∧
      StepContract nframes page sf.frames sf.faults s1.frames s1.faults ret ∧
      0 ≤ s1.next ∧ s1.next < nframes) ∧
    (∃ s1 ret, lru_step sl nframes page time = some (s1, ret) ∧
      StepContract nframes page sl.frames sl.faults s1.frames s1.faults ret) ∧
    (∃ s1 ret, opt_step so nframes page pos refs ref_len = some (s1, ret) ∧
      StepContract nframes page so.frames so.faults s1.frames s1.faults ret) :=
  ⟨fifo_step_spec sf page h1 (by omega) hfn.1 hfn.2 hfc,
   lru_step_spec sl page time h1 (by omega) (by omega) hlc,
   opt_step_spec so page refs h1 (by omega) hoc hp0 hp1 hrefs hrl⟩

theorem C21_step_contract_witness :
    (∃ s1 ret, fifo_step { frames := frames_full, next := 0, faults := 3 } 3 7 = some (s1, ret) ∧
      StepContract 3 7 frames_full 3 s1.frames s1.faults ret ∧
      0 ≤ s1.next ∧ s1.next < (3 : Nat)) ∧
    (∃ s1 ret, lru_step { frames := frames_full, last_used := [0, 1, 2] ++ List.replicate 47 (-1),
                          faults := 3 } 3 7 3 = some (s1, ret) ∧
      StepContract 3 7 frames_full 3 s1.frames s1.faults ret) ∧
    (∃ s1 ret, opt_step { frames := frames_full, faults := 3 } 3 7 3 [1, 2, 3, 7, 2] 5
        = some (s1, ret) ∧
      StepContract 3 7 frames_full 3 s1.frames s1.faults ret) :=
  C21_step_contract 3 7 { frames := frames_full, next := 0, faults := 3 }
    { frames := frames_full, last_used := [0, 1, 2] ++ List.replicate 47 (-1), faults := 3 }
    { frames := frames_full, faults := 3 } 3 3 5 [1, 2, 3, 7, 2]
    (by decide) (by decide) rfl (by decide) (by decide) rfl rfl (by decide) rfl (by decide)
    (by decide) (by decide) (by decide) (by decide)

end Pager
